import Mathlib

/-!
Verification of `jupyblog`'s UTM-annotation core (`src/jupyblog/utm.py`).

The Python module under verification is:

  def find_urls(text):
      return re.findall(r"https?://[^\s\(\)]+", text)

  def add_utm_to_url(url, source, medium, campaign):
      if isinstance(url, str):
          parsed = urlparse(url)
      else:
          parsed = url
      current_params = dict(parse_qsl(parsed.query))
      utm = {'utm_source': source, 'utm_medium': medium, 'utm_campaign': campaign}
      parsed = parsed._replace(query=urlencode({**current_params, **utm}))
      return parsed.geturl()

  def add_utm_to_all_urls(text, source, medium, campaign):
      urls = [urlparse(url) for url in find_urls(text)]
      urls = [url for url in urls if not is_image(url.path)]
      mapping = {url.geturl(): add_utm_to_url(url, source, medium, campaign)
                 for url in urls}
      for original, new in mapping.items():
          text = text.replace(original, new)
      return text

  def is_image(image_url_path):
      path = PurePosixPath(image_url_path).name
      return any(path.endswith(f'.{suffix}')
                 for suffix in {'png', 'jpg', 'jpeg', 'svg', 'webp', 'gif'})

Strings are modelled as `List Char` (Python `str` is a sequence of Unicode
code points, as is `List Char` here).  The CPython standard-library helpers
the module calls (`urllib.parse.urlparse` / `urlencode` / `parse_qsl`,
`str.replace`, `re.findall`, `pathlib.PurePosixPath.name`) are embedded
below following the CPython reference implementations.  `urlparse` can
raise `ValueError` ("Invalid IPv6 URL") on a netloc with unbalanced square
brackets; this is modelled with `Option` (`none` = exception).  CPython's
NFKC-normalization netloc check (which can only fire on non-ASCII netlocs)
and the bracketed-host validity check added in Python 3.11 are not
modelled.
-/

/-! ## Character classes -/

/-- Python `re` `\s` for text patterns: Unicode whitespace. -/
def pyIsSpace (c : Char) : Bool :=
  c.toNat ∈ [0x9, 0xA, 0xB, 0xC, 0xD, 0x1C, 0x1D, 0x1E, 0x1F, 0x20, 0x85,
    0xA0, 0x1680, 0x2000, 0x2001, 0x2002, 0x2003, 0x2004, 0x2005, 0x2006,
    0x2007, 0x2008, 0x2009, 0x200A, 0x2028, 0x2029, 0x202F, 0x205F, 0x3000]

/-- Characters allowed inside a `find_urls` match after the scheme:
the regex character class `[^\s\(\)]`. -/
def urlChar (c : Char) : Bool :=
  ¬ pyIsSpace c ∧ c ≠ '(' ∧ c ≠ ')'

def isAsciiDigit (c : Char) : Bool := '0' ≤ c ∧ c ≤ '9'

def isAsciiAlpha (c : Char) : Bool := ('a' ≤ c ∧ c ≤ 'z') ∨ ('A' ≤ c ∧ c ≤ 'Z')

/-- `urllib.parse.scheme_chars`: ASCII letters, digits and `+-.`. -/
def isSchemeChar (c : Char) : Bool :=
  isAsciiAlpha c ∨ isAsciiDigit c ∨ c = '+' ∨ c = '-' ∨ c = '.'

/-- ASCII lower-casing, as `str.lower` acts on the all-ASCII scheme. -/
def pyLowerChar (c : Char) : Char :=
  if 'A' ≤ c ∧ c ≤ 'Z' then Char.ofNat (c.toNat + 32) else c

def pyLower (s : List Char) : List Char := s.map pyLowerChar

/-- `urllib.parse` `_ALWAYS_SAFE`: characters `quote` never escapes. -/
def isAlwaysSafe (c : Char) : Bool :=
  isAsciiAlpha c ∨ isAsciiDigit c ∨ c = '_' ∨ c = '.' ∨ c = '-' ∨ c = '~'

def isHexDigit (c : Char) : Bool :=
  isAsciiDigit c ∨ ('a' ≤ c ∧ c ≤ 'f') ∨ ('A' ≤ c ∧ c ≤ 'F')

def hexVal (c : Char) : Nat :=
  if isAsciiDigit c then c.toNat - 48
  else if 'a' ≤ c ∧ c ≤ 'f' then c.toNat - 87
  else c.toNat - 55

/-- Upper-case hexadecimal digit for `n < 16` (as `quote` emits). -/
def hexDigitU (n : Nat) : Char :=
  if n < 10 then Char.ofNat (48 + n) else Char.ofNat (55 + n)

/-! ## List-of-characters helpers -/

/-- Split at the first occurrence of `c`: `some (before, after)` or `none`. -/
def splitAtFirst (c : Char) : List Char → Option (List Char × List Char)
  | [] => none
  | x :: xs =>
    if x = c then some ([], xs)
    else (splitAtFirst c xs).map (fun p => (x :: p.1, p.2))

theorem splitAtFirst_eq_none {c : Char} {l : List Char} :
    splitAtFirst c l = none ↔ c ∉ l := by
  induction l with
  | nil => simp [splitAtFirst]
  | cons x xs ih =>
    by_cases h : x = c
    · simp [splitAtFirst, h]
    · simp [splitAtFirst, h, ih]
      exact fun _ hcx => h hcx.symm

theorem splitAtFirst_eq_some {c : Char} {l a b : List Char}
    (h : splitAtFirst c l = some (a, b)) : l = a ++ c :: b ∧ c ∉ a := by
  induction l generalizing a b with
  | nil => simp [splitAtFirst] at h
  | cons x xs ih =>
    by_cases hx : x = c
    · simp [splitAtFirst, hx] at h
      simp [hx, h.1, ← h.2]
    · simp only [splitAtFirst, if_neg hx, Option.map_eq_some'] at h
      obtain ⟨⟨a', b'⟩, hs, he⟩ := h
      obtain ⟨h1, h2⟩ := ih hs
      cases he
      constructor
      · simp [h1]
      · simp [h2]
        exact fun hc => hx hc.symm

theorem splitAtFirst_append {c : Char} {a : List Char} (b : List Char)
    (ha : c ∉ a) : splitAtFirst c (a ++ c :: b) = some (a, b) := by
  induction a with
  | nil => simp [splitAtFirst]
  | cons x xs ih =>
    simp only [List.mem_cons, not_or] at ha
    have hx : ¬ x = c := fun hh => ha.1 hh.symm
    simp [splitAtFirst, hx, ih ha.2]

/-! ## UTF-8 (as CPython encodes/decodes for percent-escapes) -/

/-- UTF-8 encoding of one code point (given as a `Nat`). -/
def utf8EncodeNat (v : Nat) : List Nat :=
  if v < 0x80 then [v]
  else if v < 0x800 then [0xC0 + v / 0x40, 0x80 + v % 0x40]
  else if v < 0x10000 then
    [0xE0 + v / 0x1000, 0x80 + v / 0x40 % 0x40, 0x80 + v % 0x40]
  else
    [0xF0 + v / 0x40000, 0x80 + v / 0x1000 % 0x40, 0x80 + v / 0x40 % 0x40,
      0x80 + v % 0x40]

def utf8Encode (c : Char) : List Nat := utf8EncodeNat c.toNat

def isCont (b : Nat) : Bool := 0x80 ≤ b ∧ b ≤ 0xBF

/-- The Unicode replacement character U+FFFD. -/
def replChar : Char := Char.ofNat 0xFFFD

/-- UTF-8 decoding with the `errors='replace'` policy CPython uses in
`unquote` (substitution of maximal subparts: an invalid prefix is replaced
by one U+FFFD and decoding resumes at the first offending byte). -/
def utf8DecodeReplace : List Nat → List Char
  | [] => []
  | b :: bs =>
    if b < 0x80 then Char.ofNat b :: utf8DecodeReplace bs
    else if 0xC2 ≤ b ∧ b ≤ 0xDF then
      match bs with
      | b1 :: bs1 =>
        if isCont b1 then
          Char.ofNat ((b - 0xC0) * 0x40 + (b1 - 0x80)) :: utf8DecodeReplace bs1
        else replChar :: utf8DecodeReplace (b1 :: bs1)
      | [] => [replChar]
    else if 0xE0 ≤ b ∧ b ≤ 0xEF then
      match bs with
      | b1 :: bs1 =>
        if (b = 0xE0 → 0xA0 ≤ b1) ∧ (b = 0xED → b1 ≤ 0x9F) ∧ isCont b1 then
          match bs1 with
          | b2 :: bs2 =>
            if isCont b2 then
              Char.ofNat ((b - 0xE0) * 0x1000 + (b1 - 0x80) * 0x40 + (b2 - 0x80)) ::
                utf8DecodeReplace bs2
            else replChar :: utf8DecodeReplace (b2 :: bs2)
          | [] => [replChar]
        else replChar :: utf8DecodeReplace (b1 :: bs1)
      | [] => [replChar]
    else if 0xF0 ≤ b ∧ b ≤ 0xF4 then
      match bs with
      | b1 :: bs1 =>
        if (b = 0xF0 → 0x90 ≤ b1) ∧ (b = 0xF4 → b1 ≤ 0x8F) ∧ isCont b1 then
          match bs1 with
          | b2 :: bs2 =>
            if isCont b2 then
              match bs2 with
              | b3 :: bs3 =>
                if isCont b3 then
                  Char.ofNat ((b - 0xF0) * 0x40000 + (b1 - 0x80) * 0x1000 +
                      (b2 - 0x80) * 0x40 + (b3 - 0x80)) :: utf8DecodeReplace bs3
                else replChar :: utf8DecodeReplace (b3 :: bs3)
              | [] => [replChar]
            else replChar :: utf8DecodeReplace (b2 :: bs2)
          | [] => [replChar]
        else replChar :: utf8DecodeReplace (b1 :: bs1)
      | [] => [replChar]
    else replChar :: utf8DecodeReplace bs

theorem utf8Decode_one {b : Nat} (bs : List Nat) (h : b < 0x80) :
    utf8DecodeReplace (b :: bs) = Char.ofNat b :: utf8DecodeReplace bs := by
  rw [utf8DecodeReplace.eq_def]
  dsimp only
  rw [if_pos h]

theorem utf8Decode_two {b b1 : Nat} (bs : List Nat)
    (h2 : 0xC2 ≤ b ∧ b ≤ 0xDF) (hc : isCont b1 = true) :
    utf8DecodeReplace (b :: b1 :: bs) =
      Char.ofNat ((b - 0xC0) * 0x40 + (b1 - 0x80)) :: utf8DecodeReplace bs := by
  rw [utf8DecodeReplace.eq_def]
  dsimp only
  rw [if_neg (by omega), if_pos h2, if_pos hc]

theorem utf8Decode_three {b b1 b2 : Nat} (bs : List Nat)
    (h3 : 0xE0 ≤ b ∧ b ≤ 0xEF)
    (hc1 : (b = 0xE0 → 0xA0 ≤ b1) ∧ (b = 0xED → b1 ≤ 0x9F) ∧ isCont b1 = true)
    (hc2 : isCont b2 = true) :
    utf8DecodeReplace (b :: b1 :: b2 :: bs) =
      Char.ofNat ((b - 0xE0) * 0x1000 + (b1 - 0x80) * 0x40 + (b2 - 0x80)) ::
        utf8DecodeReplace bs := by
  rw [utf8DecodeReplace.eq_def]
  dsimp only
  rw [if_neg (by omega), if_neg (by omega), if_pos h3, if_pos hc1, if_pos hc2]

theorem utf8Decode_four {b b1 b2 b3 : Nat} (bs : List Nat)
    (h4 : 0xF0 ≤ b ∧ b ≤ 0xF4)
    (hc1 : (b = 0xF0 → 0x90 ≤ b1) ∧ (b = 0xF4 → b1 ≤ 0x8F) ∧ isCont b1 = true)
    (hc2 : isCont b2 = true) (hc3 : isCont b3 = true) :
    utf8DecodeReplace (b :: b1 :: b2 :: b3 :: bs) =
      Char.ofNat ((b - 0xF0) * 0x40000 + (b1 - 0x80) * 0x1000 +
        (b2 - 0x80) * 0x40 + (b3 - 0x80)) :: utf8DecodeReplace bs := by
  rw [utf8DecodeReplace.eq_def]
  dsimp only
  rw [if_neg (by omega), if_neg (by omega), if_neg (by omega), if_pos h4,
    if_pos hc1, if_pos hc2, if_pos hc3]

/-- Decoding one encoded scalar value at the head of a byte stream. -/
theorem utf8_decode_encode (c : Char) (rest : List Nat) :
    utf8DecodeReplace (utf8Encode c ++ rest) = c :: utf8DecodeReplace rest := by
  have hvalid : c.toNat < 0xD800 ∨ (0xDFFF < c.toNat ∧ c.toNat < 0x110000) :=
    c.valid
  have hofnat : Char.ofNat c.toNat = c := Char.ofNat_toNat c
  rw [utf8Encode, utf8EncodeNat]
  by_cases h1 : c.toNat < 0x80
  · rw [if_pos h1]
    simp only [List.cons_append, List.nil_append]
    rw [utf8Decode_one rest h1, hofnat]
  · by_cases h2 : c.toNat < 0x800
    · rw [if_neg h1, if_pos h2]
      simp only [List.cons_append, List.nil_append]
      rw [utf8Decode_two rest (by omega)
        (by simp only [isCont, decide_eq_true_eq]; omega)]
      have he : (0xC0 + c.toNat / 0x40 - 0xC0) * 0x40 +
          (0x80 + c.toNat % 0x40 - 0x80) = c.toNat := by omega
      rw [he, hofnat]
    · by_cases h3 : c.toNat < 0x10000
      · rw [if_neg h1, if_neg h2, if_pos h3]
        simp only [List.cons_append, List.nil_append]
        rw [utf8Decode_three rest (by omega) ?hc1
          (by simp only [isCont, decide_eq_true_eq]; omega)]
        case hc1 =>
          refine ⟨fun he => by omega, fun he => ?_, ?_⟩
          · have hd : c.toNat / 0x1000 = 0xD := by omega
            omega
          · simp only [isCont, decide_eq_true_eq]; omega
        have he : (0xE0 + c.toNat / 0x1000 - 0xE0) * 0x1000 +
            (0x80 + c.toNat / 0x40 % 0x40 - 0x80) * 0x40 +
            (0x80 + c.toNat % 0x40 - 0x80) = c.toNat := by omega
        rw [he, hofnat]
      · rw [if_neg h1, if_neg h2, if_neg h3]
        simp only [List.cons_append, List.nil_append]
        rw [utf8Decode_four rest (by omega) ?hc41
          (by simp only [isCont, decide_eq_true_eq]; omega)
          (by simp only [isCont, decide_eq_true_eq]; omega)]
        case hc41 =>
          refine ⟨fun he => by omega, fun he => by omega, ?_⟩
          simp only [isCont, decide_eq_true_eq]; omega
        have he : (0xF0 + c.toNat / 0x40000 - 0xF0) * 0x40000 +
            (0x80 + c.toNat / 0x1000 % 0x40 - 0x80) * 0x1000 +
            (0x80 + c.toNat / 0x40 % 0x40 - 0x80) * 0x40 +
            (0x80 + c.toNat % 0x40 - 0x80) = c.toNat := by omega
        rw [he, hofnat]

/-! ## `urllib.parse.quote_plus` and `unquote` -/

/-- Percent-escape of one byte, upper-case hex (as `quote` emits). -/
def pctOfByte (b : Nat) : List Char := ['%', hexDigitU (b / 16), hexDigitU (b % 16)]

/-- `quote_plus` on one character: space becomes `+`, safe characters pass,
everything else is the percent-escaped UTF-8 encoding. -/
def pyQuotePlusChar (c : Char) : List Char :=
  if c = ' ' then ['+']
  else if isAlwaysSafe c then [c]
  else (utf8Encode c).flatMap pctOfByte

/-- `urllib.parse.quote_plus(s, safe='')`, as `urlencode` applies it. -/
def pyQuotePlus (s : List Char) : List Char := s.flatMap pyQuotePlusChar

/-- Collect the maximal leading run of `%XX` escapes into bytes. -/
def collectPct : List Char → List Nat × List Char
  | c :: h1 :: h2 :: rest =>
    if c = '%' ∧ isHexDigit h1 ∧ isHexDigit h2 then
      let p := collectPct rest
      ((hexVal h1 * 16 + hexVal h2) :: p.1, p.2)
    else ([], c :: h1 :: h2 :: rest)
  | l => ([], l)

theorem collectPct_length_aux (n : Nat) : ∀ (l : List Char), l.length ≤ n →
    (collectPct l).2.length ≤ l.length ∧
      ((collectPct l).1 ≠ [] → (collectPct l).2.length + 3 ≤ l.length) := by
  induction n with
  | zero =>
    intro l hl
    have : l = [] := List.length_eq_zero.mp (Nat.le_zero.mp hl)
    subst this
    simp [collectPct]
  | succ n ih =>
    intro l hl
    rcases l with _ | ⟨c, l1⟩
    · simp [collectPct]
    rcases l1 with _ | ⟨h1, l2⟩
    · simp [collectPct]
    rcases l2 with _ | ⟨h2, rest⟩
    · simp [collectPct]
    by_cases hcond : c = '%' ∧ isHexDigit h1 ∧ isHexDigit h2
    · rw [collectPct, if_pos hcond]
      have hr := ih rest (by simp at hl ⊢; omega)
      refine ⟨?_, fun _ => ?_⟩
      · simp
        omega
      · simp
        omega
    · rw [collectPct, if_neg hcond]
      exact ⟨le_refl _, fun h => absurd rfl h⟩

theorem collectPct_length (l : List Char) :
    (collectPct l).2.length ≤ l.length ∧
      ((collectPct l).1 ≠ [] → (collectPct l).2.length + 3 ≤ l.length) :=
  collectPct_length_aux l.length l (le_refl _)

/-- `urllib.parse.unquote(s, encoding='utf-8', errors='replace')`: literal
characters pass through; maximal runs of `%XX` escapes are decoded as UTF-8
with replacement. -/
def pyUnquote (l : List Char) : List Char :=
  match l with
  | [] => []
  | c :: rest =>
    if c = '%' then
      let p := collectPct (c :: rest)
      if hpe : p.1 = [] then c :: pyUnquote rest
      else utf8DecodeReplace p.1 ++ pyUnquote p.2
    else c :: pyUnquote rest
  termination_by l.length
  decreasing_by
  all_goals simp only [List.length_cons]
  · omega
  · have h2 := (collectPct_length (x :: xs)).2 hpe
    simp only [List.length_cons] at h2
    omega
  · omega

/-- The `.replace('+', ' ')` done by `parse_qsl` before unquoting. -/
def plusToSpace (s : List Char) : List Char :=
  s.map (fun c => if c = '+' then ' ' else c)

def pyUnquotePlus (s : List Char) : List Char := pyUnquote (plusToSpace s)

theorem hexVal_hexDigitU {n : Nat} (h : n < 16) : hexVal (hexDigitU n) = n := by
  interval_cases n <;> decide

theorem isHexDigit_hexDigitU {n : Nat} (h : n < 16) :
    isHexDigit (hexDigitU n) = true := by
  interval_cases n <;> decide

theorem utf8EncodeNat_lt (v : Nat) (hv : v < 0x110000) :
    ∀ b ∈ utf8EncodeNat v, b < 256 := by
  intro b hb
  rw [utf8EncodeNat] at hb
  by_cases h1 : v < 0x80
  · simp [h1] at hb
    omega
  · by_cases h2 : v < 0x800
    · simp [h1, h2] at hb
      rcases hb with hb | hb <;> omega
    · by_cases h3 : v < 0x10000
      · simp [h1, h2, h3] at hb
        rcases hb with hb | hb | hb <;> omega
      · simp [h1, h2, h3] at hb
        rcases hb with hb | hb | hb | hb <;> omega

theorem utf8Encode_lt (c : Char) : ∀ b ∈ utf8Encode c, b < 256 := by
  have hvalid : c.toNat < 0xD800 ∨ (0xDFFF < c.toNat ∧ c.toNat < 0x110000) :=
    c.valid
  exact utf8EncodeNat_lt c.toNat (by omega)

theorem utf8Encode_ne_nil (c : Char) : utf8Encode c ≠ [] := by
  rw [utf8Encode, utf8EncodeNat]
  split
  · simp
  · split
    · simp
    · split <;> simp

theorem collectPct_pctOfByte {b : Nat} (hb : b < 256) (t : List Char) :
    collectPct (pctOfByte b ++ t) =
      (b :: (collectPct t).1, (collectPct t).2) := by
  have h1 : b / 16 < 16 := by omega
  have h2 : b % 16 < 16 := by omega
  rw [pctOfByte]
  simp only [List.cons_append, List.nil_append]
  rw [collectPct, if_pos ⟨rfl, isHexDigit_hexDigitU h1, isHexDigit_hexDigitU h2⟩]
  rw [hexVal_hexDigitU h1, hexVal_hexDigitU h2]
  have : b / 16 * 16 + b % 16 = b := by omega
  rw [this]

theorem collectPct_flatMap {bs : List Nat} (hbs : ∀ b ∈ bs, b < 256)
    (t : List Char) :
    collectPct (bs.flatMap pctOfByte ++ t) =
      (bs ++ (collectPct t).1, (collectPct t).2) := by
  induction bs with
  | nil => simp
  | cons b bs ih =>
    simp only [List.flatMap_cons, List.append_assoc]
    rw [collectPct_pctOfByte (hbs b (by simp)) _,
      ih (fun x hx => hbs x (by simp [hx]))]
    simp

theorem utf8DecodeReplace_flatMap (u : List Char) :
    utf8DecodeReplace (u.flatMap utf8Encode) = u := by
  induction u with
  | nil => simp [utf8DecodeReplace]
  | cons c u ih =>
    simp only [List.flatMap_cons]
    rw [utf8_decode_encode, ih]

theorem collectPct_not_pct {l : List Char} (h : ∀ c, l.head? = some c → c ≠ '%') :
    collectPct l = ([], l) := by
  rcases l with _ | ⟨c, l1⟩
  · simp [collectPct]
  rcases l1 with _ | ⟨h1, l2⟩
  · simp [collectPct]
  rcases l2 with _ | ⟨h2, rest⟩
  · simp [collectPct]
  rw [collectPct, if_neg]
  intro hc
  exact h c rfl hc.1

theorem pyUnquote_nil : pyUnquote [] = [] := by
  rw [pyUnquote]

theorem pyUnquote_cons_lit {c : Char} (rest : List Char) (h : c ≠ '%') :
    pyUnquote (c :: rest) = c :: pyUnquote rest := by
  rw [pyUnquote]
  simp [h]

theorem pyUnquote_cons_pct {rest bs t : List Char} {B : List Nat}
    (hB : B ≠ []) (hc : collectPct ('%' :: rest) = (B, t))
    (hbs : bs = '%' :: rest) :
    pyUnquote bs = utf8DecodeReplace B ++ pyUnquote t := by
  subst hbs
  rw [pyUnquote]
  simp only [if_pos rfl, hc]
  simp [hB]

/-- The per-character effect of `quote_plus` composed with the `+`→space
substitution `parse_qsl` performs before unquoting. -/
def quotePlusNoPlus (c : Char) : List Char :=
  if c = ' ' then [' ']
  else if isAlwaysSafe c then [c]
  else (utf8Encode c).flatMap pctOfByte

theorem hexDigitU_ne_plus {n : Nat} (h : n < 16) : hexDigitU n ≠ '+' := by
  interval_cases n <;> decide

theorem plusToSpace_pctOfByte {b : Nat} (hb : b < 256) :
    plusToSpace (pctOfByte b) = pctOfByte b := by
  rw [pctOfByte, plusToSpace]
  simp [hexDigitU_ne_plus (show b / 16 < 16 by omega),
    hexDigitU_ne_plus (show b % 16 < 16 by omega),
    show ('%' : Char) ≠ '+' by decide]

theorem plusToSpace_quotePlus (s : List Char) :
    plusToSpace (pyQuotePlus s) = s.flatMap quotePlusNoPlus := by
  induction s with
  | nil => simp [pyQuotePlus, plusToSpace]
  | cons c s ih =>
    have happ : ∀ a b : List Char, plusToSpace (a ++ b) =
        plusToSpace a ++ plusToSpace b := by
      intro a b
      simp [plusToSpace]
    simp only [pyQuotePlus, List.flatMap_cons] at *
    rw [happ, ih, pyQuotePlusChar, quotePlusNoPlus]
    by_cases h1 : c = ' '
    · simp [h1, plusToSpace]
    · by_cases h2 : isAlwaysSafe c
      · simp only [if_neg h1, if_pos h2]
        congr 1
        have : c ≠ '+' := by
          intro hc
          subst hc
          exact absurd h2 (by decide)
        simp [plusToSpace, this]
      · simp only [if_neg h1, if_neg h2]
        congr 1
        have : ∀ l : List Nat, (∀ b ∈ l, b < 256) →
            plusToSpace (l.flatMap pctOfByte) = l.flatMap pctOfByte := by
          intro l hl
          induction l with
          | nil => simp [plusToSpace]
          | cons b l ihl =>
            simp only [List.flatMap_cons]
            rw [happ, plusToSpace_pctOfByte (hl b (by simp)),
              ihl (fun x hx => hl x (by simp [hx]))]
        exact this _ (utf8Encode_lt c)

/-- Characters that `quote_plus` percent-escapes. -/
def qpUnsafe (c : Char) : Bool := c ≠ ' ' ∧ ¬ isAlwaysSafe c

theorem quotePlusNoPlus_safe {c : Char} (h : ¬ qpUnsafe c = true) :
    quotePlusNoPlus c = [c] ∧ c ≠ '%' := by
  simp only [qpUnsafe, Bool.decide_and, Bool.and_eq_true, decide_eq_true_eq,
    not_and] at h
  by_cases hsp : c = ' '
  · subst hsp
    exact ⟨by rw [quotePlusNoPlus, if_pos rfl], by decide⟩
  · have hsafe : isAlwaysSafe c = true := by
      by_contra hns
      exact hns (by simpa [hsp] using h (by simpa using hsp))
    refine ⟨by rw [quotePlusNoPlus, if_neg hsp, if_pos hsafe], ?_⟩
    intro hc
    subst hc
    exact absurd hsafe (by decide)

theorem flatMap_unsafe_run {u : List Char} (hu : ∀ c ∈ u, qpUnsafe c = true) :
    u.flatMap quotePlusNoPlus = (u.flatMap utf8Encode).flatMap pctOfByte := by
  induction u with
  | nil => simp
  | cons c u ih =>
    have hc := hu c (by simp)
    simp only [qpUnsafe, Bool.decide_and, Bool.and_eq_true, decide_eq_true_eq] at hc
    simp only [List.flatMap_cons, List.flatMap_append]
    rw [quotePlusNoPlus, if_neg hc.1, if_neg (by simpa using hc.2),
      ih (fun x hx => hu x (by simp [hx]))]

theorem pyUnquote_run {B : List Nat} {T : List Char} (hB : B ≠ [])
    (hBlt : ∀ b ∈ B, b < 256)
    (hT : ∀ c, T.head? = some c → c ≠ '%') :
    pyUnquote (B.flatMap pctOfByte ++ T) = utf8DecodeReplace B ++ pyUnquote T := by
  obtain ⟨b0, B', rfl⟩ : ∃ b0 B', B = b0 :: B' := by
    cases B with
    | nil => exact absurd rfl hB
    | cons x xs => exact ⟨x, xs, rfl⟩
  have hcol : collectPct ((b0 :: B').flatMap pctOfByte ++ T) =
      (b0 :: B' ++ (collectPct T).1, (collectPct T).2) :=
    collectPct_flatMap hBlt T
  rw [collectPct_not_pct hT] at hcol
  simp only [List.flatMap_cons, pctOfByte, List.cons_append, List.append_assoc,
    List.append_nil] at hcol ⊢
  rw [pyUnquote]
  simp only [if_pos rfl, hcol]
  simp

theorem dropWhile_head_not {p : Char → Bool} {l : List Char} {c : Char}
    {t : List Char} (h : l.dropWhile p = c :: t) : p c = false := by
  induction l with
  | nil => simp [List.dropWhile] at h
  | cons x xs ih =>
    rw [List.dropWhile_cons] at h
    by_cases hx : p x
    · simp only [if_pos hx] at h
      exact ih h
    · simp only [if_neg hx] at h
      cases h
      simpa using hx

theorem pyUnquote_flatMap_aux (n : Nat) : ∀ s : List Char, s.length ≤ n →
    pyUnquote (s.flatMap quotePlusNoPlus) = s := by
  induction n with
  | zero =>
    intro s hs
    have : s = [] := List.length_eq_zero.mp (Nat.le_zero.mp hs)
    subst this
    simp [pyUnquote_nil]
  | succ n ih =>
    intro s hs
    rcases s with _ | ⟨c, s'⟩
    · simp [pyUnquote_nil]
    by_cases hc : qpUnsafe c = true
    · have huv := List.takeWhile_append_dropWhile (p := qpUnsafe) (l := c :: s')
      set u := (c :: s').takeWhile qpUnsafe with hu_def
      set v := (c :: s').dropWhile qpUnsafe with hv_def
      have hu : ∀ x ∈ u, qpUnsafe x = true := fun x hx =>
        List.mem_takeWhile_imp hx
      have hu_cons : ∃ u', u = c :: u' := by
        rw [hu_def, List.takeWhile_cons, if_pos hc]
        exact ⟨_, rfl⟩
      obtain ⟨u', hu'⟩ := hu_cons
      have hsplit : (c :: s').flatMap quotePlusNoPlus =
          (u.flatMap utf8Encode).flatMap pctOfByte ++ v.flatMap quotePlusNoPlus := by
        conv_lhs => rw [← huv]
        rw [List.flatMap_append, flatMap_unsafe_run hu]
      have hB_ne : u.flatMap utf8Encode ≠ [] := by
        rw [hu']
        simp only [List.flatMap_cons]
        intro habs
        exact utf8Encode_ne_nil c (List.append_eq_nil.mp habs).1
      have hBlt : ∀ b ∈ u.flatMap utf8Encode, b < 256 := by
        intro b hb
        rw [List.mem_flatMap] at hb
        obtain ⟨x, _, hbx⟩ := hb
        exact utf8Encode_lt x b hbx
      have hT : ∀ d, (v.flatMap quotePlusNoPlus).head? = some d → d ≠ '%' := by
        intro d hd
        rcases hv : v with _ | ⟨d0, v'⟩
        · rw [hv] at hd
          simp at hd
        · have hd0 : qpUnsafe d0 = false := dropWhile_head_not (hv ▸ hv_def.symm)
          obtain ⟨hq, hne⟩ := quotePlusNoPlus_safe (c := d0) (by simp [hd0])
          rw [hv] at hd
          simp only [List.flatMap_cons, hq, List.cons_append, List.nil_append,
            List.head?_cons] at hd
          cases hd
          exact hne
      have hlen_v : v.length ≤ n := by
        have h1 : u.length + v.length = s'.length + 1 := by
          rw [← List.length_append, huv]
          simp
        have h2 : 1 ≤ u.length := by
          rw [hu']
          simp
        simp only [List.length_cons] at hs
        omega
      rw [hsplit, pyUnquote_run hB_ne hBlt hT, utf8DecodeReplace_flatMap,
        ih v hlen_v, huv]
    · obtain ⟨hq, hne⟩ := quotePlusNoPlus_safe hc
      simp only [List.flatMap_cons, hq, List.cons_append, List.nil_append]
      rw [pyUnquote_cons_lit _ hne, ih s' (by simpa using hs)]

/-- Round trip: `parse_qsl`'s decoding inverts `urlencode`'s encoding. -/
theorem pyUnquotePlus_pyQuotePlus (s : List Char) :
    pyUnquotePlus (pyQuotePlus s) = s := by
  rw [pyUnquotePlus, plusToSpace_quotePlus]
  exact pyUnquote_flatMap_aux s.length s (le_refl _)

/-! ## `parse_qsl`, `urlencode` and Python dict semantics -/

/-- `str.split(sep)` on a single separator character (CPython semantics:
the result always has one more element than the number of separators). -/
def splitOnChar (sep : Char) : List Char → List (List Char)
  | [] => [[]]
  | c :: rest =>
    if c = sep then [] :: splitOnChar sep rest
    else
      match splitOnChar sep rest with
      | [] => [[c]]
      | h :: t => (c :: h) :: t

theorem splitOnChar_ne_nil (sep : Char) (l : List Char) :
    splitOnChar sep l ≠ [] := by
  cases l with
  | nil => simp [splitOnChar]
  | cons c rest =>
    rw [splitOnChar]
    by_cases h : c = sep
    · simp [h]
    · simp only [if_neg h]
      split <;> simp

theorem splitOnChar_no_sep {sep : Char} {f : List Char} (h : sep ∉ f) :
    splitOnChar sep f = [f] := by
  induction f with
  | nil => simp [splitOnChar]
  | cons c rest ih =>
    simp only [List.mem_cons, not_or] at h
    rw [splitOnChar, if_neg (fun hc => h.1 hc.symm), ih h.2]

theorem splitOnChar_sep_append {sep : Char} {a : List Char} (t : List Char)
    (ha : sep ∉ a) :
    splitOnChar sep (a ++ sep :: t) = a :: splitOnChar sep t := by
  induction a with
  | nil => simp [splitOnChar]
  | cons c rest ih =>
    simp only [List.mem_cons, not_or] at ha
    simp only [List.cons_append]
    rw [splitOnChar, if_neg (fun hc => ha.1 hc.symm), ih ha.2]

theorem splitOnChar_intercalate (sep : Char) (fs : List (List Char))
    (hfs : fs ≠ []) (h : ∀ f ∈ fs, sep ∉ f) :
    splitOnChar sep (List.intercalate [sep] fs) = fs := by
  induction fs with
  | nil => exact absurd rfl hfs
  | cons f fs ih =>
    cases fs with
    | nil =>
      simp only [List.intercalate, List.intersperse, List.flatten,
        List.append_nil]
      rw [splitOnChar_no_sep (h f (by simp))]
    | cons f2 fs2 =>
      have hstep : List.intercalate [sep] (f :: f2 :: fs2) =
          f ++ sep :: List.intercalate [sep] (f2 :: fs2) := by
        simp [List.intercalate, List.intersperse]
      rw [hstep, splitOnChar_sep_append _ (h f (by simp)),
        ih (by simp) (fun g hg => h g (by simp [hg]))]

/-- One field of `parse_qsl(qs)` (defaults: `keep_blank_values=False`,
`strict_parsing=False`, `separator='&'`): empty fields, fields without `=`
and fields with an empty value are dropped; name and value get `+`→space
then `unquote`. -/
def pyParseQslPair (f : List Char) : Option (List Char × List Char) :=
  if f = [] then none
  else
    match splitAtFirst '=' f with
    | none => none
    | some (n, v) =>
      if v = [] then none else some (pyUnquotePlus n, pyUnquotePlus v)

/-- `urllib.parse.parse_qsl(qs)` with default arguments. -/
def parse_qsl (qs : List Char) : List (List Char × List Char) :=
  if qs = [] then []
  else (splitOnChar '&' qs).filterMap pyParseQslPair

/-- `urllib.parse.urlencode(d)` over the dict's items, default
`quote_via=quote_plus`, `safe=''`. -/
def urlencode (l : List (List Char × List Char)) : List Char :=
  List.intercalate ['&']
    (l.map (fun p => pyQuotePlus p.1 ++ '=' :: pyQuotePlus p.2))

/-- Setting `d[k] = v` on a CPython dict modelled as an association list in
insertion order: an existing key keeps its position, a new key is appended. -/
def pyDictInsert (d : List (List Char × List Char)) (k v : List Char) :
    List (List Char × List Char) :=
  if d.any (fun p => p.1 = k) then
    d.map (fun p => if p.1 = k then (k, v) else p)
  else d ++ [(k, v)]

/-- `dict(pairs)`: left-to-right insertion. -/
def pyDictOfList (l : List (List Char × List Char)) :
    List (List Char × List Char) :=
  l.foldl (fun d p => pyDictInsert d p.1 p.2) []

/-- `{**d, **upd}` given `d` already deduplicated: insert `upd`'s items
left to right. -/
def pyDictUpdate (d upd : List (List Char × List Char)) :
    List (List Char × List Char) :=
  upd.foldl (fun d p => pyDictInsert d p.1 p.2) d

theorem isAlwaysSafe_hexDigitU {n : Nat} (h : n < 16) :
    isAlwaysSafe (hexDigitU n) = true := by
  interval_cases n <;> decide

theorem mem_pyQuotePlus {c : Char} {s : List Char} (h : c ∈ pyQuotePlus s) :
    c = '+' ∨ c = '%' ∨ isAlwaysSafe c = true := by
  rw [pyQuotePlus, List.mem_flatMap] at h
  obtain ⟨x, _, hc⟩ := h
  rw [pyQuotePlusChar] at hc
  by_cases h1 : x = ' '
  · rw [if_pos h1] at hc
    simp at hc
    exact Or.inl hc
  · rw [if_neg h1] at hc
    by_cases h2 : isAlwaysSafe x
    · rw [if_pos h2] at hc
      simp at hc
      subst hc
      exact Or.inr (Or.inr h2)
    · rw [if_neg h2] at hc
      rw [List.mem_flatMap] at hc
      obtain ⟨b, hb, hcb⟩ := hc
      have hb256 := utf8Encode_lt x b hb
      rw [pctOfByte] at hcb
      simp at hcb
      rcases hcb with hcb | hcb | hcb
      · exact Or.inr (Or.inl hcb)
      · exact Or.inr (Or.inr (hcb ▸ isAlwaysSafe_hexDigitU (by omega)))
      · exact Or.inr (Or.inr (hcb ▸ isAlwaysSafe_hexDigitU (by omega)))

theorem pyQuotePlus_ne_nil {s : List Char} (h : s ≠ []) : pyQuotePlus s ≠ [] := by
  cases s with
  | nil => exact absurd rfl h
  | cons c s' =>
    rw [pyQuotePlus, List.flatMap_cons]
    intro habs
    have h1 := (List.append_eq_nil.mp habs).1
    rw [pyQuotePlusChar] at h1
    by_cases hc1 : c = ' '
    · rw [if_pos hc1] at h1
      simp at h1
    · rw [if_neg hc1] at h1
      by_cases hc2 : isAlwaysSafe c
      · rw [if_pos hc2] at h1
        simp at h1
      · rw [if_neg hc2] at h1
        obtain ⟨b0, B', hB⟩ : ∃ b0 B', utf8Encode c = b0 :: B' := by
          cases hB : utf8Encode c with
          | nil => exact absurd hB (utf8Encode_ne_nil c)
          | cons x xs => exact ⟨x, xs, rfl⟩
        rw [hB] at h1
        simp [pctOfByte] at h1

theorem eq_mem_pyQuotePlus_false {s : List Char} {c : Char}
    (hplus : c ≠ '+') (hpct : c ≠ '%') (hsafe : isAlwaysSafe c = false) :
    c ∉ pyQuotePlus s := by
  intro h
  rcases mem_pyQuotePlus h with h | h | h
  · exact hplus h
  · exact hpct h
  · rw [hsafe] at h
    cases h

theorem pyParseQslPair_field (k v : List Char) :
    pyParseQslPair (pyQuotePlus k ++ '=' :: pyQuotePlus v) =
      if v = [] then none else some (k, v) := by
  have hne : pyQuotePlus k ++ '=' :: pyQuotePlus v ≠ [] := by
    simp
  rw [pyParseQslPair, if_neg hne]
  have hkeq : ('=' : Char) ∉ pyQuotePlus k :=
    eq_mem_pyQuotePlus_false (by decide) (by decide) (by decide)
  rw [splitAtFirst_append _ hkeq]
  by_cases hv : v = []
  · subst hv
    simp [pyQuotePlus]
  · dsimp only
    rw [if_neg (pyQuotePlus_ne_nil hv), if_neg hv,
      pyUnquotePlus_pyQuotePlus, pyUnquotePlus_pyQuotePlus]

/-- What `parse_qsl` recovers from an `urlencode`d association list: the
pairs with a non-empty value, names and values decoded back exactly. -/
theorem parse_qsl_urlencode (l : List (List Char × List Char)) :
    parse_qsl (urlencode l) = l.filter (fun p => ¬ p.2 = []) := by
  cases l with
  | nil => simp [urlencode, parse_qsl, List.intercalate]
  | cons p l' =>
    have hfield_ne : ∀ f ∈ (p :: l').map
        (fun q => pyQuotePlus q.1 ++ '=' :: pyQuotePlus q.2), ('&' : Char) ∉ f := by
      intro f hf
      rw [List.mem_map] at hf
      obtain ⟨q, _, rfl⟩ := hf
      intro hmem
      rw [List.mem_append] at hmem
      rcases hmem with hmem | hmem
      · exact eq_mem_pyQuotePlus_false (by decide) (by decide) (by decide) hmem
      · rw [List.mem_cons] at hmem
        rcases hmem with hmem | hmem
        · cases hmem
        · exact eq_mem_pyQuotePlus_false (by decide) (by decide) (by decide) hmem
    have hsplit := splitOnChar_intercalate '&'
      ((p :: l').map (fun q => pyQuotePlus q.1 ++ '=' :: pyQuotePlus q.2))
      (by simp) hfield_ne
    have henc_ne : urlencode (p :: l') ≠ [] := by
      intro habs
      rw [urlencode] at habs
      rw [habs] at hsplit
      have : splitOnChar '&' [] = [[]] := by rw [splitOnChar]
      rw [this, List.map_cons] at hsplit
      injection hsplit with h1 h2
      simp at h1
    rw [parse_qsl, if_neg henc_ne, urlencode, hsplit]
    have hgen : ∀ m : List (List Char × List Char),
        (m.map (fun q => pyQuotePlus q.1 ++ '=' :: pyQuotePlus q.2)).filterMap
          pyParseQslPair = m.filter (fun q => ¬ q.2 = []) := by
      intro m
      induction m with
      | nil => simp
      | cons q m' ihm =>
        rw [List.map_cons, List.filterMap_cons, pyParseQslPair_field]
        by_cases hq : q.2 = []
        · rw [if_pos hq, ihm, List.filter_cons, if_neg (by simp [hq])]
        · rw [if_neg hq, ihm, List.filter_cons, if_pos (by simp [hq])]
    exact hgen (p :: l')

/-- Lookup in the association-list model of a dict. -/
def dLookup (k : List Char) : List (List Char × List Char) → Option (List Char)
  | [] => none
  | p :: d => if p.1 = k then some p.2 else dLookup k d

def dKeys (d : List (List Char × List Char)) : List (List Char) :=
  d.map Prod.fst

theorem pyDictOfList_eq_update (l : List (List Char × List Char)) :
    pyDictOfList l = pyDictUpdate [] l := rfl

theorem dKeys_pyDictInsert (d : List (List Char × List Char)) (k v : List Char) :
    dKeys (pyDictInsert d k v) =
      if d.any (fun p => p.1 = k) then dKeys d else dKeys d ++ [k] := by
  rw [pyDictInsert]
  by_cases h : d.any (fun p => p.1 = k)
  · rw [if_pos h, if_pos h, dKeys, dKeys, List.map_map]
    congr 1
    funext p
    by_cases hp : p.1 = k
    · simp [hp]
    · simp [hp]
  · rw [if_neg h, if_neg h, dKeys, dKeys]
    simp

theorem nodup_dKeys_pyDictInsert {d : List (List Char × List Char)}
    (hd : (dKeys d).Nodup) (k v : List Char) :
    (dKeys (pyDictInsert d k v)).Nodup := by
  rw [dKeys_pyDictInsert]
  by_cases h : d.any (fun p => p.1 = k)
  · rw [if_pos h]
    exact hd
  · rw [if_neg h]
    rw [List.nodup_append]
    refine ⟨hd, List.nodup_singleton _, ?_⟩
    intro a ha hb
    simp only [List.mem_singleton] at hb
    subst hb
    rw [dKeys, List.mem_map] at ha
    obtain ⟨q, hq, hqa⟩ := ha
    rw [List.any_eq_true] at h
    exact h ⟨q, hq, by simp [hqa]⟩

theorem mem_pyDictInsert {d : List (List Char × List Char)} {q : List Char × List Char}
    {k v : List Char} (h : q ∈ pyDictInsert d k v) : q ∈ d ∨ q = (k, v) := by
  rw [pyDictInsert] at h
  by_cases ha : d.any (fun p => p.1 = k)
  · rw [if_pos ha, List.mem_map] at h
    obtain ⟨p, hp, hpq⟩ := h
    by_cases hpk : p.1 = k
    · rw [if_pos hpk] at hpq
      exact Or.inr hpq.symm
    · rw [if_neg hpk] at hpq
      exact Or.inl (hpq ▸ hp)
  · rw [if_neg ha, List.mem_append] at h
    rcases h with h | h
    · exact Or.inl h
    · simp at h
      exact Or.inr (by simp [h])

theorem dLookup_append (k : List Char) (a b : List (List Char × List Char)) :
    dLookup k (a ++ b) =
      match dLookup k a with
      | some v => some v
      | none => dLookup k b := by
  induction a with
  | nil => simp [dLookup]
  | cons p a ih =>
    rw [List.cons_append, dLookup, dLookup]
    by_cases hp : p.1 = k
    · rw [if_pos hp, if_pos hp]
    · rw [if_neg hp, if_neg hp, ih]

theorem dLookup_map_replace {k k' v : List Char} (h : ¬ k' = k)
    (d : List (List Char × List Char)) :
    dLookup k' (d.map (fun p => if p.1 = k then (k, v) else p)) =
      dLookup k' d := by
  induction d with
  | nil => simp [dLookup]
  | cons p d ih =>
    rw [List.map_cons, dLookup, dLookup]
    by_cases hp : p.1 = k
    · rw [if_pos hp]
      have h1 : ¬ (k, v).1 = k' := fun hk => h (hk.symm)
      have h2 : ¬ p.1 = k' := by
        rw [hp]
        exact fun hk => h hk.symm
      rw [if_neg h1, if_neg h2, ih]
    · rw [if_neg hp]
      by_cases hp' : p.1 = k'
      · rw [if_pos hp', if_pos hp']
      · rw [if_neg hp', if_neg hp', ih]

theorem any_key_iff_dLookup {k : List Char} {d : List (List Char × List Char)} :
    d.any (fun p => p.1 = k) = true ↔ dLookup k d ≠ none := by
  induction d with
  | nil => simp [dLookup]
  | cons p d ih =>
    rw [List.any_cons, dLookup]
    by_cases hp : p.1 = k
    · simp [hp]
    · simp only [if_neg hp, hp]
      simp [ih]

theorem dLookup_pyDictInsert_self (d : List (List Char × List Char))
    (k v : List Char) : dLookup k (pyDictInsert d k v) = some v := by
  rw [pyDictInsert]
  by_cases ha : d.any (fun p => p.1 = k)
  · rw [if_pos ha]
    induction d with
    | nil => simp at ha
    | cons p d ih =>
      rw [List.map_cons, dLookup]
      by_cases hp : p.1 = k
      · rw [if_pos hp, if_pos rfl]
      · rw [if_neg hp, if_neg hp]
        rw [List.any_cons] at ha
        simp only [hp] at ha
        exact ih (by simpa using ha)
  · rw [if_neg ha, dLookup_append]
    have hnone : dLookup k d = none := by
      by_contra hne
      exact ha (any_key_iff_dLookup.mpr hne)
    rw [hnone, dLookup, if_pos rfl]

theorem dLookup_pyDictInsert_other (d : List (List Char × List Char))
    {k k' : List Char} (v : List Char) (h : k' ≠ k) :
    dLookup k' (pyDictInsert d k v) = dLookup k' d := by
  rw [pyDictInsert]
  by_cases ha : d.any (fun p => p.1 = k)
  · rw [if_pos ha, dLookup_map_replace h]
  · rw [if_neg ha, dLookup_append]
    have h1 : dLookup k' [(k, v)] = none := by
      rw [dLookup, if_neg (fun hk => h hk.symm), dLookup]
    rw [h1]
    cases dLookup k' d <;> rfl

theorem dLookup_mem {k v : List Char} {d : List (List Char × List Char)}
    (h : dLookup k d = some v) : (k, v) ∈ d := by
  induction d with
  | nil => simp [dLookup] at h
  | cons p d ih =>
    rw [dLookup] at h
    by_cases hp : p.1 = k
    · rw [if_pos hp] at h
      cases h
      exact List.mem_cons.mpr (Or.inl (by rw [Prod.ext_iff]; exact ⟨hp.symm, rfl⟩))
    · rw [if_neg hp] at h
      exact List.mem_cons_of_mem _ (ih h)

theorem mem_dLookup {k v : List Char} {d : List (List Char × List Char)}
    (hd : (dKeys d).Nodup) (h : (k, v) ∈ d) : dLookup k d = some v := by
  induction d with
  | nil => simp at h
  | cons p d ih =>
    rw [dKeys, List.map_cons, List.nodup_cons] at hd
    rw [dLookup]
    rcases List.mem_cons.mp h with h | h
    · rw [← h]
      simp
    · have hp : ¬ p.1 = k := by
        intro hk
        exact hd.1 (by
          rw [← dKeys] at *
          rw [hk]
          exact List.mem_map.mpr ⟨(k, v), h, rfl⟩)
      rw [if_neg hp]
      exact ih hd.2 h

theorem pyDictInsert_same {d : List (List Char × List Char)} {k v : List Char}
    (hd : (dKeys d).Nodup) (h : dLookup k d = some v) :
    pyDictInsert d k v = d := by
  rw [pyDictInsert, if_pos (any_key_iff_dLookup.mpr (by simp [h]))]
  have hmem := dLookup_mem h
  have huniq : ∀ p ∈ d, p.1 = k → p = (k, v) := by
    intro p hp hpk
    have h1 : dLookup k d = some p.2 := by
      rw [← hpk]
      exact mem_dLookup hd (by simpa [← hpk] using hp)
    rw [h] at h1
    cases h1
    rw [Prod.ext_iff]
    exact ⟨hpk, rfl⟩
  conv_rhs => rw [← List.map_id d]
  apply List.map_congr_left
  intro p hp
  by_cases hpk : p.1 = k
  · rw [if_pos hpk, ← huniq p hp hpk]
    rfl
  · rw [if_neg hpk]
    rfl

theorem pyDictUpdate_cons (d : List (List Char × List Char))
    (p : List Char × List Char) (upd : List (List Char × List Char)) :
    pyDictUpdate d (p :: upd) = pyDictUpdate (pyDictInsert d p.1 p.2) upd := rfl

theorem pyDictUpdate_nil (d : List (List Char × List Char)) :
    pyDictUpdate d [] = d := rfl

theorem mem_pyDictUpdate {d upd : List (List Char × List Char)}
    {q : List Char × List Char} (h : q ∈ pyDictUpdate d upd) :
    q ∈ d ∨ q ∈ upd := by
  induction upd generalizing d with
  | nil => exact Or.inl h
  | cons p upd ih =>
    rw [pyDictUpdate_cons] at h
    rcases ih h with h | h
    · rcases mem_pyDictInsert h with h | h
      · exact Or.inl h
      · exact Or.inr (by simp [h])
    · exact Or.inr (by simp [h])

theorem nodup_dKeys_pyDictUpdate {d : List (List Char × List Char)}
    (hd : (dKeys d).Nodup) (upd : List (List Char × List Char)) :
    (dKeys (pyDictUpdate d upd)).Nodup := by
  induction upd generalizing d with
  | nil => exact hd
  | cons p upd ih =>
    rw [pyDictUpdate_cons]
    exact ih (nodup_dKeys_pyDictInsert hd p.1 p.2)

theorem nodup_dKeys_pyDictOfList (l : List (List Char × List Char)) :
    (dKeys (pyDictOfList l)).Nodup := by
  rw [pyDictOfList_eq_update]
  exact nodup_dKeys_pyDictUpdate (by simp [dKeys]) l

theorem mem_pyDictOfList {l : List (List Char × List Char)}
    {q : List Char × List Char} (h : q ∈ pyDictOfList l) : q ∈ l := by
  rw [pyDictOfList_eq_update] at h
  rcases mem_pyDictUpdate h with h | h
  · simp at h
  · exact h

theorem dLookup_pyDictUpdate_not_mem {d : List (List Char × List Char)}
    {upd : List (List Char × List Char)} {k : List Char}
    (h : ∀ p ∈ upd, p.1 ≠ k) :
    dLookup k (pyDictUpdate d upd) = dLookup k d := by
  induction upd generalizing d with
  | nil => rfl
  | cons p upd ih =>
    rw [pyDictUpdate_cons, ih (fun q hq => h q (by simp [hq])),
      dLookup_pyDictInsert_other _ _ (fun hk => h p (by simp) hk.symm)]

theorem pyDictUpdate_same {d : List (List Char × List Char)}
    {upd : List (List Char × List Char)} (hd : (dKeys d).Nodup)
    (h : ∀ q ∈ upd, dLookup q.1 d = some q.2) :
    pyDictUpdate d upd = d := by
  induction upd with
  | nil => rfl
  | cons p upd ih =>
    rw [pyDictUpdate_cons, pyDictInsert_same hd (h p (by simp))]
    exact ih (fun q hq => h q (by simp [hq]))

/-! ## `urllib.parse.urlparse` and reserialization -/

/-- `_WHATWG_C0_CONTROL_OR_SPACE` class, stripped from the left of a URL. -/
def isStrippable (c : Char) : Bool := c.toNat ≤ 0x20

/-- `urlsplit`'s input sanitization: left-strip C0 controls and space, then
remove every tab, carriage return and newline. -/
def sanitizeUrl (url : List Char) : List Char :=
  (url.dropWhile isStrippable).filter
    (fun c => ¬ (c = '\t' ∨ c = '\r' ∨ c = '\n'))

/-- Scheme recognition in `urlsplit`: a leading run of scheme characters
starting with an ASCII letter, terminated by `:`, is the (lower-cased)
scheme; otherwise the URL is left untouched. -/
def schemeSplit (url : List Char) : List Char × List Char :=
  match splitAtFirst ':' url with
  | some (pre, post) =>
    match pre with
    | [] => ([], url)
    | c :: _ =>
      if isAsciiAlpha c ∧ pre.all isSchemeChar then (pyLower pre, post)
      else ([], url)
  | none => ([], url)

/-- Characters that end the netloc in `_splitnetloc`. -/
def notDelim (c : Char) : Bool := c ≠ '/' ∧ c ≠ '?' ∧ c ≠ '#'

/-- `_splitnetloc` plus the unbalanced-bracket `ValueError` check
("Invalid IPv6 URL"): applies only when the URL (after the scheme) starts
with `//`. -/
def netlocSplit (url : List Char) : Option (List Char × List Char) :=
  if url.take 2 = ['/', '/'] then
    let rest := url.drop 2
    let netloc := rest.takeWhile notDelim
    let after := rest.dropWhile notDelim
    if ('[' ∈ netloc ∧ ']' ∉ netloc) ∨ (']' ∈ netloc ∧ '[' ∉ netloc) then none
    else some (netloc, after)
  else some ([], url)

/-- `(splitAtFirst c l).getD (l, [])`, the way `urlsplit` uses splitting. -/
def splitGetD (c : Char) (l : List Char) : List Char × List Char :=
  (splitAtFirst c l).getD (l, [])

theorem splitGetD_no {c : Char} {l : List Char} (h : c ∉ l) :
    splitGetD c l = (l, []) := by
  rw [splitGetD, splitAtFirst_eq_none.mpr h]
  rfl

theorem splitGetD_yes {c : Char} {a : List Char} (b : List Char) (ha : c ∉ a) :
    splitGetD c (a ++ c :: b) = (a, b) := by
  rw [splitGetD, splitAtFirst_append b ha]
  rfl

theorem splitGetD_spec (c : Char) (l : List Char) :
    (c ∉ (splitGetD c l).1) ∧
      (l = (splitGetD c l).1 ++ c :: (splitGetD c l).2 ∨
        ((splitGetD c l).1 = l ∧ (splitGetD c l).2 = [] ∧ c ∉ l)) := by
  rw [splitGetD]
  cases hs : splitAtFirst c l with
  | none =>
    have h := splitAtFirst_eq_none.mp hs
    simp [h]
  | some ab =>
    obtain ⟨a, b⟩ := ab
    obtain ⟨h1, h2⟩ := splitAtFirst_eq_some hs
    simpa using ⟨h2, Or.inl h1⟩

structure SplitResult where
  scheme : List Char
  netloc : List Char
  path : List Char
  query : List Char
  fragment : List Char
deriving DecidableEq

/-- `urllib.parse.urlsplit(url)` with default arguments; `none` models the
`ValueError` raised on an unbalanced bracket in the netloc. -/
def urlsplit (url0 : List Char) : Option SplitResult :=
  let url1 := sanitizeUrl url0
  let sp := schemeSplit url1
  match netlocSplit sp.2 with
  | none => none
  | some (netloc, url3) =>
    let pf := splitGetD '#' url3
    let pq := splitGetD '?' pf.1
    some ⟨sp.1, netloc, pq.1, pq.2, pf.2⟩

def splitAtLast (c : Char) (l : List Char) : Option (List Char × List Char) :=
  match splitAtFirst c l.reverse with
  | some (a, b) => some (b.reverse, a.reverse)
  | none => none

/-- `urllib.parse._splitparams` (callers guarantee `;` occurs in the path;
the fall-through branches keep the function total). -/
def pySplitParams (url : List Char) : List Char × List Char :=
  if '/' ∈ url then
    match splitAtLast '/' url with
    | some (pre, post) =>
      match splitAtFirst ';' post with
      | some (a, b) => (pre ++ '/' :: a, b)
      | none => (url, [])
    | none => (url, [])
  else
    match splitAtFirst ';' url with
    | some (a, b) => (a, b)
    | none => (url, [])

/-- `urllib.parse.uses_params`. -/
def usesParams : List (List Char) :=
  [[], ("ftp".toList), ("hdl".toList), ("prospero".toList), ("http".toList),
    ("imap".toList), ("https".toList), ("shttp".toList), ("rtsp".toList),
    ("rtspu".toList), ("sip".toList), ("sips".toList), ("mms".toList),
    ("sftp".toList), ("tel".toList)]

structure ParseResult where
  scheme : List Char
  netloc : List Char
  path : List Char
  params : List Char
  query : List Char
  fragment : List Char
deriving DecidableEq

/-- `urllib.parse.urlparse(url)`: `urlsplit`, then split `;params` off the
path for schemes in `uses_params`. -/
def urlparse (url : List Char) : Option ParseResult :=
  match urlsplit url with
  | none => none
  | some s =>
    if s.scheme ∈ usesParams ∧ ';' ∈ s.path then
      let pp := pySplitParams s.path
      some ⟨s.scheme, s.netloc, pp.1, pp.2, s.query, s.fragment⟩
    else some ⟨s.scheme, s.netloc, s.path, [], s.query, s.fragment⟩

/-- `urllib.parse.urlunsplit`. -/
def urlunsplit (scheme netloc url query fragment : List Char) : List Char :=
  let url1 :=
    if netloc ≠ [] ∨ (url ≠ [] ∧ url.take 2 = ['/', '/']) then
      '/' :: '/' :: (netloc ++
        (if url ≠ [] ∧ url.take 1 ≠ ['/'] then '/' :: url else url))
    else url
  let url2 := if scheme ≠ [] then scheme ++ ':' :: url1 else url1
  let url3 := if query ≠ [] then url2 ++ '?' :: query else url2
  if fragment ≠ [] then url3 ++ '#' :: fragment else url3

/-- `urllib.parse.urlunparse` / `ParseResult.geturl()`. -/
def urlunparse (p : ParseResult) : List Char :=
  urlunsplit p.scheme p.netloc
    (if p.params ≠ [] then p.path ++ ';' :: p.params else p.path)
    p.query p.fragment

def ParseResult.geturl (p : ParseResult) : List Char := urlunparse p

/-! ## `is_image` -/

/-- `pathlib.PurePosixPath(p).name`: the last component after dropping
empty and `.` components. -/
def posixPathName (p : List Char) : List Char :=
  (((splitOnChar '/' p).filter (fun s => s ≠ [] ∧ s ≠ ['.'])).getLast?).getD []

def imageSuffixes : List (List Char) :=
  [("png".toList), ("jpg".toList), ("jpeg".toList), ("svg".toList),
    ("webp".toList), ("gif".toList)]

/-- `jupyblog.utm.is_image`. -/
def is_image (image_url_path : List Char) : Bool :=
  imageSuffixes.any
    (fun suffix => ('.' :: suffix).isSuffixOf (posixPathName image_url_path))

/-! ## `find_urls` -/

/-- One attempt of the regex `https?://[^\s\(\)]+` anchored at the head of
`cs`: on success, the (greedy, maximal) match and the remaining input. -/
def matchUrlAt (cs : List Char) : Option (List Char × List Char) :=
  if ("https://".toList).isPrefixOf cs then
    let after := cs.drop 8
    if after.takeWhile urlChar = [] then none
    else some (("https://".toList) ++ after.takeWhile urlChar,
      after.dropWhile urlChar)
  else if ("http://".toList).isPrefixOf cs then
    let after := cs.drop 7
    if after.takeWhile urlChar = [] then none
    else some (("http://".toList) ++ after.takeWhile urlChar,
      after.dropWhile urlChar)
  else none

theorem matchUrlAt_some_length {cs m rest : List Char}
    (h : matchUrlAt cs = some (m, rest)) : rest.length < cs.length := by
  rw [matchUrlAt] at h
  by_cases h1 : ("https://".toList).isPrefixOf cs
  · rw [if_pos h1] at h
    have hlen : 8 ≤ cs.length := by
      have := List.IsPrefix.length_le (List.isPrefixOf_iff_prefix.mp h1)
      simpa using this
    by_cases h2 : (cs.drop 8).takeWhile urlChar = []
    · rw [if_pos h2] at h
      cases h
    · rw [if_neg h2] at h
      cases h
      have ht : 0 < ((cs.drop 8).takeWhile urlChar).length :=
        List.length_pos.mpr h2
      have heq : ((cs.drop 8).takeWhile urlChar).length +
          ((cs.drop 8).dropWhile urlChar).length = (cs.drop 8).length := by
        rw [← List.length_append, List.takeWhile_append_dropWhile]
      simp only [List.length_drop] at heq
      omega
  · rw [if_neg h1] at h
    by_cases h1' : ("http://".toList).isPrefixOf cs
    · rw [if_pos h1'] at h
      have hlen : 7 ≤ cs.length := by
        have := List.IsPrefix.length_le (List.isPrefixOf_iff_prefix.mp h1')
        simpa using this
      by_cases h2 : (cs.drop 7).takeWhile urlChar = []
      · rw [if_pos h2] at h
        cases h
      · rw [if_neg h2] at h
        cases h
        have ht : 0 < ((cs.drop 7).takeWhile urlChar).length :=
          List.length_pos.mpr h2
        have heq : ((cs.drop 7).takeWhile urlChar).length +
            ((cs.drop 7).dropWhile urlChar).length = (cs.drop 7).length := by
          rw [← List.length_append, List.takeWhile_append_dropWhile]
        simp only [List.length_drop] at heq
        omega
    · rw [if_neg h1'] at h
      cases h

/-- The scanner behind `re.findall`: try a match at every position, left to
right; a successful (necessarily non-empty) match is emitted and scanning
resumes after it. -/
def findUrlsAux (l : List Char) : List (List Char) :=
  match l with
  | [] => []
  | c :: cs =>
    match hm : matchUrlAt (c :: cs) with
    | some (m, rest) => m :: findUrlsAux rest
    | none => findUrlsAux cs
  termination_by l.length
  decreasing_by
  · have := matchUrlAt_some_length hm
    simpa using this
  · simp

/-- `jupyblog.utm.find_urls`. -/
def find_urls (text : List Char) : List (List Char) := findUrlsAux text

/-! ## `str.replace` and the module's entry points -/

def pyReplaceAux (old new : List Char) (hold : old ≠ []) :
    List Char → List Char
  | [] => []
  | c :: cs =>
    if old.isPrefixOf (c :: cs) then
      new ++ pyReplaceAux old new hold ((c :: cs).drop old.length)
    else c :: pyReplaceAux old new hold cs
  termination_by l => l.length
  decreasing_by
  · have : 1 ≤ old.length := by
      cases old with
      | nil => exact absurd rfl hold
      | cons x xs => simp
    simp only [List.length_drop, List.length_cons]
    omega
  · simp

/-- `str.replace(old, new)` (all non-overlapping occurrences, left to
right; an empty `old` inserts `new` at every boundary). -/
def pyReplace (t old new : List Char) : List Char :=
  if h : old = [] then new ++ t.flatMap (fun c => c :: new)
  else pyReplaceAux old new h t

/-- The three tracking parameters, in the insertion order of the `utm`
dict literal. -/
def utmTriple (source medium campaign : List Char) :
    List (List Char × List Char) :=
  [(("utm_source".toList), source), (("utm_medium".toList), medium),
    (("utm_campaign".toList), campaign)]

/-- `add_utm_to_url` on an already-parsed URL (the `else` arm of its
`isinstance` dispatch, and the form `add_utm_to_all_urls` invokes). -/
def add_utm_parsed (p : ParseResult) (source medium campaign : List Char) :
    List Char :=
  let current_params := pyDictOfList (parse_qsl p.query)
  let merged := pyDictUpdate current_params (utmTriple source medium campaign)
  ParseResult.geturl { p with query := urlencode merged }

/-- `jupyblog.utm.add_utm_to_url` on a string URL (`none` models the
`ValueError` `urlparse` can raise). -/
def add_utm_to_url (url source medium campaign : List Char) :
    Option (List Char) :=
  (urlparse url).map (fun p => add_utm_parsed p source medium campaign)

/-- `jupyblog.utm.add_utm_to_all_urls` (`none` models the `ValueError`
`urlparse` can raise on a matched URL). -/
def add_utm_to_all_urls (text source medium campaign : List Char) :
    Option (List Char) :=
  match (find_urls text).mapM urlparse with
  | none => none
  | some parsed =>
    let urls := parsed.filter (fun p => ¬ is_image p.path)
    let mapping := pyDictOfList
      (urls.map (fun p => (p.geturl, add_utm_parsed p source medium campaign)))
    some (mapping.foldl (fun t q => pyReplace t q.1 q.2) text)

/-! ## Reserialization: parse invariants and the reparse theorem -/

theorem char_toNat_ofNat {n : Nat} (h : n < 0xD800) : (Char.ofNat n).toNat = n := by
  rw [Char.ofNat]
  simp [Nat.isValidChar, h, Char.toNat, Char.ofNatAux, UInt32.toNat,
    BitVec.toNat_ofNatLt]

theorem char_le_iff {a b : Char} : a ≤ b ↔ a.toNat ≤ b.toNat := by
  rw [Char.le_def, UInt32.le_def, BitVec.le_def]
  rfl

theorem char_eq_iff {a b : Char} : a = b ↔ a.toNat = b.toNat := by
  constructor
  · intro h
    rw [h]
  · intro h
    apply Char.ext
    apply UInt32.eq_of_toBitVec_eq
    apply BitVec.eq_of_toNat_eq
    exact h

theorem pyLowerChar_toNat (c : Char) :
    (pyLowerChar c).toNat =
      if 65 ≤ c.toNat ∧ c.toNat ≤ 90 then c.toNat + 32 else c.toNat := by
  rw [pyLowerChar]
  by_cases h : 'A' ≤ c ∧ c ≤ 'Z'
  · have h' : 65 ≤ c.toNat ∧ c.toNat ≤ 90 := by
      constructor
      · exact char_le_iff.mp h.1
      · exact char_le_iff.mp h.2
    rw [if_pos h, if_pos h', char_toNat_ofNat (by omega)]
  · have h' : ¬ (65 ≤ c.toNat ∧ c.toNat ≤ 90) := by
      intro hc
      exact h ⟨char_le_iff.mpr hc.1, char_le_iff.mpr hc.2⟩
    rw [if_neg h, if_neg h']

theorem isAsciiAlpha_toNat (c : Char) :
    isAsciiAlpha c = true ↔
      (97 ≤ c.toNat ∧ c.toNat ≤ 122) ∨ (65 ≤ c.toNat ∧ c.toNat ≤ 90) := by
  rw [isAsciiAlpha]
  simp only [Bool.decide_or, Bool.decide_and, Bool.or_eq_true,
    Bool.and_eq_true, decide_eq_true_eq]
  constructor
  · rintro (⟨h1, h2⟩ | ⟨h1, h2⟩)
    · exact Or.inl ⟨char_le_iff.mp h1, char_le_iff.mp h2⟩
    · exact Or.inr ⟨char_le_iff.mp h1, char_le_iff.mp h2⟩
  · rintro (⟨h1, h2⟩ | ⟨h1, h2⟩)
    · exact Or.inl ⟨char_le_iff.mpr h1, char_le_iff.mpr h2⟩
    · exact Or.inr ⟨char_le_iff.mpr h1, char_le_iff.mpr h2⟩

theorem isAsciiDigit_toNat (c : Char) :
    isAsciiDigit c = true ↔ 48 ≤ c.toNat ∧ c.toNat ≤ 57 := by
  rw [isAsciiDigit]
  simp only [Bool.decide_and, Bool.and_eq_true, decide_eq_true_eq]
  constructor
  · rintro ⟨h1, h2⟩
    exact ⟨char_le_iff.mp h1, char_le_iff.mp h2⟩
  · rintro ⟨h1, h2⟩
    exact ⟨char_le_iff.mpr h1, char_le_iff.mpr h2⟩

theorem char_toNat_eq_iff {c : Char} {d : Char} :
    c = d ↔ c.toNat = d.toNat := char_eq_iff

theorem pyLowerChar_alpha {c : Char} (h : isAsciiAlpha c = true) :
    isAsciiAlpha (pyLowerChar c) = true := by
  rw [isAsciiAlpha_toNat] at h ⊢
  rw [pyLowerChar_toNat]
  rcases h with h | h
  · rw [if_neg (by omega)]
    exact Or.inl h
  · rw [if_pos (by omega)]
    exact Or.inl (by omega)

theorem pyLowerChar_schemeChar {c : Char} (h : isSchemeChar c = true) :
    isSchemeChar (pyLowerChar c) = true := by
  rw [isSchemeChar] at h ⊢
  simp only [Bool.decide_or, Bool.or_eq_true, decide_eq_true_eq] at h ⊢
  rcases h with h | h | h | h | h
  · exact Or.inl (pyLowerChar_alpha h)
  · rw [isAsciiDigit_toNat] at h
    refine Or.inr (Or.inl ?_)
    rw [isAsciiDigit_toNat, pyLowerChar_toNat, if_neg (by omega)]
    exact h
  all_goals {
    subst h
    first
    | exact Or.inr (Or.inr (Or.inl (by decide)))
    | exact Or.inr (Or.inr (Or.inr (Or.inl (by decide))))
    | exact Or.inr (Or.inr (Or.inr (Or.inr (by decide))))
  }

theorem pyLowerChar_idem (c : Char) :
    pyLowerChar (pyLowerChar c) = pyLowerChar c := by
  rw [char_eq_iff, pyLowerChar_toNat, pyLowerChar_toNat]
  split_ifs <;> omega

theorem pyLower_idem (s : List Char) : pyLower (pyLower s) = pyLower s := by
  rw [pyLower, pyLower, List.map_map]
  exact List.map_congr_left (fun c _ => pyLowerChar_idem c)

theorem pyLowerChar_toNat_ne {c : Char} {m : Nat} (hm1 : m < 65)
    (hc : c.toNat ≠ m) : (pyLowerChar c).toNat ≠ m := by
  rw [pyLowerChar_toNat]
  by_cases h : 65 ≤ c.toNat ∧ c.toNat ≤ 90
  · rw [if_pos h]
    omega
  · rw [if_neg h]
    exact hc

theorem takeWhile_append_stop {p : Char → Bool} {a b : List Char}
    (ha : ∀ c ∈ a, p c = true)
    (hb : b = [] ∨ ∃ c t, b = c :: t ∧ p c = false) :
    (a ++ b).takeWhile p = a ∧ (a ++ b).dropWhile p = b := by
  induction a with
  | nil =>
    simp only [List.nil_append]
    rcases hb with hb | ⟨c, t, hb, hc⟩
    · subst hb
      simp [List.takeWhile, List.dropWhile]
    · subst hb
      rw [List.takeWhile_cons, List.dropWhile_cons]
      simp [hc]
  | cons x a ih =>
    have hx := ha x (by simp)
    obtain ⟨h1, h2⟩ := ih (fun c hc => ha c (by simp [hc]))
    rw [List.cons_append, List.takeWhile_cons, List.dropWhile_cons]
    simp only [hx]
    simp [h1, h2]

/-- The path as it re-enters `urlunsplit`: path with `;params` re-attached. -/
def pathful (p : ParseResult) : List Char :=
  if p.params ≠ [] then p.path ++ ';' :: p.params else p.path

/-- Characters that may appear in a replacement query string without
disturbing re-parsing. -/
def qSafe (c : Char) : Prop :=
  c ≠ '#' ∧ c ≠ '?' ∧ c ≠ '\t' ∧ c ≠ '\r' ∧ c ≠ '\n'

/-- Structural facts true of every `ParseResult` produced by `urlparse`. -/
structure ParseInv (p : ParseResult) : Prop where
  scheme_ok : p.scheme = [] ∨
    ((∃ c t, p.scheme = c :: t ∧ isAsciiAlpha c = true) ∧
      (∀ c ∈ p.scheme, isSchemeChar c = true) ∧ pyLower p.scheme = p.scheme)
  netloc_delim : ∀ c ∈ p.netloc, notDelim c = true
  netloc_brackets : ('[' ∈ p.netloc) ↔ (']' ∈ p.netloc)
  pf_hash : '#' ∉ pathful p
  pf_quest : '?' ∉ pathful p
  no_trn : ∀ c ∈ p.scheme ++ p.netloc ++ pathful p ++ p.fragment,
    c ≠ '\t' ∧ c ≠ '\r' ∧ c ≠ '\n'
  head_ok : p.scheme = [] → p.netloc = [] → ∀ c t, pathful p = c :: t →
    isStrippable c = false
  netloc_path : p.netloc ≠ [] → pathful p = [] ∨ ∃ t, pathful p = '/' :: t
  no_scheme : p.scheme = [] → p.netloc = [] →
    ¬ (pathful p).take 2 = ['/', '/'] →
    ∀ pre post, pathful p = pre ++ ':' :: post →
      ¬ ((∃ c t, pre = c :: t ∧ isAsciiAlpha c = true) ∧
        ∀ c ∈ pre, isSchemeChar c = true)
  params_split : if p.scheme ∈ usesParams ∧ ';' ∈ pathful p then
      pySplitParams (pathful p) = (p.path, p.params)
    else p.params = []

theorem sanitize_id {l : List Char}
    (hhead : ∀ c t, l = c :: t → isStrippable c = false)
    (htrn : ∀ c ∈ l, c ≠ '\t' ∧ c ≠ '\r' ∧ c ≠ '\n') : sanitizeUrl l = l := by
  rw [sanitizeUrl]
  have hdrop : l.dropWhile isStrippable = l := by
    cases l with
    | nil => rfl
    | cons c t =>
      rw [List.dropWhile_cons, if_neg (by simp [hhead c t rfl])]
  rw [hdrop]
  apply List.filter_eq_self.mpr
  intro c hc
  have := htrn c hc
  simp [this.1, this.2.1, this.2.2]

theorem schemeSplit_scheme {s : List Char} (rest : List Char)
    (hs : ∃ c t, s = c :: t ∧ isAsciiAlpha c = true)
    (hall : ∀ c ∈ s, isSchemeChar c = true) (hlow : pyLower s = s) :
    schemeSplit (s ++ ':' :: rest) = (s, rest) := by
  obtain ⟨c, t, hst, hc⟩ := hs
  have hcolon : (':' : Char) ∉ s := fun hmem => absurd (hall _ hmem) (by decide)
  rw [schemeSplit, splitAtFirst_append rest hcolon]
  subst hst
  dsimp only
  rw [if_pos ⟨by simp [hc], by
    simp only [List.all_eq_true]
    exact fun x hx => hall x hx⟩, hlow]

theorem schemeSplit_no {l : List Char}
    (h : ∀ pre post, l = pre ++ ':' :: post →
      ¬ ((∃ c t, pre = c :: t ∧ isAsciiAlpha c = true) ∧
        ∀ c ∈ pre, isSchemeChar c = true)) :
    schemeSplit l = ([], l) := by
  rw [schemeSplit]
  cases hs : splitAtFirst ':' l with
  | none => rfl
  | some ab =>
    obtain ⟨pre, post⟩ := ab
    obtain ⟨hdec, _⟩ := splitAtFirst_eq_some hs
    cases hpre : pre with
    | nil => rfl
    | cons c t =>
      dsimp only
      rw [if_neg]
      intro hcond
      refine h pre post (by rw [hdec]) ⟨⟨c, t, hpre, by simpa using hcond.1⟩, ?_⟩
      intro x hx
      rw [hpre] at hx
      exact List.all_eq_true.mp hcond.2 x hx

theorem schemeSplit_head_not_alpha {c : Char} (hc : isAsciiAlpha c = false)
    (X : List Char) : schemeSplit (c :: X) = ([], c :: X) := by
  apply schemeSplit_no
  intro pre post hdec hcond
  obtain ⟨⟨c', t', hpre, hc'⟩, _⟩ := hcond
  subst hpre
  rw [List.cons_append] at hdec
  injection hdec with h1 _
  rw [← h1] at hc'
  rw [hc'] at hc
  cases hc

theorem netlocSplit_slashes {netloc Y : List Char}
    (hn : ∀ c ∈ netloc, notDelim c = true)
    (hb : ¬ (('[' ∈ netloc ∧ ']' ∉ netloc) ∨ (']' ∈ netloc ∧ '[' ∉ netloc)))
    (hY : Y = [] ∨ ∃ c t, Y = c :: t ∧ notDelim c = false) :
    netlocSplit ('/' :: '/' :: (netloc ++ Y)) = some (netloc, Y) := by
  rw [netlocSplit]
  rw [if_pos (by simp)]
  obtain ⟨h1, h2⟩ := takeWhile_append_stop hn hY
  simp only [List.drop_succ_cons, List.drop_zero, h1, h2]
  rw [if_neg hb]

theorem netlocSplit_no {l : List Char} (h : ¬ l.take 2 = ['/', '/']) :
    netlocSplit l = some ([], l) := by
  rw [netlocSplit, if_neg h]

theorem prefix_before_quest : ∀ (pre post pf T : List Char),
    pre ++ ':' :: post = pf ++ '?' :: T → ('?' : Char) ∉ pre →
    ∃ mid, pf = pre ++ ':' :: mid := by
  intro pre
  induction pre with
  | nil =>
    intro post pf T heq _
    cases pf with
    | nil =>
      simp at heq
    | cons b pf' =>
      simp at heq
      exact ⟨pf', by simp [← heq.1]⟩
  | cons a pre' ih =>
    intro post pf T heq hq
    cases pf with
    | nil =>
      simp at heq
      exact absurd (heq.1 ▸ List.mem_cons_self a pre') (by simpa [heq.1] using hq)
    | cons b pf' =>
      simp only [List.cons_append, List.cons.injEq] at heq
      obtain ⟨mid, hmid⟩ := ih post pf' T heq.2 (fun hm => hq (by simp [hm]))
      exact ⟨mid, by simp [← heq.1, hmid]⟩

theorem tail_split {P q' fragment : List Char}
    (hPh : '#' ∉ P) (hPq : '?' ∉ P) (hq : ∀ c ∈ q', qSafe c) :
    splitGetD '#'
        (P ++ '?' :: q' ++ (if fragment ≠ [] then '#' :: fragment else [])) =
      (P ++ '?' :: q', fragment) ∧
    splitGetD '?' (P ++ '?' :: q') = (P, q') := by
  have hq_hash : ('#' : Char) ∉ q' := fun hm => (hq _ hm).1 rfl
  have hnot : ('#' : Char) ∉ P ++ '?' :: q' := by
    intro hm
    rcases List.mem_append.mp hm with hm | hm
    · exact hPh hm
    · rcases List.mem_cons.mp hm with hm | hm
      · cases hm
      · exact hq_hash hm
  refine ⟨?_, splitGetD_yes q' hPq⟩
  by_cases hf : fragment = []
  · subst hf
    simp only [ne_eq, not_true_eq_false, if_neg, List.append_nil]
    rw [if_neg (by simp), List.append_nil, splitGetD_no hnot]
  · rw [if_pos hf]
    have hassoc : P ++ '?' :: q' ++ '#' :: fragment =
        (P ++ '?' :: q') ++ '#' :: fragment := by
      simp
    rw [hassoc, splitGetD_yes fragment hnot]

theorem urlunsplit_eq (scheme netloc u q f : List Char) (hqne : q ≠ []) :
    urlunsplit scheme netloc u q f =
      (if scheme ≠ [] then scheme ++ [':'] else []) ++
      (if netloc ≠ [] ∨ (u ≠ [] ∧ u.take 2 = ['/', '/']) then
        '/' :: '/' ::
          (netloc ++ (if u ≠ [] ∧ u.take 1 ≠ ['/'] then '/' :: u else u))
      else u) ++
      '?' :: q ++ (if f ≠ [] then '#' :: f else []) := by
  rw [urlunsplit]
  rw [if_pos hqne]
  split_ifs <;> simp_all [List.append_assoc]

theorem isStrippable_of_alpha {c : Char} (h : isAsciiAlpha c = true) :
    isStrippable c = false := by
  rw [isAsciiAlpha_toNat] at h
  rw [isStrippable]
  simp only [decide_eq_false_iff_not]
  omega

theorem urlsplit_eval {out scheme rest netloc Y PQ P q' frag : List Char}
    (hsan : sanitizeUrl out = out)
    (hscheme : schemeSplit out = (scheme, rest))
    (hnet : netlocSplit rest = some (netloc, Y))
    (hfrag : splitGetD '#' Y = (PQ, frag))
    (hquery : splitGetD '?' PQ = (P, q')) :
    urlsplit out = some ⟨scheme, netloc, P, q', frag⟩ := by
  rw [urlsplit]
  simp only [hsan, hscheme, hnet, hfrag, hquery]

theorem urlsplit_reparse {p : ParseResult} (hInv : ParseInv p)
    {q' : List Char} (hq : q' ≠ []) (hqc : ∀ c ∈ q', qSafe c) :
    urlsplit (urlunparse { p with query := q' }) =
      some ⟨p.scheme, p.netloc, pathful p, q', p.fragment⟩ := by
  have hout0 : urlunparse { p with query := q' } =
      urlunsplit p.scheme p.netloc (pathful p) q' p.fragment := rfl
  rw [hout0, urlunsplit_eq _ _ _ _ _ hq]
  have hPh := hInv.pf_hash
  have hPq := hInv.pf_quest
  have htails := @tail_split _ _ p.fragment hPh hPq hqc
  have htrn := hInv.no_trn
  rw [List.forall_mem_append, List.forall_mem_append,
    List.forall_mem_append] at htrn
  have htrnS := htrn.1.1.1
  have htrnN := htrn.1.1.2
  have htrnP := htrn.1.2
  have htrnF := htrn.2
  have htrnQ : ∀ c ∈ q', c ≠ '\t' ∧ c ≠ '\r' ∧ c ≠ '\n' := by
    intro c hc
    exact ⟨(hqc c hc).2.2.1, (hqc c hc).2.2.2.1, (hqc c hc).2.2.2.2⟩
  have hbrk : ¬ (('[' ∈ p.netloc ∧ ']' ∉ p.netloc) ∨
      (']' ∈ p.netloc ∧ '[' ∉ p.netloc)) := by
    have := hInv.netloc_brackets
    tauto
  by_cases hbr : p.netloc ≠ [] ∨
      (pathful p ≠ [] ∧ (pathful p).take 2 = ['/', '/'])
  · -- the `//` branch of urlunsplit is taken
    have hPF_shape : pathful p = [] ∨ ∃ t, pathful p = '/' :: t := by
      rcases hbr with hnl | ⟨hne, htk⟩
      · exact hInv.netloc_path hnl
      · right
        rcases hpf : pathful p with _ | ⟨a, rest⟩
        · rw [hpf] at hne
          exact absurd rfl hne
        · rw [hpf] at htk
          rcases rest with _ | ⟨b, rest'⟩
          · simp at htk
          · simp at htk
            exact ⟨b :: rest', by rw [htk.1]⟩
    have hprep : (if pathful p ≠ [] ∧ (pathful p).take 1 ≠ ['/'] then
        '/' :: pathful p else pathful p) = pathful p := by
      rcases hPF_shape with h | ⟨t, h⟩
      · rw [h]
        simp
      · rw [h]
        simp
    rw [if_pos hbr, hprep]
    have hY_shape : ∃ c t,
        pathful p ++ '?' :: q' ++
          (if p.fragment ≠ [] then '#' :: p.fragment else []) = c :: t ∧
        notDelim c = false := by
      rcases hPF_shape with h | ⟨t, h⟩
      · refine ⟨'?', q' ++ (if p.fragment ≠ [] then '#' :: p.fragment else []),
          ?_, by decide⟩
        rw [h]
        simp
      · refine ⟨'/', t ++ '?' :: q' ++
          (if p.fragment ≠ [] then '#' :: p.fragment else []), ?_, by decide⟩
        rw [h]
        simp
    have hnet : netlocSplit ('/' :: '/' :: (p.netloc ++
        (pathful p ++ '?' :: q' ++
          (if p.fragment ≠ [] then '#' :: p.fragment else [])))) =
        some (p.netloc, pathful p ++ '?' :: q' ++
          (if p.fragment ≠ [] then '#' :: p.fragment else [])) :=
      netlocSplit_slashes hInv.netloc_delim hbrk (Or.inr hY_shape)
    have htrnSlash : ∀ c ∈ ('/' :: '/' :: (p.netloc ++
        (pathful p ++ '?' :: q' ++
          (if p.fragment ≠ [] then '#' :: p.fragment else [])))),
        c ≠ '\t' ∧ c ≠ '\r' ∧ c ≠ '\n' := by
      intro c hc
      simp only [List.mem_cons, List.mem_append] at hc
      rcases hc with rfl | rfl | hc | (hc | rfl | hc) | hc
      · exact ⟨by decide, by decide, by decide⟩
      · exact ⟨by decide, by decide, by decide⟩
      · exact htrnN c hc
      · exact htrnP c hc
      · exact ⟨by decide, by decide, by decide⟩
      · exact htrnQ c hc
      · by_cases hf : p.fragment = []
        · simp [hf] at hc
        · simp only [ne_eq, hf, not_false_eq_true, if_true, ite_true,
            List.mem_cons] at hc
          rcases hc with rfl | hc
          · exact ⟨by decide, by decide, by decide⟩
          · exact htrnF c hc
    by_cases hsch : p.scheme = []
    · rw [hsch]
      simp only [ne_eq, not_true_eq_false, if_false, List.nil_append,
        ite_false]
      have hassoc : ('/' :: '/' :: (p.netloc ++ pathful p)) ++ '?' :: q' ++
          (if p.fragment ≠ [] then '#' :: p.fragment else []) =
          '/' :: '/' :: (p.netloc ++ (pathful p ++ '?' :: q' ++
            (if p.fragment ≠ [] then '#' :: p.fragment else []))) := by
        simp [List.append_assoc]
      rw [hassoc]
      exact urlsplit_eval
        (sanitize_id (by
          intro c t hct
          injection hct with h1 _
          rw [← h1]
          decide) htrnSlash)
        (schemeSplit_head_not_alpha (by decide) _)
        hnet htails.1 htails.2
    · obtain ⟨hs_ex, hs_all, hs_low⟩ := hInv.scheme_ok.resolve_left hsch
      rw [if_pos hsch]
      have hassoc : (p.scheme ++ [':']) ++
          ('/' :: '/' :: (p.netloc ++ pathful p)) ++ '?' :: q' ++
          (if p.fragment ≠ [] then '#' :: p.fragment else []) =
          p.scheme ++ ':' :: ('/' :: '/' :: (p.netloc ++ (pathful p ++
            '?' :: q' ++
            (if p.fragment ≠ [] then '#' :: p.fragment else [])))) := by
        simp [List.append_assoc]
      rw [hassoc]
      obtain ⟨c0, t0, hs0, hc0⟩ := hs_ex
      refine urlsplit_eval (sanitize_id ?_ ?_)
        (schemeSplit_scheme _ ⟨c0, t0, hs0, hc0⟩ hs_all hs_low)
        hnet htails.1 htails.2
      · intro c t hct
        rw [hs0, List.cons_append] at hct
        injection hct with h1 _
        rw [← h1]
        exact isStrippable_of_alpha hc0
      · intro c hc
        rcases List.mem_append.mp hc with hc | hc
        · exact htrnS c hc
        rcases List.mem_cons.mp hc with rfl | hc
        · exact ⟨by decide, by decide, by decide⟩
        · exact htrnSlash c hc
  · -- the `//` branch of urlunsplit is not taken
    rw [if_neg hbr]
    push_neg at hbr
    obtain ⟨hnl, hbr2⟩ := hbr
    have htake : ¬ (pathful p ++ '?' :: q' ++
        (if p.fragment ≠ [] then '#' :: p.fragment else [])).take 2 =
        ['/', '/'] := by
      rcases hpf : pathful p with _ | ⟨a, t⟩
      · simp
      · rcases t with _ | ⟨b, t'⟩
        · simp
        · have h2 := hbr2 (by rw [hpf]; simp)
          rw [hpf] at h2
          simpa using h2
    have htake_pf : ¬ (pathful p).take 2 = ['/', '/'] := by
      rcases hpf : pathful p with _ | ⟨a, t⟩
      · simp
      · have h2 := hbr2 (by rw [hpf]; simp)
        rw [← hpf]
        exact h2
    have hnet : netlocSplit (pathful p ++ '?' :: q' ++
        (if p.fragment ≠ [] then '#' :: p.fragment else [])) =
        some (p.netloc, pathful p ++ '?' :: q' ++
          (if p.fragment ≠ [] then '#' :: p.fragment else [])) := by
      rw [hnl]
      exact netlocSplit_no htake
    have htrnRest : ∀ c ∈ (pathful p ++ '?' :: q' ++
        (if p.fragment ≠ [] then '#' :: p.fragment else [])),
        c ≠ '\t' ∧ c ≠ '\r' ∧ c ≠ '\n' := by
      intro c hc
      simp only [List.mem_cons, List.mem_append] at hc
      rcases hc with (hc | rfl | hc) | hc
      · exact htrnP c hc
      · exact ⟨by decide, by decide, by decide⟩
      · exact htrnQ c hc
      · by_cases hf : p.fragment = []
        · simp [hf] at hc
        · simp only [ne_eq, hf, not_false_eq_true, if_true, ite_true,
            List.mem_cons] at hc
          rcases hc with rfl | hc
          · exact ⟨by decide, by decide, by decide⟩
          · exact htrnF c hc
    by_cases hsch : p.scheme = []
    · rw [hsch]
      simp only [ne_eq, not_true_eq_false, if_false, List.nil_append,
        ite_false]
      have hns := hInv.no_scheme hsch hnl htake_pf
      refine urlsplit_eval (sanitize_id ?_ htrnRest) (schemeSplit_no ?_)
        hnet htails.1 htails.2
      · intro c t hct
        rcases hpf : pathful p with _ | ⟨a, t'⟩
        · rw [hpf] at hct
          simp only [List.nil_append, List.cons_append] at hct
          injection hct with h1 _
          rw [← h1]
          decide
        · rw [hpf] at hct
          simp only [List.cons_append] at hct
          injection hct with h1 _
          rw [← h1]
          exact hInv.head_ok hsch hnl a t' hpf
      · intro pre post heq hcond
        obtain ⟨⟨c, t, hpre, hc⟩, hall⟩ := hcond
        have hqpre : ('?' : Char) ∉ pre :=
          fun hm => absurd (hall _ hm) (by decide)
        obtain ⟨mid, hmid⟩ := prefix_before_quest pre post (pathful p)
          (q' ++ (if p.fragment ≠ [] then '#' :: p.fragment else []))
          (by rw [← heq]; simp [List.append_assoc]) hqpre
        exact hns pre mid hmid ⟨⟨c, t, hpre, hc⟩, hall⟩
    · obtain ⟨hs_ex, hs_all, hs_low⟩ := hInv.scheme_ok.resolve_left hsch
      rw [if_pos hsch]
      have hassoc : (p.scheme ++ [':']) ++ pathful p ++ '?' :: q' ++
          (if p.fragment ≠ [] then '#' :: p.fragment else []) =
          p.scheme ++ ':' :: (pathful p ++ '?' :: q' ++
            (if p.fragment ≠ [] then '#' :: p.fragment else [])) := by
        simp [List.append_assoc]
      rw [hassoc]
      obtain ⟨c0, t0, hs0, hc0⟩ := hs_ex
      refine urlsplit_eval (sanitize_id ?_ ?_)
        (schemeSplit_scheme _ ⟨c0, t0, hs0, hc0⟩ hs_all hs_low)
        hnet htails.1 htails.2
      · intro c t hct
        rw [hs0, List.cons_append] at hct
        injection hct with h1 _
        rw [← h1]
        exact isStrippable_of_alpha hc0
      · intro c hc
        rcases List.mem_append.mp hc with hc | hc
        · exact htrnS c hc
        rcases List.mem_cons.mp hc with rfl | hc
        · exact ⟨by decide, by decide, by decide⟩
        · exact htrnRest c hc

theorem urlparse_reparse {p : ParseResult} (hInv : ParseInv p)
    {q' : List Char} (hq : q' ≠ []) (hqc : ∀ c ∈ q', qSafe c) :
    urlparse (urlunparse { p with query := q' }) =
      some { p with query := q' } := by
  rw [urlparse, urlsplit_reparse hInv hq hqc]
  have hps := hInv.params_split
  by_cases hcond : p.scheme ∈ usesParams ∧ ';' ∈ pathful p
  · rw [if_pos hcond] at hps
    show (if p.scheme ∈ usesParams ∧ ';' ∈ pathful p then _ else _) = _
    rw [if_pos hcond]
    simp only [hps]
  · rw [if_neg hcond] at hps
    show (if p.scheme ∈ usesParams ∧ ';' ∈ pathful p then _ else _) = _
    rw [if_neg hcond]
    have hpf : pathful p = p.path := by
      rw [pathful, if_neg (by simpa using hps)]
    rw [hpf, hps]

theorem schemeSplit_cases (l : List Char) :
    schemeSplit l = ([], l) ∨
    ∃ pre post, l = pre ++ ':' :: post ∧
      (∃ c t, pre = c :: t ∧ isAsciiAlpha c = true) ∧
      (∀ c ∈ pre, isSchemeChar c = true) ∧
      schemeSplit l = (pyLower pre, post) := by
  rw [schemeSplit]
  cases hs : splitAtFirst ':' l with
  | none => exact Or.inl rfl
  | some ab =>
    obtain ⟨pre, post⟩ := ab
    obtain ⟨hdec, _⟩ := splitAtFirst_eq_some hs
    cases hpre : pre with
    | nil => exact Or.inl rfl
    | cons c t =>
      dsimp only
      by_cases hcond : isAsciiAlpha c = true ∧ (c :: t).all isSchemeChar = true
      · refine Or.inr ⟨c :: t, post, hpre ▸ hdec, ⟨c, t, rfl, hcond.1⟩,
          List.all_eq_true.mp hcond.2, ?_⟩
        rw [if_pos (by exact ⟨by simp [hcond.1], by simp [hcond.2]⟩)]
      · rw [if_neg (by
          intro hc
          exact hcond ⟨by simpa using hc.1, by simpa using hc.2⟩)]
        exact Or.inl rfl

theorem sanitize_no_trn (u : List Char) :
    ∀ c ∈ sanitizeUrl u, c ≠ '\t' ∧ c ≠ '\r' ∧ c ≠ '\n' := by
  intro c hc
  rw [sanitizeUrl, List.mem_filter] at hc
  have := hc.2
  simp only [decide_not, Bool.decide_or, Bool.not_eq_true', Bool.or_eq_false_iff,
    decide_eq_false_iff_not] at this
  exact ⟨this.1, this.2.1, this.2.2⟩

theorem sanitize_head {u : List Char} {c : Char} {t : List Char}
    (h : sanitizeUrl u = c :: t) : isStrippable c = false := by
  rw [sanitizeUrl] at h
  cases hd : u.dropWhile isStrippable with
  | nil =>
    rw [hd] at h
    simp at h
  | cons d0 dt =>
    have hd0 : isStrippable d0 = false := dropWhile_head_not hd
    have hq : d0 ≠ '\t' ∧ d0 ≠ '\r' ∧ d0 ≠ '\n' := by
      refine ⟨?_, ?_, ?_⟩ <;>
        (intro he; rw [he] at hd0; exact absurd hd0 (by decide))
    rw [hd, List.filter_cons, if_pos (by simp [hq.1, hq.2.1, hq.2.2])] at h
    injection h with h1 _
    rw [← h1]
    exact hd0

structure SplitInv (s : SplitResult) : Prop where
  scheme_ok : s.scheme = [] ∨
    ((∃ c t, s.scheme = c :: t ∧ isAsciiAlpha c = true) ∧
      (∀ c ∈ s.scheme, isSchemeChar c = true) ∧ pyLower s.scheme = s.scheme)
  netloc_delim : ∀ c ∈ s.netloc, notDelim c = true
  netloc_brackets : ('[' ∈ s.netloc) ↔ (']' ∈ s.netloc)
  path_hash : '#' ∉ s.path
  path_quest : '?' ∉ s.path
  no_trn : ∀ c ∈ s.scheme ++ s.netloc ++ s.path ++ s.fragment,
    c ≠ '\t' ∧ c ≠ '\r' ∧ c ≠ '\n'
  head_ok : s.scheme = [] → s.netloc = [] → ∀ c t, s.path = c :: t →
    isStrippable c = false
  netloc_path : s.netloc ≠ [] → s.path = [] ∨ ∃ t, s.path = '/' :: t
  no_scheme : s.scheme = [] → s.netloc = [] → ¬ s.path.take 2 = ['/', '/'] →
    ∀ pre post, s.path = pre ++ ':' :: post →
      ¬ ((∃ c t, pre = c :: t ∧ isAsciiAlpha c = true) ∧
        ∀ c ∈ pre, isSchemeChar c = true)

theorem splits_path_spec (Y : List Char) :
    ('#' : Char) ∉ (splitGetD '?' (splitGetD '#' Y).1).1 ∧
    ('?' : Char) ∉ (splitGetD '?' (splitGetD '#' Y).1).1 ∧
    (∃ T, Y = (splitGetD '?' (splitGetD '#' Y).1).1 ++ T) ∧
    (∀ c ∈ (splitGetD '?' (splitGetD '#' Y).1).2, c ∈ Y) ∧
    (∀ c ∈ (splitGetD '#' Y).2, c ∈ Y) := by
  obtain ⟨hh1, hh2⟩ := splitGetD_spec '#' Y
  obtain ⟨hq1, hq2⟩ := splitGetD_spec '?' (splitGetD '#' Y).1
  have hfrag_pre : ∃ T1, Y = (splitGetD '#' Y).1 ++ T1 := by
    rcases hh2 with h | ⟨h, _, _⟩
    · exact ⟨'#' :: (splitGetD '#' Y).2, h⟩
    · exact ⟨[], by rw [h, List.append_nil]⟩
  have hpath_pre : ∃ T2, (splitGetD '#' Y).1 =
      (splitGetD '?' (splitGetD '#' Y).1).1 ++ T2 := by
    rcases hq2 with h | ⟨h, _, _⟩
    · exact ⟨'?' :: (splitGetD '?' (splitGetD '#' Y).1).2, h⟩
    · exact ⟨[], by rw [h, List.append_nil]⟩
  obtain ⟨T1, hT1⟩ := hfrag_pre
  obtain ⟨T2, hT2⟩ := hpath_pre
  refine ⟨?_, hq1, ⟨T2 ++ T1, ?_⟩, ?_, ?_⟩
  case refine_2 =>
    conv_lhs => rw [hT1, hT2]
    exact List.append_assoc _ _ _
  · intro hc
    exact hh1 (by rw [hT2]; exact List.mem_append.mpr (Or.inl hc))
  · intro c hc
    rcases hq2 with h | ⟨_, h2, _⟩
    · rw [hT1, h]
      simp [hc]
    · rw [h2] at hc
      cases hc
  · intro c hc
    rcases hh2 with h | ⟨_, h2, _⟩
    · rw [h]
      simp [hc]
    · rw [h2] at hc
      cases hc

theorem notDelim_false_cases {c : Char} (h : notDelim c = false) :
    c = '/' ∨ c = '?' ∨ c = '#' := by
  rw [notDelim] at h
  simp only [ne_eq, Bool.decide_and, Bool.and_eq_false_iff,
    decide_eq_false_iff_not, not_not] at h
  tauto

theorem takeWhile_nil_dropWhile {p : Char → Bool} {l : List Char}
    (h : l.takeWhile p = []) : l.dropWhile p = l := by
  cases l with
  | nil => rfl
  | cons c t =>
    rw [List.takeWhile_cons] at h
    by_cases hc : p c
    · simp [hc] at h
    · rw [List.dropWhile_cons, if_neg (by simpa using hc)]

theorem netlocSplit_spec {X nl Y : List Char}
    (h : netlocSplit X = some (nl, Y)) :
    (∀ c ∈ nl, notDelim c = true) ∧ (('[' ∈ nl) ↔ (']' ∈ nl)) ∧
    (∀ c ∈ Y, c ∈ X) ∧ (∀ c ∈ nl, c ∈ X) ∧
    (¬ X.take 2 = ['/', '/'] → nl = [] ∧ Y = X) ∧
    (X.take 2 = ['/', '/'] → Y = [] ∨ ∃ c0 t, Y = c0 :: t ∧ notDelim c0 = false) := by
  rw [netlocSplit] at h
  by_cases htk : X.take 2 = ['/', '/']
  · rw [if_pos htk] at h
    by_cases hbad : ('[' ∈ (X.drop 2).takeWhile notDelim ∧
        ']' ∉ (X.drop 2).takeWhile notDelim) ∨
        (']' ∈ (X.drop 2).takeWhile notDelim ∧
          '[' ∉ (X.drop 2).takeWhile notDelim)
    · rw [if_pos hbad] at h
      cases h
    · rw [if_neg hbad] at h
      injection h with h
      injection h with h1 h2
      subst h1
      subst h2
      refine ⟨fun c hc => List.mem_takeWhile_imp hc, by tauto, ?_, ?_,
        fun hc => absurd htk hc, fun _ => ?_⟩
      · intro c hc
        exact List.drop_subset _ _ ((List.dropWhile_sublist notDelim).subset hc)
      · intro c hc
        exact List.drop_subset _ _ ((List.takeWhile_prefix notDelim).subset hc)
      · cases hY : (X.drop 2).dropWhile notDelim with
        | nil => exact Or.inl rfl
        | cons c0 t => exact Or.inr ⟨c0, t, rfl, dropWhile_head_not hY⟩
  · rw [if_neg htk] at h
    injection h with h
    injection h with h1 h2
    subst h1
    subst h2
    exact ⟨by simp, by simp, fun c hc => hc, by simp,
      fun _ => ⟨rfl, rfl⟩, fun hc => absurd hc htk⟩

theorem schemeSplit_forced {l pre post : List Char}
    (hl : l = pre ++ ':' :: post)
    (hpre : (∃ c t, pre = c :: t ∧ isAsciiAlpha c = true) ∧
      ∀ c ∈ pre, isSchemeChar c = true) :
    (schemeSplit l).1 = pyLower pre := by
  obtain ⟨⟨c, t, hct, hc⟩, hall⟩ := hpre
  have hcolon : (':' : Char) ∉ pre := fun hm => absurd (hall _ hm) (by decide)
  rw [hl, schemeSplit, splitAtFirst_append post hcolon]
  subst hct
  dsimp only
  rw [if_pos ⟨by simp [hc], by
    simp only [List.all_eq_true]
    exact fun x hx => hall x hx⟩]

theorem pyLower_no_trn {l : List Char}
    (h : ∀ c ∈ l, c ≠ '\t' ∧ c ≠ '\r' ∧ c ≠ '\n') :
    ∀ c ∈ pyLower l, c ≠ '\t' ∧ c ≠ '\r' ∧ c ≠ '\n' := by
  intro c hc
  rw [pyLower, List.mem_map] at hc
  obtain ⟨c0, hc0, rfl⟩ := hc
  obtain ⟨h1, h2, h3⟩ := h c0 hc0
  refine ⟨fun he => ?_, fun he => ?_, fun he => ?_⟩
  · exact pyLowerChar_toNat_ne (m := 9) (by norm_num)
      (fun hn => h1 (char_eq_iff.mpr hn)) (char_eq_iff.mp he)
  · exact pyLowerChar_toNat_ne (m := 13) (by norm_num)
      (fun hn => h2 (char_eq_iff.mpr hn)) (char_eq_iff.mp he)
  · exact pyLowerChar_toNat_ne (m := 10) (by norm_num)
      (fun hn => h3 (char_eq_iff.mpr hn)) (char_eq_iff.mp he)

theorem urlsplit_inv {u : List Char} {s : SplitResult}
    (h : urlsplit u = some s) : SplitInv s := by
  rw [urlsplit] at h
  dsimp only at h
  have htrn1 := sanitize_no_trn u
  rcases hnet : netlocSplit (schemeSplit (sanitizeUrl u)).2 with _ | ⟨nl, Y⟩
  · rw [hnet] at h
    cases h
  rw [hnet] at h
  dsimp only at h
  injection h with h
  subst h
  obtain ⟨hnd, hnb, hYsub, hnlsub, hno, hyes⟩ := netlocSplit_spec hnet
  obtain ⟨hph, hpq, ⟨T, hT⟩, hqsub, hfsub⟩ := splits_path_spec Y
  rcases schemeSplit_cases (sanitizeUrl u) with hA |
    ⟨pre0, post0, hdec, hex, hall, hB⟩
  · -- no scheme recognized
    rw [hA] at hnet hYsub hnlsub hno hyes ⊢
    simp only at hnet hYsub hnlsub hno hyes ⊢
    constructor
    case scheme_ok => exact Or.inl rfl
    case netloc_delim => exact hnd
    case netloc_brackets => exact hnb
    case path_hash => exact hph
    case path_quest => exact hpq
    case no_trn =>
      dsimp only
      intro c hc
      simp only [List.mem_append, List.not_mem_nil, false_or] at hc
      rcases hc with (hc | hc) | hc
      · exact htrn1 c (hnlsub c hc)
      · exact htrn1 c (hYsub c (hT ▸ List.mem_append.mpr (Or.inl hc)))
      · exact htrn1 c (hYsub c (hfsub c hc))
    case head_ok =>
      intro _ hnl c t hpath
      dsimp only at hnl hpath
      subst hnl
      rw [hpath, List.cons_append] at hT
      by_cases htk : (sanitizeUrl u).take 2 = ['/', '/']
      · rcases hyes htk with hY | ⟨c0, t0, hY0, hc0⟩
        · rw [hY] at hT
          cases hT
        · rw [hY0] at hT
          injection hT with h1 _
          subst h1
          rcases notDelim_false_cases hc0 with rfl | rfl | rfl
          · decide
          · exact absurd (hpath ▸ List.mem_cons_self _ _) hpq
          · exact absurd (hpath ▸ List.mem_cons_self _ _) hph
      · obtain ⟨_, hYX⟩ := hno htk
        rw [hYX] at hT
        exact sanitize_head hT
    case netloc_path =>
      intro hnl
      dsimp only at hnl ⊢
      rcases hpath : (splitGetD '?' (splitGetD '#' Y).1).1 with _ | ⟨c, t⟩
      · exact Or.inl rfl
      right
      rw [hpath, List.cons_append] at hT
      by_cases htk : (sanitizeUrl u).take 2 = ['/', '/']
      · rcases hyes htk with hY | ⟨c0, t0, hY0, hc0⟩
        · rw [hY] at hT
          cases hT
        · rw [hY0] at hT
          injection hT with h1 _
          subst h1
          rcases notDelim_false_cases hc0 with rfl | rfl | rfl
          · exact ⟨t, rfl⟩
          · exact absurd (hpath ▸ List.mem_cons_self _ _) hpq
          · exact absurd (hpath ▸ List.mem_cons_self _ _) hph
      · obtain ⟨hnl0, _⟩ := hno htk
        exact absurd hnl0 hnl
    case no_scheme =>
      intro _ hnl htk2 pre post hpath hcond
      dsimp only at hnl hpath htk2
      obtain ⟨⟨c, t, hct, hca⟩, hallpre⟩ := hcond
      rw [hpath, List.append_assoc] at hT
      by_cases htk : (sanitizeUrl u).take 2 = ['/', '/']
      · rw [hct, List.cons_append] at hT
        rcases hyes htk with hY | ⟨c0, t0, hY0, hc0⟩
        · rw [hY] at hT
          cases hT
        · rw [hY0] at hT
          injection hT with h1 _
          subst h1
          rcases notDelim_false_cases hc0 with rfl | rfl | rfl
          · exact absurd hca (by decide)
          · refine absurd ?_ hpq
            rw [hpath, hct]
            simp
          · refine absurd ?_ hph
            rw [hpath, hct]
            simp
      · obtain ⟨_, hYX⟩ := hno htk
        rw [hYX] at hT
        have hforced := schemeSplit_forced hT ⟨⟨c, t, hct, hca⟩, hallpre⟩
        rw [hA] at hforced
        simp only at hforced
        rw [hct, pyLower] at hforced
        simp at hforced
  · -- scheme recognized
    rw [hB] at hnet hYsub hnlsub hno hyes ⊢
    simp only at hnet hYsub hnlsub hno hyes ⊢
    have hpostsub : ∀ c ∈ post0, c ∈ sanitizeUrl u := by
      intro c hc
      rw [hdec]
      simp [hc]
    have hschemene : pyLower pre0 ≠ [] := by
      obtain ⟨c, t, hct, _⟩ := hex
      rw [hct, pyLower]
      simp
    constructor
    case scheme_ok =>
      right
      obtain ⟨c, t, hct, hca⟩ := hex
      refine ⟨⟨pyLowerChar c, pyLower t, by rw [hct, pyLower]; simp [pyLower],
        pyLowerChar_alpha hca⟩, ?_, pyLower_idem pre0⟩
      intro x hx
      rw [pyLower, List.mem_map] at hx
      obtain ⟨x0, hx0, rfl⟩ := hx
      exact pyLowerChar_schemeChar (hall x0 hx0)
    case netloc_delim => exact hnd
    case netloc_brackets => exact hnb
    case path_hash => exact hph
    case path_quest => exact hpq
    case no_trn =>
      dsimp only
      intro c hc
      simp only [List.mem_append] at hc
      have hpre_trn : ∀ x ∈ pre0, x ≠ '\t' ∧ x ≠ '\r' ∧ x ≠ '\n' := by
        intro x hx
        refine htrn1 x ?_
        rw [hdec]
        simp [hx]
      rcases hc with ((hc | hc) | hc) | hc
      · exact pyLower_no_trn hpre_trn c hc
      · exact htrn1 c (hpostsub c (hnlsub c hc))
      · exact htrn1 c (hpostsub c (hYsub c
          (hT ▸ List.mem_append.mpr (Or.inl hc))))
      · exact htrn1 c (hpostsub c (hYsub c (hfsub c hc)))
    case head_ok =>
      intro hs
      dsimp only at hs
      exact absurd hs hschemene
    case netloc_path =>
      intro hnl
      dsimp only at hnl ⊢
      rcases hpath : (splitGetD '?' (splitGetD '#' Y).1).1 with _ | ⟨c, t⟩
      · exact Or.inl rfl
      right
      rw [hpath, List.cons_append] at hT
      by_cases htk : post0.take 2 = ['/', '/']
      · rcases hyes htk with hY | ⟨c0, t0, hY0, hc0⟩
        · rw [hY] at hT
          cases hT
        · rw [hY0] at hT
          injection hT with h1 _
          subst h1
          rcases notDelim_false_cases hc0 with rfl | rfl | rfl
          · exact ⟨t, rfl⟩
          · exact absurd (hpath ▸ List.mem_cons_self _ _) hpq
          · exact absurd (hpath ▸ List.mem_cons_self _ _) hph
      · obtain ⟨hnl0, _⟩ := hno htk
        exact absurd hnl0 hnl
    case no_scheme =>
      intro hs
      dsimp only at hs
      exact absurd hs hschemene

theorem splitAtLast_of_mem {c : Char} {l : List Char} (h : c ∈ l) :
    ∃ pre post, splitAtLast c l = some (pre, post) ∧
      l = pre ++ c :: post ∧ c ∉ post := by
  have hrev : c ∈ l.reverse := List.mem_reverse.mpr h
  cases hs : splitAtFirst c l.reverse with
  | none => exact absurd hrev (splitAtFirst_eq_none.mp hs)
  | some ab =>
    obtain ⟨a, b⟩ := ab
    obtain ⟨hdec, hnot⟩ := splitAtFirst_eq_some hs
    refine ⟨b.reverse, a.reverse, by rw [splitAtLast, hs], ?_,
      fun hm => hnot (List.mem_reverse.mp hm)⟩
    have := congrArg List.reverse hdec
    rw [List.reverse_reverse] at this
    rw [this]
    simp

theorem splitAtLast_append {c : Char} {pre post : List Char} (h : c ∉ post) :
    splitAtLast c (pre ++ c :: post) = some (pre, post) := by
  rw [splitAtLast]
  have : (pre ++ c :: post).reverse = post.reverse ++ c :: pre.reverse := by
    simp
  rw [this, splitAtFirst_append _ (fun hm => h (List.mem_reverse.mp hm))]
  simp

theorem pySplitParams_spec (url : List Char) :
    ((pySplitParams url).1 ++ ';' :: (pySplitParams url).2 = url ∨
      ((pySplitParams url).1 = url ∧ (pySplitParams url).2 = [])) ∧
    ((pySplitParams url).2 = [] → ';' ∈ (pySplitParams url).1 →
      pySplitParams (pySplitParams url).1 = ((pySplitParams url).1, [])) := by
  by_cases hsl : '/' ∈ url
  · obtain ⟨pre, post, hlast, hdec, hslnot⟩ := splitAtLast_of_mem hsl
    rw [pySplitParams, if_pos hsl, hlast]
    dsimp only
    cases hsf : splitAtFirst ';' post with
    | none =>
      dsimp only
      refine ⟨Or.inr ⟨rfl, rfl⟩, fun _ hsemi => ?_⟩
      rw [pySplitParams, if_pos hsl, hlast]
      dsimp only
      rw [hsf]
    | some xy =>
      obtain ⟨x, y⟩ := xy
      obtain ⟨hpdec, hxnot⟩ := splitAtFirst_eq_some hsf
      dsimp only
      constructor
      · left
        rw [hdec, hpdec]
        simp
      · intro hy hsemi
        rw [hy] at hpdec
        have hx_nosl : '/' ∉ x := by
          intro hm
          exact hslnot (hpdec ▸ List.mem_append.mpr (Or.inl hm))
        rw [pySplitParams, if_pos (by simp), splitAtLast_append hx_nosl]
        dsimp only
        rw [splitAtFirst_eq_none.mpr hxnot]
  · rw [pySplitParams, if_neg hsl]
    cases hsf : splitAtFirst ';' url with
    | none =>
      dsimp only
      refine ⟨Or.inr ⟨rfl, rfl⟩, fun _ hsemi => ?_⟩
      rw [pySplitParams, if_neg hsl]
      rw [hsf]
    | some xy =>
      obtain ⟨x, y⟩ := xy
      obtain ⟨hpdec, hxnot⟩ := splitAtFirst_eq_some hsf
      dsimp only
      exact ⟨Or.inl (by rw [hpdec]), fun _ hsemi => absurd hsemi hxnot⟩

theorem urlparse_inv {u : List Char} {p : ParseResult}
    (h : urlparse u = some p) : ParseInv p := by
  rw [urlparse] at h
  rcases hs : urlsplit u with _ | ⟨sp⟩
  · rw [hs] at h
    cases h
  rw [hs] at h
  dsimp only at h
  have hinv := urlsplit_inv hs
  have hmain : ∃ Tail, sp.path = pathful p ++ Tail ∧ (Tail = [] ∨ Tail = [';']) ∧
      p.scheme = sp.scheme ∧ p.netloc = sp.netloc ∧ p.fragment = sp.fragment ∧
      (if p.scheme ∈ usesParams ∧ ';' ∈ pathful p then
        pySplitParams (pathful p) = (p.path, p.params)
      else p.params = []) := by
    by_cases hcond : sp.scheme ∈ usesParams ∧ ';' ∈ sp.path
    · rw [if_pos hcond] at h
      injection h with h
      subst h
      obtain ⟨hrec, hB⟩ := pySplitParams_spec sp.path
      dsimp only
      by_cases hy : (pySplitParams sp.path).2 = []
      · rcases hrec with hrec | ⟨hrec1, _⟩
        · -- trailing `;` dropped
          rw [hy] at hrec
          have hpf : pathful ⟨sp.scheme, sp.netloc, (pySplitParams sp.path).1,
              (pySplitParams sp.path).2, sp.query, sp.fragment⟩ =
              (pySplitParams sp.path).1 := by
            rw [pathful, if_neg (by simpa using hy)]
          rw [hpf]
          refine ⟨[';'], hrec.symm, Or.inr rfl, rfl, rfl, rfl, ?_⟩
          by_cases hsemi : ';' ∈ (pySplitParams sp.path).1
          · rw [if_pos ⟨hcond.1, hsemi⟩, hB hy hsemi, hy]
          · rw [if_neg (by
              intro hc
              exact hsemi hc.2)]
            exact hy
        · have hpf : pathful ⟨sp.scheme, sp.netloc, (pySplitParams sp.path).1,
              (pySplitParams sp.path).2, sp.query, sp.fragment⟩ =
              (pySplitParams sp.path).1 := by
            rw [pathful, if_neg (by simpa using hy)]
          rw [hpf]
          refine ⟨[], by rw [List.append_nil, hrec1], Or.inl rfl, rfl, rfl, rfl, ?_⟩
          by_cases hsemi : ';' ∈ (pySplitParams sp.path).1
          · rw [if_pos ⟨hcond.1, hsemi⟩, hB hy hsemi, hy]
          · rw [if_neg (by
              intro hc
              exact hsemi hc.2)]
            exact hy
      · rcases hrec with hrec | ⟨_, hrec2⟩
        · have hpf : pathful ⟨sp.scheme, sp.netloc, (pySplitParams sp.path).1,
              (pySplitParams sp.path).2, sp.query, sp.fragment⟩ =
              (pySplitParams sp.path).1 ++ ';' :: (pySplitParams sp.path).2 := by
            rw [pathful, if_pos (by simpa using hy)]
          rw [hpf]
          refine ⟨[], by rw [List.append_nil, hrec], Or.inl rfl, rfl, rfl, rfl, ?_⟩
          rw [if_pos ⟨hcond.1, by simp⟩, hrec]
        · exact absurd hrec2 hy
    · rw [if_neg hcond] at h
      injection h with h
      subst h
      dsimp only
      have hpf : pathful ⟨sp.scheme, sp.netloc, sp.path, [], sp.query,
          sp.fragment⟩ = sp.path := by
        rw [pathful]
        simp
      rw [hpf]
      refine ⟨[], by simp, Or.inl rfl, rfl, rfl, rfl, ?_⟩
      rw [if_neg hcond]
  obtain ⟨Tail, hTail, hTcase, hsch, hnl, hfr, hparams⟩ := hmain
  have htk_transfer : ¬ (pathful p).take 2 = ['/', '/'] →
      ¬ sp.path.take 2 = ['/', '/'] := by
    intro hntk htk
    apply hntk
    rw [hTail] at htk
    rcases hpf : pathful p with _ | ⟨a, rest⟩
    · rw [hpf] at htk
      rcases hTcase with rfl | rfl
      · simp at htk
      · simp at htk
    · rw [hpf] at htk
      rcases rest with _ | ⟨b, rest'⟩
      · rcases hTcase with rfl | rfl
        · simp at htk
        · simp at htk
      · simp at htk
        simp [htk.1, htk.2]
  constructor
  case scheme_ok => rw [hsch]; exact hinv.scheme_ok
  case netloc_delim => rw [hnl]; exact hinv.netloc_delim
  case netloc_brackets => rw [hnl]; exact hinv.netloc_brackets
  case pf_hash =>
    intro hc
    exact hinv.path_hash (hTail ▸ List.mem_append.mpr (Or.inl hc))
  case pf_quest =>
    intro hc
    exact hinv.path_quest (hTail ▸ List.mem_append.mpr (Or.inl hc))
  case no_trn =>
    intro c hc
    refine hinv.no_trn c ?_
    rw [hsch, hnl, hfr] at hc
    simp only [List.mem_append] at hc ⊢
    rcases hc with ((hc | hc) | hc) | hc
    · exact Or.inl (Or.inl (Or.inl hc))
    · exact Or.inl (Or.inl (Or.inr hc))
    · exact Or.inl (Or.inr (hTail ▸ List.mem_append.mpr (Or.inl hc)))
    · exact Or.inr hc
  case head_ok =>
    intro h1 h2 c t hpf
    refine hinv.head_ok (by rw [← hsch]; exact h1) (by rw [← hnl]; exact h2)
      c (t ++ Tail) ?_
    rw [hTail, hpf, List.cons_append]
  case netloc_path =>
    intro hne
    rcases hinv.netloc_path (by rw [← hnl]; exact hne) with hsp | ⟨t, hsp⟩
    · left
      rw [hsp] at hTail
      exact (List.append_eq_nil.mp hTail.symm).1
    · rcases hpf2 : pathful p with _ | ⟨a, rest⟩
      · exact Or.inl rfl
      · have hthis : sp.path = a :: (rest ++ Tail) := by
          rw [hTail, hpf2, List.cons_append]
        rw [hsp] at hthis
        injection hthis with h1 _
        exact Or.inr ⟨rest, by rw [← h1]⟩
  case no_scheme =>
    intro h1 h2 h3 pre post hpf hcond
    refine hinv.no_scheme (by rw [← hsch]; exact h1) (by rw [← hnl]; exact h2)
      (htk_transfer h3) pre (post ++ Tail) ?_ hcond
    rw [hTail, hpf]
    simp [List.append_assoc]
  case params_split => exact hparams

/-! ## Nonemptiness and character classification of encoded queries -/

theorem utf8DecodeReplace_ne_nil {B : List Nat} (hB : B ≠ []) :
    utf8DecodeReplace B ≠ [] := by
  cases B with
  | nil => exact absurd rfl hB
  | cons b bs =>
    rw [utf8DecodeReplace.eq_def]
    rcases bs with _ | ⟨b1, bs1⟩
    · dsimp only
      split_ifs <;> simp
    · rcases bs1 with _ | ⟨b2, bs2⟩
      · dsimp only
        split_ifs <;> simp
      · rcases bs2 with _ | ⟨b3, bs3⟩
        · dsimp only
          split_ifs <;> simp
        · dsimp only
          split_ifs <;> simp

theorem pyUnquote_ne_nil {s : List Char} (h : s ≠ []) : pyUnquote s ≠ [] := by
  cases s with
  | nil => exact absurd rfl h
  | cons c rest =>
    rw [pyUnquote]
    by_cases hc : c = '%'
    · rw [if_pos hc]
      by_cases hp : (collectPct (c :: rest)).1 = []
      · rw [dif_pos hp]
        simp
      · rw [dif_neg hp]
        intro habs
        exact utf8DecodeReplace_ne_nil hp (List.append_eq_nil.mp habs).1
    · rw [if_neg hc]
      simp

theorem pyUnquotePlus_ne_nil {s : List Char} (h : s ≠ []) :
    pyUnquotePlus s ≠ [] := by
  rw [pyUnquotePlus]
  apply pyUnquote_ne_nil
  rw [plusToSpace]
  simpa using h

theorem parse_qsl_value_ne_nil {qs k v : List Char}
    (h : (k, v) ∈ parse_qsl qs) : v ≠ [] := by
  rw [parse_qsl] at h
  by_cases hq : qs = []
  · rw [if_pos hq] at h
    simp at h
  · rw [if_neg hq] at h
    rw [List.mem_filterMap] at h
    obtain ⟨f, _, hf⟩ := h
    rw [pyParseQslPair] at hf
    by_cases hf0 : f = []
    · rw [if_pos hf0] at hf
      cases hf
    · rw [if_neg hf0] at hf
      cases hsf : splitAtFirst '=' f with
      | none =>
        rw [hsf] at hf
        cases hf
      | some nv =>
        obtain ⟨n, v0⟩ := nv
        rw [hsf] at hf
        dsimp only at hf
        by_cases hv0 : v0 = []
        · rw [if_pos hv0] at hf
          cases hf
        · rw [if_neg hv0] at hf
          injection hf with hf
          have : v = pyUnquotePlus v0 := (congrArg Prod.snd hf).symm
          rw [this]
          exact pyUnquotePlus_ne_nil hv0

theorem dLookup_filter_some {P : List Char × List Char → Bool}
    {k v : List Char} {d : List (List Char × List Char)}
    (h : dLookup k d = some v) (hP : P (k, v) = true) :
    dLookup k (d.filter P) = some v := by
  induction d with
  | nil => simp [dLookup] at h
  | cons p d ih =>
    rw [dLookup] at h
    by_cases hp : p.1 = k
    · rw [if_pos hp] at h
      injection h with h
      have hpkv : p = (k, v) := by
        rw [Prod.ext_iff]
        exact ⟨hp, h⟩
      rw [List.filter_cons, hpkv, if_pos hP, dLookup, if_pos rfl]
    · rw [if_neg hp] at h
      rw [List.filter_cons]
      by_cases hPp : P p = true
      · rw [if_pos hPp, dLookup, if_neg hp]
        exact ih h
      · rw [if_neg hPp]
        exact ih h

theorem dLookup_filter_none {P : List Char × List Char → Bool}
    {k : List Char} {d : List (List Char × List Char)}
    (h : dLookup k d = none) : dLookup k (d.filter P) = none := by
  induction d with
  | nil => simp [dLookup]
  | cons p d ih =>
    rw [dLookup] at h
    by_cases hp : p.1 = k
    · rw [if_pos hp] at h
      cases h
    · rw [if_neg hp] at h
      rw [List.filter_cons]
      by_cases hPp : P p = true
      · rw [if_pos hPp, dLookup, if_neg hp]
        exact ih h
      · rw [if_neg hPp]
        exact ih h

theorem pyDictUpdate_append {d l : List (List Char × List Char)}
    (hdis : ∀ p ∈ l, p.1 ∉ dKeys d) (hl : (dKeys l).Nodup) :
    pyDictUpdate d l = d ++ l := by
  induction l generalizing d with
  | nil => simp [pyDictUpdate_nil]
  | cons p l ih =>
    rw [pyDictUpdate_cons, pyDictInsert, if_neg (by
      intro habs
      rw [List.any_eq_true] at habs
      obtain ⟨q, hq, hqk⟩ := habs
      exact hdis p (by simp) (by
        rw [dKeys, List.mem_map]
        exact ⟨q, hq, by simpa using hqk⟩))]
    rw [dKeys, List.map_cons, List.nodup_cons] at hl
    rw [ih (fun q hq => by
      rw [dKeys, List.map_append]
      simp only [List.mem_append, not_or]
      refine ⟨hdis q (by simp [hq]), ?_⟩
      intro habs
      simp only [List.map_cons, List.map_nil, List.mem_singleton] at habs
      exact hl.1 (habs ▸ List.mem_map.mpr ⟨q, hq, rfl⟩)) hl.2]
    simp

theorem pyDictOfList_self {l : List (List Char × List Char)}
    (h : (dKeys l).Nodup) : pyDictOfList l = l := by
  rw [pyDictOfList_eq_update, pyDictUpdate_append (by simp [dKeys]) h,
    List.nil_append]

theorem dLookup_utm_source (d : List (List Char × List Char))
    (S M C : List Char) :
    dLookup ("utm_source".toList) (pyDictUpdate d (utmTriple S M C)) = some S := by
  rw [utmTriple, pyDictUpdate_cons, pyDictUpdate_cons, pyDictUpdate_cons,
    pyDictUpdate_nil,
    dLookup_pyDictInsert_other _ _
      (show ("utm_source".toList : List Char) ≠ "utm_campaign".toList by decide),
    dLookup_pyDictInsert_other _ _
      (show ("utm_source".toList : List Char) ≠ "utm_medium".toList by decide),
    dLookup_pyDictInsert_self]

theorem dLookup_utm_medium (d : List (List Char × List Char))
    (S M C : List Char) :
    dLookup ("utm_medium".toList) (pyDictUpdate d (utmTriple S M C)) = some M := by
  rw [utmTriple, pyDictUpdate_cons, pyDictUpdate_cons, pyDictUpdate_cons,
    pyDictUpdate_nil,
    dLookup_pyDictInsert_other _ _
      (show ("utm_medium".toList : List Char) ≠ "utm_campaign".toList by decide),
    dLookup_pyDictInsert_self]

theorem dLookup_utm_campaign (d : List (List Char × List Char))
    (S M C : List Char) :
    dLookup ("utm_campaign".toList) (pyDictUpdate d (utmTriple S M C)) = some C := by
  rw [utmTriple, pyDictUpdate_cons, pyDictUpdate_cons, pyDictUpdate_cons,
    pyDictUpdate_nil, dLookup_pyDictInsert_self]

theorem merged_value_ne_nil {q S M C k v : List Char}
    (hS : S ≠ []) (hM : M ≠ []) (hC : C ≠ [])
    (h : (k, v) ∈ pyDictUpdate (pyDictOfList (parse_qsl q)) (utmTriple S M C)) :
    v ≠ [] := by
  rcases mem_pyDictUpdate h with h | h
  · exact parse_qsl_value_ne_nil (mem_pyDictOfList h)
  · rw [utmTriple] at h
    simp only [List.mem_cons, List.mem_singleton, List.not_mem_nil,
      or_false] at h
    rcases h with h | h | h
    all_goals rw [Prod.mk.injEq] at h
    · exact h.2 ▸ hS
    · exact h.2 ▸ hM
    · exact h.2 ▸ hC

theorem mem_intercalate_amp {c : Char} :
    ∀ {parts : List (List Char)}, c ∈ List.intercalate ['&'] parts →
      c = '&' ∨ ∃ f ∈ parts, c ∈ f := by
  intro parts
  induction parts with
  | nil => simp [List.intercalate]
  | cons f rest ih =>
    intro h
    cases rest with
    | nil =>
      simp only [List.intercalate, List.intersperse, List.flatten] at h
      exact Or.inr ⟨f, by simp, by simpa using h⟩
    | cons f2 rest2 =>
      have hstep : List.intercalate ['&'] (f :: f2 :: rest2) =
          f ++ '&' :: List.intercalate ['&'] (f2 :: rest2) := by
        simp [List.intercalate, List.intersperse]
      rw [hstep, List.mem_append, List.mem_cons] at h
      rcases h with h | h | h
      · exact Or.inr ⟨f, by simp, h⟩
      · exact Or.inl h
      · rcases ih h with h | ⟨g, hg, hcg⟩
        · exact Or.inl h
        · exact Or.inr ⟨g, by simp [hg], hcg⟩

theorem mem_urlencode {c : Char} {l : List (List Char × List Char)}
    (h : c ∈ urlencode l) :
    c = '&' ∨ c = '=' ∨ c = '+' ∨ c = '%' ∨ isAlwaysSafe c = true := by
  rw [urlencode] at h
  rcases mem_intercalate_amp h with h | ⟨f, hf, hcf⟩
  · exact Or.inl h
  · rw [List.mem_map] at hf
    obtain ⟨p, _, rfl⟩ := hf
    rw [List.mem_append, List.mem_cons] at hcf
    rcases hcf with hcf | hcf | hcf
    · rcases mem_pyQuotePlus hcf with h | h | h
      · exact Or.inr (Or.inr (Or.inl h))
      · exact Or.inr (Or.inr (Or.inr (Or.inl h)))
      · exact Or.inr (Or.inr (Or.inr (Or.inr h)))
    · exact Or.inr (Or.inl hcf)
    · rcases mem_pyQuotePlus hcf with h | h | h
      · exact Or.inr (Or.inr (Or.inl h))
      · exact Or.inr (Or.inr (Or.inr (Or.inl h)))
      · exact Or.inr (Or.inr (Or.inr (Or.inr h)))

theorem urlencode_ne_nil {l : List (List Char × List Char)} (h : l ≠ []) :
    urlencode l ≠ [] := by
  rcases l with _ | ⟨p, l'⟩
  · exact absurd rfl h
  rcases l' with _ | ⟨p2, l''⟩
  · simp [urlencode, List.intercalate, List.intersperse]
  · rw [urlencode]
    have hstep : List.intercalate ['&']
        ((p :: p2 :: l'').map (fun q => pyQuotePlus q.1 ++ '=' :: pyQuotePlus q.2)) =
        (pyQuotePlus p.1 ++ '=' :: pyQuotePlus p.2) ++ '&' ::
          List.intercalate ['&']
            ((p2 :: l'').map (fun q => pyQuotePlus q.1 ++ '=' :: pyQuotePlus q.2)) := by
      simp [List.intercalate, List.intersperse]
    rw [hstep]
    simp

theorem isAlwaysSafe_toNat {c : Char} (h : isAlwaysSafe c = true) :
    (48 ≤ c.toNat ∧ c.toNat ≤ 57) ∨ (65 ≤ c.toNat ∧ c.toNat ≤ 90) ∨
      (97 ≤ c.toNat ∧ c.toNat ≤ 122) ∨ c.toNat = 95 ∨ c.toNat = 46 ∨
      c.toNat = 45 ∨ c.toNat = 126 := by
  rw [isAlwaysSafe] at h
  simp only [Bool.decide_or, Bool.or_eq_true, decide_eq_true_eq] at h
  rcases h with h | h | h | h | h | h
  · rcases (isAsciiAlpha_toNat c).mp h with h | h
    · exact Or.inr (Or.inr (Or.inl h))
    · exact Or.inr (Or.inl h)
  · exact Or.inl ((isAsciiDigit_toNat c).mp h)
  · exact Or.inr (Or.inr (Or.inr (Or.inl (char_toNat_eq_iff.mp h))))
  · exact Or.inr (Or.inr (Or.inr (Or.inr (Or.inl (char_toNat_eq_iff.mp h)))))
  · exact Or.inr (Or.inr (Or.inr (Or.inr (Or.inr (Or.inl
      (char_toNat_eq_iff.mp h))))))
  · exact Or.inr (Or.inr (Or.inr (Or.inr (Or.inr (Or.inr
      (char_toNat_eq_iff.mp h))))))

theorem isAlwaysSafe_qSafe {c : Char} (h : isAlwaysSafe c = true) : qSafe c := by
  have ht := isAlwaysSafe_toNat h
  refine ⟨fun habs => ?_, fun habs => ?_, fun habs => ?_, fun habs => ?_,
    fun habs => ?_⟩
  · rw [char_toNat_eq_iff, show (('#' : Char).toNat) = 35 from rfl] at habs
    omega
  · rw [char_toNat_eq_iff, show (('?' : Char).toNat) = 63 from rfl] at habs
    omega
  · rw [char_toNat_eq_iff, show (('\t' : Char).toNat) = 9 from rfl] at habs
    omega
  · rw [char_toNat_eq_iff, show (('\r' : Char).toNat) = 13 from rfl] at habs
    omega
  · rw [char_toNat_eq_iff, show (('\n' : Char).toNat) = 10 from rfl] at habs
    omega

theorem isAlwaysSafe_urlChar {c : Char} (h : isAlwaysSafe c = true) :
    urlChar c = true := by
  have ht := isAlwaysSafe_toNat h
  rw [urlChar]
  simp only [pyIsSpace, Bool.decide_and, Bool.and_eq_true, decide_eq_true_eq,
    Bool.not_eq_true', decide_eq_false_iff_not]
  refine ⟨?_, ?_, ?_⟩
  · intro habs
    simp only [List.mem_cons, List.not_mem_nil, or_false] at habs
    omega
  · intro habs
    rw [char_toNat_eq_iff, show (('(' : Char).toNat) = 40 from rfl] at habs
    omega
  · intro habs
    rw [char_toNat_eq_iff, show ((')' : Char).toNat) = 41 from rfl] at habs
    omega

theorem qSafe_urlencode {l : List (List Char × List Char)} :
    ∀ c ∈ urlencode l, qSafe c := by
  intro c h
  rcases mem_urlencode h with h | h | h | h | h
  · subst h
    exact ⟨by decide, by decide, by decide, by decide, by decide⟩
  · subst h
    exact ⟨by decide, by decide, by decide, by decide, by decide⟩
  · subst h
    exact ⟨by decide, by decide, by decide, by decide, by decide⟩
  · subst h
    exact ⟨by decide, by decide, by decide, by decide, by decide⟩
  · exact isAlwaysSafe_qSafe h

theorem urlChar_urlencode {l : List (List Char × List Char)} :
    ∀ c ∈ urlencode l, urlChar c = true := by
  intro c h
  rcases mem_urlencode h with h | h | h | h | h
  · subst h
    decide
  · subst h
    decide
  · subst h
    decide
  · subst h
    decide
  · exact isAlwaysSafe_urlChar h

/-! ## Structure of `find_urls` matches and of `str.replace` -/

theorem matchUrlAt_token_https {tail : List Char}
    (htail : ∀ c ∈ tail, urlChar c = true) (hne : tail ≠ []) :
    matchUrlAt (("https://".toList) ++ tail) =
      some ((("https://".toList) ++ tail), []) := by
  rw [matchUrlAt]
  have hpre : ("https://".toList).isPrefixOf (("https://".toList) ++ tail) = true := by
    rw [List.isPrefixOf_iff_prefix]
    exact ⟨tail, rfl⟩
  rw [if_pos hpre]
  have hdrop : (("https://".toList) ++ tail).drop 8 = tail := rfl
  rw [hdrop]
  dsimp only
  rw [List.takeWhile_eq_self_iff.mpr htail, if_neg hne,
    List.dropWhile_eq_nil_iff.mpr (fun c hc => by simp [htail c hc])]

theorem matchUrlAt_token_http {tail : List Char}
    (htail : ∀ c ∈ tail, urlChar c = true) (hne : tail ≠ []) :
    matchUrlAt (("http://".toList) ++ tail) =
      some ((("http://".toList) ++ tail), []) := by
  rw [matchUrlAt]
  have hnpre : ("https://".toList).isPrefixOf (("http://".toList) ++ tail) = false := by
    rfl
  rw [hnpre]
  have hpre : ("http://".toList).isPrefixOf (("http://".toList) ++ tail) = true := by
    rw [List.isPrefixOf_iff_prefix]
    exact ⟨tail, rfl⟩
  rw [if_neg (by simp), if_pos hpre]
  have hdrop : (("http://".toList) ++ tail).drop 7 = tail := rfl
  rw [hdrop]
  dsimp only
  rw [List.takeWhile_eq_self_iff.mpr htail, if_neg hne,
    List.dropWhile_eq_nil_iff.mpr (fun c hc => by simp [htail c hc])]

theorem findUrlsAux_nil : findUrlsAux [] = [] := by
  rw [findUrlsAux.eq_def]

theorem findUrlsAux_cons_some {c : Char} {cs m rest : List Char}
    (h : matchUrlAt (c :: cs) = some (m, rest)) :
    findUrlsAux (c :: cs) = m :: findUrlsAux rest := by
  rw [findUrlsAux.eq_def]
  dsimp only
  split
  · next m2 rest2 heq =>
    rw [heq] at h
    injection h with h
    rw [Prod.mk.injEq] at h
    rw [h.1, h.2]
  · next heq =>
    rw [heq] at h
    cases h

theorem findUrlsAux_cons_none {c : Char} {cs : List Char}
    (h : matchUrlAt (c :: cs) = none) :
    findUrlsAux (c :: cs) = findUrlsAux cs := by
  rw [findUrlsAux.eq_def]
  dsimp only
  split
  · next m2 rest2 heq =>
    rw [heq] at h
    cases h
  · next heq => rfl

theorem find_urls_token {t tail : List Char}
    (htok : t = ("https://".toList) ++ tail ∨ t = ("http://".toList) ++ tail)
    (htail : ∀ c ∈ tail, urlChar c = true) (hne : tail ≠ []) :
    find_urls t = [t] := by
  rw [find_urls]
  rcases htok with rfl | rfl
  · rw [show (("https://".toList) ++ tail) =
      'h' :: ("ttps://".toList ++ tail) from rfl,
      findUrlsAux_cons_some (show matchUrlAt ('h' :: ("ttps://".toList ++ tail)) =
        some ((("https://".toList) ++ tail), []) from
        matchUrlAt_token_https htail hne),
      findUrlsAux_nil]
    rfl
  · rw [show (("http://".toList) ++ tail) =
      'h' :: ("ttp://".toList ++ tail) from rfl,
      findUrlsAux_cons_some (show matchUrlAt ('h' :: ("ttp://".toList ++ tail)) =
        some ((("http://".toList) ++ tail), []) from
        matchUrlAt_token_http htail hne),
      findUrlsAux_nil]
    rfl

theorem pyReplaceAux_self_aux (u : List Char) (h : u ≠ []) :
    ∀ (n : Nat) (t : List Char), t.length ≤ n → pyReplaceAux u u h t = t := by
  intro n
  induction n with
  | zero =>
    intro t ht
    have : t = [] := List.length_eq_zero.mp (Nat.le_zero.mp ht)
    subst this
    rw [pyReplaceAux]
  | succ n ih =>
    intro t ht
    cases t with
    | nil => rw [pyReplaceAux]
    | cons c cs =>
      rw [pyReplaceAux]
      by_cases hp : u.isPrefixOf (c :: cs)
      · rw [if_pos hp]
        obtain ⟨rest, hrest⟩ := List.isPrefixOf_iff_prefix.mp hp
        have hdrop : (c :: cs).drop u.length = rest := by
          rw [← hrest, List.drop_left]
        rw [hdrop, ih rest (by
          have hlen := congrArg List.length hrest
          simp only [List.length_append, List.length_cons] at hlen
          simp only [List.length_cons] at ht
          have hu : 1 ≤ u.length := by
            cases u with
            | nil => exact absurd rfl h
            | cons x xs => simp
          omega)]
        exact hrest
      · rw [if_neg hp, ih cs (by simp at ht; omega)]

/-- Replacing a string by itself is the identity. -/
theorem pyReplace_self (t u : List Char) : pyReplace t u u = t := by
  rw [pyReplace]
  by_cases h : u = []
  · rw [dif_pos h, h]
    simp
  · rw [dif_neg h]
    exact pyReplaceAux_self_aux u h t.length t (le_refl _)

/-- Replacing the whole text. -/
theorem pyReplace_whole {u : List Char} (h : u ≠ []) (a : List Char) :
    pyReplace u u a = a := by
  rw [pyReplace, dif_neg h]
  obtain ⟨c, cs, rfl⟩ : ∃ c cs, u = c :: cs := by
    cases u with
    | nil => exact absurd rfl h
    | cons c cs => exact ⟨c, cs, rfl⟩
  rw [pyReplaceAux,
    if_pos (List.isPrefixOf_iff_prefix.mpr (List.prefix_refl _)),
    List.drop_length, pyReplaceAux]
  simp

/-! ## Spec-side URL locator -/

/-- The specified matching rule, read at position `j` of the whole text: a
candidate starts with the literal scheme token `https://` or `http://` and
extends through the longest following run of characters that excludes
whitespace and the parentheses. -/
def specCandidateAt (text : List Char) (j : Nat) : Option (List Char) :=
  let rest := text.drop j
  if ("https://".toList).isPrefixOf rest then
    let run := (rest.drop 8).takeWhile urlChar
    if run = [] then none else some (("https://".toList) ++ run)
  else if ("http://".toList).isPrefixOf rest then
    let run := (rest.drop 7).takeWhile urlChar
    if run = [] then none else some (("http://".toList) ++ run)
  else none

/-- Spec-side scan: repeatedly emit the leftmost candidate at or after
position `i` and resume immediately after it (candidates in order of first
character position, non-overlapping). -/
def specScanFrom (text : List Char) : Nat → Nat → List (List Char)
  | _, 0 => []
  | i, fuel+1 =>
    match ((List.range' i (text.length + 1 - i)).filter
        (fun j => (specCandidateAt text j).isSome)).head? with
    | none => []
    | some j =>
      match specCandidateAt text j with
      | none => []
      | some m => m :: specScanFrom text (j + m.length) fuel

/-- The position-based reading of the locator contract. -/
def findUrlsSpec (text : List Char) : List (List Char) :=
  specScanFrom text 0 (text.length + 1)

/-- The frozen claim's stronger reading: a candidate at every position
that starts with the scheme token, including positions inside an earlier
candidate. -/
def findUrlsAllStarts (text : List Char) : List (List Char) :=
  (List.range text.length).filterMap (specCandidateAt text)

theorem matchUrlAt_append {cs m rest : List Char}
    (h : matchUrlAt cs = some (m, rest)) : m ++ rest = cs := by
  rw [matchUrlAt] at h
  by_cases h1 : ("https://".toList).isPrefixOf cs
  · rw [if_pos h1] at h
    by_cases h2 : (cs.drop 8).takeWhile urlChar = []
    · rw [if_pos h2] at h
      cases h
    · rw [if_neg h2] at h
      injection h with h
      rw [Prod.mk.injEq] at h
      rw [← h.1, ← h.2, List.append_assoc, List.takeWhile_append_dropWhile]
      obtain ⟨t, ht⟩ := List.isPrefixOf_iff_prefix.mp h1
      rw [← ht]
      rfl
  · rw [if_neg h1] at h
    by_cases h1' : ("http://".toList).isPrefixOf cs
    · rw [if_pos h1'] at h
      by_cases h2 : (cs.drop 7).takeWhile urlChar = []
      · rw [if_pos h2] at h
        cases h
      · rw [if_neg h2] at h
        injection h with h
        rw [Prod.mk.injEq] at h
        rw [← h.1, ← h.2, List.append_assoc, List.takeWhile_append_dropWhile]
        obtain ⟨t, ht⟩ := List.isPrefixOf_iff_prefix.mp h1'
        rw [← ht]
        rfl
    · rw [if_neg h1'] at h
      cases h

theorem specCandidateAt_eq (text : List Char) (j : Nat) :
    specCandidateAt text j = (matchUrlAt (text.drop j)).map Prod.fst := by
  rw [specCandidateAt, matchUrlAt]
  dsimp only
  by_cases h1 : ("https://".toList).isPrefixOf (text.drop j)
  · rw [if_pos h1, if_pos h1]
    by_cases h2 : ((text.drop j).drop 8).takeWhile urlChar = []
    · rw [if_pos h2, if_pos h2]
      rfl
    · rw [if_neg h2, if_neg h2]
      rfl
  · rw [if_neg h1, if_neg h1]
    by_cases h1' : ("http://".toList).isPrefixOf (text.drop j)
    · rw [if_pos h1', if_pos h1']
      by_cases h2 : ((text.drop j).drop 7).takeWhile urlChar = []
      · rw [if_pos h2, if_pos h2]
        rfl
      · rw [if_neg h2, if_neg h2]
        rfl
    · rw [if_neg h1', if_neg h1']
      rfl

theorem matchUrlAt_nil : matchUrlAt [] = none := rfl

theorem head_filter_range_step (P : Nat → Bool) (i n : Nat) :
    ((List.range' i (n+1)).filter P).head? =
      if P i then some i else ((List.range' (i+1) n).filter P).head? := by
  rw [show List.range' i (n+1) = i :: List.range' (i+1) n from
    List.range'_succ i n 1, List.filter_cons]
  by_cases h : P i
  · rw [if_pos h, if_pos h, List.head?_cons]
  · rw [if_neg h, if_neg h]

theorem findUrlsAux_eq_specScan (text : List Char) :
    ∀ n i fuel, text.length + 1 - i ≤ n → text.length + 1 - i ≤ fuel →
      findUrlsAux (text.drop i) = specScanFrom text i fuel := by
  intro n
  induction n with
  | zero =>
    intro i fuel h1 h2
    have hdrop : text.drop i = [] := List.drop_eq_nil_of_le (by omega)
    rw [hdrop, findUrlsAux_nil]
    cases fuel with
    | zero => rw [specScanFrom]
    | succ f =>
      rw [specScanFrom]
      have hcnt : text.length + 1 - i = 0 := by omega
      rw [hcnt]
      rw [show List.range' i 0 = [] from rfl]
      rfl
  | succ n ih =>
    intro i fuel h1 h2
    by_cases hi : text.length < i
    · have hdrop : text.drop i = [] := List.drop_eq_nil_of_le (by omega)
      rw [hdrop, findUrlsAux_nil]
      cases fuel with
      | zero => rw [specScanFrom]
      | succ f =>
        rw [specScanFrom]
        have hcnt : text.length + 1 - i = 0 := by omega
        rw [hcnt]
        rw [show List.range' i 0 = [] from rfl]
        rfl
    · obtain ⟨f, rfl⟩ : ∃ f, fuel = f + 1 := ⟨fuel - 1, by omega⟩
      have hcnt : text.length + 1 - i = (text.length - i) + 1 := by omega
      cases hm : matchUrlAt (text.drop i) with
      | some p =>
        obtain ⟨m, rest⟩ := p
        obtain ⟨c, cs, hdrop⟩ : ∃ c cs, text.drop i = c :: cs := by
          cases hd : text.drop i with
          | nil =>
            rw [hd, matchUrlAt_nil] at hm
            cases hm
          | cons c cs => exact ⟨c, cs, rfl⟩
        have hlhs : findUrlsAux (text.drop i) = m :: findUrlsAux rest := by
          rw [hdrop]
          exact findUrlsAux_cons_some (hdrop ▸ hm)
        have hmlen : 1 ≤ m.length := by
          by_contra habs
          have hm0 : m = [] := by
            cases m with
            | nil => rfl
            | cons x xs => simp at habs
          have happ := matchUrlAt_append hm
          rw [hm0, List.nil_append] at happ
          have := matchUrlAt_some_length hm
          rw [happ] at this
          omega
        have hrest : rest = text.drop (i + m.length) := by
          have happ := matchUrlAt_append hm
          have hh : (text.drop i).drop m.length = rest := by
            rw [← happ, List.drop_left]
          rw [← hh, List.drop_drop]
        rw [hlhs, specScanFrom, hcnt, head_filter_range_step]
        have hPi : (specCandidateAt text i).isSome = true := by
          rw [specCandidateAt_eq, hm]
          rfl
        rw [if_pos hPi]
        have hcand : specCandidateAt text i = some m := by
          rw [specCandidateAt_eq, hm]
          rfl
        dsimp only
        rw [hcand]
        dsimp only
        rw [hrest]
        exact congrArg (m :: ·) (ih (i + m.length) f (by omega) (by omega))
      | none =>
        have hPi : (specCandidateAt text i).isSome = false := by
          rw [specCandidateAt_eq, hm]
          rfl
        by_cases hd : text.length ≤ i
        · have hdrop : text.drop i = [] := List.drop_eq_nil_of_le hd
          rw [hdrop, findUrlsAux_nil, specScanFrom, hcnt,
            head_filter_range_step, if_neg (by simp [hPi])]
          have hz : text.length - i = 0 := by omega
          rw [hz]
          rw [show List.range' (i+1) 0 = [] from rfl]
          rfl
        · obtain ⟨c, cs, hdrop⟩ : ∃ c cs, text.drop i = c :: cs := by
            cases hde : text.drop i with
            | nil =>
              have := List.drop_eq_nil_iff.mp hde
              omega
            | cons c cs => exact ⟨c, cs, rfl⟩
          have hlhs : findUrlsAux (text.drop i) = findUrlsAux (text.drop (i+1)) := by
            rw [hdrop, findUrlsAux_cons_none (hdrop ▸ hm)]
            have hcs : cs = text.drop (i+1) := by
              rw [← List.tail_drop, hdrop]
              rfl
            rw [hcs]
          have hsame : specScanFrom text i (f+1) =
              specScanFrom text (i+1) (f+1) := by
            conv_lhs => rw [specScanFrom]
            rw [hcnt, head_filter_range_step, if_neg (by simp [hPi])]
            conv_rhs => rw [specScanFrom]
            have hc2 : text.length + 1 - (i + 1) = text.length - i := by omega
            rw [hc2]
          rw [hlhs, ih (i+1) (f+1) (by omega) (by omega)]
          exact hsame.symm

theorem find_urls_eq_spec (text : List Char) :
    find_urls text = findUrlsSpec text := by
  rw [find_urls, findUrlsSpec]
  have h := findUrlsAux_eq_specScan text (text.length + 1) 0 (text.length + 1)
    (by omega) (by omega)
  rw [List.drop_zero] at h
  exact h

/-! ## Spec-side final path segment -/

/-- The plain reading of the final path segment: the last nonempty
slash-separated component. -/
def lastPathSegment (p : List Char) : List Char :=
  (((splitOnChar '/' p).filter (fun s => s ≠ [])).getLast?).getD []

/-! ## The annotated query and its reparse -/

/-- The query string `add_utm_to_url` installs: existing parameters parsed
into a dict, updated with the three tracking parameters, re-encoded. -/
def addUtmQuery (p : ParseResult) (source medium campaign : List Char) :
    List Char :=
  urlencode (pyDictUpdate (pyDictOfList (parse_qsl p.query))
    (utmTriple source medium campaign))

theorem add_utm_to_url_eq {u : List Char} {p : ParseResult}
    (hp : urlparse u = some p) (S M C : List Char) :
    add_utm_to_url u S M C =
      some (urlunparse { p with query := addUtmQuery p S M C }) := by
  rw [add_utm_to_url, hp, Option.map_some']
  rfl

theorem addUtmQuery_ne_nil (p : ParseResult) (S M C : List Char) :
    addUtmQuery p S M C ≠ [] := by
  rw [addUtmQuery]
  apply urlencode_ne_nil
  intro habs
  have h := dLookup_utm_campaign (pyDictOfList (parse_qsl p.query)) S M C
  rw [habs] at h
  rw [dLookup] at h
  cases h

theorem add_utm_output_reparse {u : List Char} {p : ParseResult}
    (hp : urlparse u = some p) (S M C : List Char) :
    urlparse (urlunparse { p with query := addUtmQuery p S M C }) =
      some { p with query := addUtmQuery p S M C } :=
  urlparse_reparse (urlparse_inv hp) (addUtmQuery_ne_nil p S M C)
    qSafe_urlencode

theorem nodup_dKeys_filter {d : List (List Char × List Char)}
    (h : (dKeys d).Nodup) (P : List Char × List Char → Bool) :
    (dKeys (d.filter P)).Nodup :=
  h.sublist ((d.filter_sublist).map Prod.fst)

theorem dLookup_addUtmQuery {p : ParseResult} {S M C k v : List Char}
    (hlk : dLookup k (pyDictUpdate (pyDictOfList (parse_qsl p.query))
      (utmTriple S M C)) = some v) (hv : v ≠ []) :
    dLookup k (pyDictOfList (parse_qsl (addUtmQuery p S M C))) = some v := by
  rw [addUtmQuery, parse_qsl_urlencode,
    pyDictOfList_self (nodup_dKeys_filter
      (nodup_dKeys_pyDictUpdate (nodup_dKeys_pyDictOfList _) _) _)]
  exact dLookup_filter_some hlk (by simp [hv])

theorem dLookup_addUtmQuery_none {p : ParseResult} {S M C k : List Char}
    (hlk : dLookup k (pyDictUpdate (pyDictOfList (parse_qsl p.query))
      (utmTriple S M C)) = none) :
    dLookup k (pyDictOfList (parse_qsl (addUtmQuery p S M C))) = none := by
  rw [addUtmQuery, parse_qsl_urlencode,
    pyDictOfList_self (nodup_dKeys_filter
      (nodup_dKeys_pyDictUpdate (nodup_dKeys_pyDictOfList _) _) _)]
  exact dLookup_filter_none hlk

/-! ## Stability of the annotated query and shape of annotated URLs -/

theorem addUtmQuery_stable {p : ParseResult} {S M C : List Char}
    (hS : S ≠ []) (hM : M ≠ []) (hC : C ≠ []) :
    addUtmQuery { p with query := addUtmQuery p S M C } S M C =
      addUtmQuery p S M C := by
  conv_lhs => rw [addUtmQuery]
  dsimp only
  rw [addUtmQuery, parse_qsl_urlencode]
  have hnodup : (dKeys (pyDictUpdate (pyDictOfList (parse_qsl p.query))
      (utmTriple S M C))).Nodup :=
    nodup_dKeys_pyDictUpdate (nodup_dKeys_pyDictOfList _) _
  have hfilter : (pyDictUpdate (pyDictOfList (parse_qsl p.query))
      (utmTriple S M C)).filter (fun q => ¬ q.2 = []) =
      pyDictUpdate (pyDictOfList (parse_qsl p.query)) (utmTriple S M C) := by
    apply List.filter_eq_self.mpr
    intro q hq
    have hne := merged_value_ne_nil hS hM hC
      (show (q.1, q.2) ∈ _ from by rwa [Prod.mk.eta])
    simpa using hne
  rw [hfilter, pyDictOfList_self hnodup]
  have hupd : pyDictUpdate (pyDictUpdate (pyDictOfList (parse_qsl p.query))
      (utmTriple S M C)) (utmTriple S M C) =
      pyDictUpdate (pyDictOfList (parse_qsl p.query)) (utmTriple S M C) := by
    apply pyDictUpdate_same hnodup
    intro q hq
    rw [utmTriple] at hq
    simp only [List.mem_cons, List.not_mem_nil, or_false] at hq
    rcases hq with rfl | rfl | rfl
    · exact dLookup_utm_source _ _ _ _
    · exact dLookup_utm_medium _ _ _ _
    · exact dLookup_utm_campaign _ _ _ _
  rw [hupd]

theorem urlunsplit_shape {scheme netloc url q f : List Char}
    (hs : scheme ≠ []) (hnl : netloc ≠ []) (hq : q ≠ []) :
    urlunsplit scheme netloc url q f =
      scheme ++ ':' :: '/' :: '/' ::
        ((netloc ++ (if url ≠ [] ∧ url.take 1 ≠ ['/'] then '/' :: url else url))
          ++ '?' :: (q ++ (if f ≠ [] then '#' :: f else []))) := by
  rw [urlunsplit]
  rw [if_pos (Or.inl hnl), if_pos hs, if_pos hq]
  by_cases hf : f ≠ []
  · rw [if_pos hf, if_pos hf]
    simp [List.append_assoc]
  · rw [if_neg hf, if_neg hf]
    simp [List.append_assoc]

theorem mem_ite_list {c : Char} {x y : List Char} (P : Prop) [Decidable P]
    (hx : c ∈ x) (hy : c ∈ y) : c ∈ (if P then x else y) := by
  by_cases h : P
  · rw [if_pos h]
    exact hx
  · rw [if_neg h]
    exact hy

theorem mem_urlunsplit_parts {scheme netloc url q f : List Char}
    (hnl : netloc ≠ []) {c : Char}
    (hc : c ∈ netloc ∨ c ∈ url ∨ c ∈ f) :
    c ∈ urlunsplit scheme netloc url q f := by
  rw [urlunsplit, if_pos (Or.inl hnl)]
  rcases hc with hc | hc | hc
  · have hU1 : c ∈ ('/' :: '/' :: (netloc ++
        (if url ≠ [] ∧ url.take 1 ≠ ['/'] then '/' :: url else url))) := by
      exact List.mem_cons_of_mem _ (List.mem_cons_of_mem _
        (List.mem_append_left _ hc))
    exact mem_ite_list _
      (List.mem_append_left _ (mem_ite_list _
        (List.mem_append_left _ (mem_ite_list _
          (List.mem_append_right _ (List.mem_cons_of_mem _ hU1)) hU1))
        (mem_ite_list _
          (List.mem_append_right _ (List.mem_cons_of_mem _ hU1)) hU1)))
      (mem_ite_list _
        (List.mem_append_left _ (mem_ite_list _
          (List.mem_append_right _ (List.mem_cons_of_mem _ hU1)) hU1))
        (mem_ite_list _
          (List.mem_append_right _ (List.mem_cons_of_mem _ hU1)) hU1))
  · have hU1 : c ∈ ('/' :: '/' :: (netloc ++
        (if url ≠ [] ∧ url.take 1 ≠ ['/'] then '/' :: url else url))) := by
      exact List.mem_cons_of_mem _ (List.mem_cons_of_mem _
        (List.mem_append_right _
          (mem_ite_list _ (List.mem_cons_of_mem _ hc) hc)))
    exact mem_ite_list _
      (List.mem_append_left _ (mem_ite_list _
        (List.mem_append_left _ (mem_ite_list _
          (List.mem_append_right _ (List.mem_cons_of_mem _ hU1)) hU1))
        (mem_ite_list _
          (List.mem_append_right _ (List.mem_cons_of_mem _ hU1)) hU1)))
      (mem_ite_list _
        (List.mem_append_left _ (mem_ite_list _
          (List.mem_append_right _ (List.mem_cons_of_mem _ hU1)) hU1))
        (mem_ite_list _
          (List.mem_append_right _ (List.mem_cons_of_mem _ hU1)) hU1))
  · have hf : f ≠ [] := List.ne_nil_of_mem hc
    rw [if_pos hf]
    exact List.mem_append_right _ (List.mem_cons_of_mem _ hc)

theorem add_utm_all_singleton {text u S M C : List Char} {p : ParseResult}
    (hf : find_urls text = [u]) (hp : urlparse u = some p)
    (himg : is_image p.path = false) :
    add_utm_to_all_urls text S M C =
      some (pyReplace text p.geturl (add_utm_parsed p S M C)) := by
  rw [add_utm_to_all_urls, hf]
  have hmapM : [u].mapM urlparse = some [p] := by
    simp [List.mapM, List.mapM.loop, hp]
  rw [hmapM]
  dsimp only
  rw [List.filter_cons]
  rw [if_pos (by simp [himg])]
  rw [List.filter_nil, List.map_cons, List.map_nil]
  have hsingle : pyDictOfList [(p.geturl, add_utm_parsed p S M C)] =
      [(p.geturl, add_utm_parsed p S M C)] :=
    pyDictOfList_self (by simp [dKeys])
  rw [hsingle, List.foldl_cons, List.foldl_nil]

theorem add_utm_parsed_eq (p0 : ParseResult) (S M C : List Char) :
    add_utm_parsed p0 S M C =
      urlunparse { p0 with query := addUtmQuery p0 S M C } := rfl

theorem add_utm_single_idem {text tail S M C : List Char} {p : ParseResult}
    (hp : urlparse text = some p)
    (hstable : urlunparse p = text)
    (htok : text = ("https://".toList) ++ tail ∨ text = ("http://".toList) ++ tail)
    (htail : ∀ c ∈ tail, urlChar c = true)
    (htne : tail ≠ [])
    (hsch : p.scheme = "http".toList ∨ p.scheme = "https".toList)
    (hnl : p.netloc ≠ [])
    (himg : is_image p.path = false)
    (hS : S ≠ []) (hM : M ≠ []) (hC : C ≠ []) :
    ∃ t1, add_utm_to_all_urls text S M C = some t1 ∧
      add_utm_to_all_urls t1 S M C = some t1 := by
  have httext : ∀ c ∈ text, urlChar c = true := by
    intro c hc
    rcases htok with rfl | rfl
    · rcases List.mem_append.mp hc with hc | hc
      · have hcl : ∀ x ∈ ("https://".toList), urlChar x = true := by decide
        exact hcl c hc
      · exact htail c hc
    · rcases List.mem_append.mp hc with hc | hc
      · have hcl : ∀ x ∈ ("http://".toList), urlChar x = true := by decide
        exact hcl c hc
      · exact htail c hc
  have hscan1 : find_urls text = [text] := find_urls_token htok htail htne
  have htextne : text ≠ [] := by
    rcases htok with rfl | rfl <;> simp
  have hpass1 := add_utm_all_singleton (S := S) (M := M) (C := C) hscan1 hp himg
  have hgeturl : p.geturl = text := hstable
  have hparsed : add_utm_parsed p S M C =
      urlunparse { p with query := addUtmQuery p S M C } := rfl
  rw [hgeturl, hparsed, pyReplace_whole htextne] at hpass1
  -- shape of the annotated URL
  have hsne : p.scheme ≠ [] := by
    rcases hsch with h | h <;> simp [h]
  have hA2 : urlunparse { p with query := addUtmQuery p S M C } =
      urlunsplit p.scheme p.netloc (pathful p) (addUtmQuery p S M C)
        p.fragment := rfl
  have hshape := @urlunsplit_shape _ _ (pathful p) _ p.fragment
    hsne hnl (addUtmQuery_ne_nil p S M C)
  have htext2 : urlunparse p =
      urlunsplit p.scheme p.netloc (pathful p) p.query p.fragment := rfl
  have htailR : ∀ c ∈ ((p.netloc ++ (if pathful p ≠ [] ∧ (pathful p).take 1 ≠ ['/']
        then '/' :: pathful p else pathful p))
      ++ '?' :: (addUtmQuery p S M C ++
        (if p.fragment ≠ [] then '#' :: p.fragment else []))), urlChar c = true := by
    intro c hc
    rcases List.mem_append.mp hc with hc | hc
    · rcases List.mem_append.mp hc with hc | hc
      · refine httext c ?_
        rw [← hstable, htext2]
        exact mem_urlunsplit_parts hnl (Or.inl hc)
      · by_cases hcond : pathful p ≠ [] ∧ (pathful p).take 1 ≠ ['/']
        · rw [if_pos hcond] at hc
          rcases List.mem_cons.mp hc with rfl | hc
          · decide
          · refine httext c ?_
            rw [← hstable, htext2]
            exact mem_urlunsplit_parts hnl (Or.inr (Or.inl hc))
        · rw [if_neg hcond] at hc
          refine httext c ?_
          rw [← hstable, htext2]
          exact mem_urlunsplit_parts hnl (Or.inr (Or.inl hc))
    · rcases List.mem_cons.mp hc with rfl | hc
      · decide
      · rcases List.mem_append.mp hc with hc | hc
        · rw [addUtmQuery] at hc
          exact urlChar_urlencode c hc
        · by_cases hfr : p.fragment ≠ []
          · rw [if_pos hfr] at hc
            rcases List.mem_cons.mp hc with rfl | hc
            · decide
            · refine httext c ?_
              rw [← hstable, htext2]
              exact mem_urlunsplit_parts hnl (Or.inr (Or.inr hc))
          · rw [if_neg hfr] at hc
            simp at hc
  have htok2 : urlunparse { p with query := addUtmQuery p S M C } =
      ("https://".toList) ++ ((p.netloc ++ (if pathful p ≠ [] ∧ (pathful p).take 1 ≠ ['/']
        then '/' :: pathful p else pathful p))
      ++ '?' :: (addUtmQuery p S M C ++
        (if p.fragment ≠ [] then '#' :: p.fragment else []))) ∨
      urlunparse { p with query := addUtmQuery p S M C } =
      ("http://".toList) ++ ((p.netloc ++ (if pathful p ≠ [] ∧ (pathful p).take 1 ≠ ['/']
        then '/' :: pathful p else pathful p))
      ++ '?' :: (addUtmQuery p S M C ++
        (if p.fragment ≠ [] then '#' :: p.fragment else []))) := by
    rw [hA2, hshape]
    rcases hsch with h | h
    · refine Or.inr ?_
      rw [h]
      rfl
    · refine Or.inl ?_
      rw [h]
      rfl
  have hscan2 : find_urls (urlunparse { p with query := addUtmQuery p S M C }) =
      [urlunparse { p with query := addUtmQuery p S M C }] := by
    refine find_urls_token ?_ htailR (by simp)
    rcases htok2 with h | h
    · exact Or.inl h
    · exact Or.inr h
  have hp2 : urlparse (urlunparse { p with query := addUtmQuery p S M C }) =
      some { p with query := addUtmQuery p S M C } :=
    add_utm_output_reparse hp S M C
  have himg2 : is_image ({ p with query := addUtmQuery p S M C }).path = false := himg
  have hpass2 := add_utm_all_singleton (S := S) (M := M) (C := C) hscan2 hp2 himg2
  have hgeturl2 : ({ p with query := addUtmQuery p S M C }).geturl =
      urlunparse { p with query := addUtmQuery p S M C } := rfl
  have hparsed2 : add_utm_parsed { p with query := addUtmQuery p S M C } S M C =
      urlunparse { p with query := addUtmQuery p S M C } := by
    rw [add_utm_parsed_eq, addUtmQuery_stable hS hM hC]
  rw [hgeturl2, hparsed2, pyReplace_self] at hpass2
  exact ⟨urlunparse { p with query := addUtmQuery p S M C }, hpass1, hpass2⟩

theorem matchUrlAt_https_gen {tail rest : List Char}
    (htail : ∀ c ∈ tail, urlChar c = true) (hne : tail ≠ [])
    (hrest : rest = [] ∨ ∃ c t2, rest = c :: t2 ∧ urlChar c = false) :
    matchUrlAt (("https://".toList) ++ (tail ++ rest)) =
      some (("https://".toList) ++ tail, rest) := by
  rw [matchUrlAt]
  have hpre : ("https://".toList).isPrefixOf
      (("https://".toList) ++ (tail ++ rest)) = true := by
    rw [List.isPrefixOf_iff_prefix]
    exact ⟨tail ++ rest, rfl⟩
  rw [if_pos hpre]
  have hdrop : (("https://".toList) ++ (tail ++ rest)).drop 8 = tail ++ rest := rfl
  rw [hdrop]
  dsimp only
  obtain ⟨h1, h2⟩ := takeWhile_append_stop (p := urlChar) htail hrest
  rw [h1, h2, if_neg hne]

theorem matchUrlAt_http_gen {tail rest : List Char}
    (htail : ∀ c ∈ tail, urlChar c = true) (hne : tail ≠ [])
    (hrest : rest = [] ∨ ∃ c t2, rest = c :: t2 ∧ urlChar c = false) :
    matchUrlAt (("http://".toList) ++ (tail ++ rest)) =
      some (("http://".toList) ++ tail, rest) := by
  rw [matchUrlAt]
  have hnpre : ("https://".toList).isPrefixOf
      (("http://".toList) ++ (tail ++ rest)) = false := rfl
  rw [hnpre]
  have hpre : ("http://".toList).isPrefixOf
      (("http://".toList) ++ (tail ++ rest)) = true := by
    rw [List.isPrefixOf_iff_prefix]
    exact ⟨tail ++ rest, rfl⟩
  rw [if_neg (by simp), if_pos hpre]
  have hdrop : (("http://".toList) ++ (tail ++ rest)).drop 7 = tail ++ rest := rfl
  rw [hdrop]
  dsimp only
  obtain ⟨h1, h2⟩ := takeWhile_append_stop (p := urlChar) htail hrest
  rw [h1, h2, if_neg hne]

theorem find_urls_two {a ta b tb : List Char}
    (hta2 : a = ("https://".toList) ++ ta ∨ a = ("http://".toList) ++ ta)
    (hta : ∀ c ∈ ta, urlChar c = true) (hane : ta ≠ [])
    (htb2 : b = ("https://".toList) ++ tb ∨ b = ("http://".toList) ++ tb)
    (htb : ∀ c ∈ tb, urlChar c = true) (hbne : tb ≠ []) :
    find_urls (a ++ ' ' :: b) = [a, b] := by
  have hrest : (' ' :: b) = [] ∨ ∃ c t2, (' ' :: b) = c :: t2 ∧ urlChar c = false :=
    Or.inr ⟨' ', b, rfl, by decide⟩
  have hb1 : findUrlsAux (' ' :: b) = findUrlsAux b := by
    apply findUrlsAux_cons_none
    rw [matchUrlAt]
    cases b <;> rfl
  have hb2 : findUrlsAux b = [b] := by
    rw [show findUrlsAux b = find_urls b from rfl]
    exact find_urls_token htb2 htb hbne
  rcases hta2 with rfl | rfl
  · have hm : matchUrlAt ((("https://".toList) ++ ta) ++ ' ' :: b) =
        some (("https://".toList) ++ ta, ' ' :: b) := by
      rw [List.append_assoc]
      exact matchUrlAt_https_gen hta hane hrest
    rw [find_urls, show (("https://".toList) ++ ta) ++ ' ' :: b =
      'h' :: (("ttps://".toList ++ ta) ++ ' ' :: b) from by simp,
      findUrlsAux_cons_some (by
        rw [show 'h' :: (("ttps://".toList ++ ta) ++ ' ' :: b) =
          (("https://".toList) ++ ta) ++ ' ' :: b from by simp]
        exact hm), hb1, hb2]
  · have hm : matchUrlAt ((("http://".toList) ++ ta) ++ ' ' :: b) =
        some (("http://".toList) ++ ta, ' ' :: b) := by
      rw [List.append_assoc]
      exact matchUrlAt_http_gen hta hane hrest
    rw [find_urls, show (("http://".toList) ++ ta) ++ ' ' :: b =
      'h' :: (("ttp://".toList ++ ta) ++ ' ' :: b) from by simp,
      findUrlsAux_cons_some (by
        rw [show 'h' :: (("ttp://".toList ++ ta) ++ ' ' :: b) =
          (("http://".toList) ++ ta) ++ ' ' :: b from by simp]
        exact hm), hb1, hb2]

theorem addUtmQuery_no_query {p : ParseResult} (hq : p.query = [])
    (S M C : List Char) :
    addUtmQuery p S M C =
      ("utm_source=".toList) ++ pyQuotePlus S ++
        ("&utm_medium=".toList) ++ pyQuotePlus M ++
        ("&utm_campaign=".toList) ++ pyQuotePlus C := by
  rw [addUtmQuery, hq]
  rw [show parse_qsl [] = [] from rfl, show pyDictOfList [] = [] from rfl]
  have h3 : pyDictUpdate [] (utmTriple S M C) = utmTriple S M C := by
    rw [pyDictUpdate_append (by simp [dKeys]) (by
      rw [utmTriple, dKeys]
      simp only [List.map_cons, List.map_nil]
      decide), List.nil_append]
  rw [h3, utmTriple, urlencode]
  simp only [List.map_cons, List.map_nil]
  rw [show List.intercalate ['&'] [pyQuotePlus ("utm_source".toList) ++
      '=' :: pyQuotePlus S, pyQuotePlus ("utm_medium".toList) ++
      '=' :: pyQuotePlus M, pyQuotePlus ("utm_campaign".toList) ++
      '=' :: pyQuotePlus C] =
    (pyQuotePlus ("utm_source".toList) ++ '=' :: pyQuotePlus S) ++ '&' ::
      ((pyQuotePlus ("utm_medium".toList) ++ '=' :: pyQuotePlus M) ++ '&' ::
        (pyQuotePlus ("utm_campaign".toList) ++ '=' :: pyQuotePlus C)) from by
    simp [List.intercalate, List.intersperse]]
  rw [show pyQuotePlus ("utm_source".toList) = ("utm_source".toList) from by decide,
    show pyQuotePlus ("utm_medium".toList) = ("utm_medium".toList) from by decide,
    show pyQuotePlus ("utm_campaign".toList) = ("utm_campaign".toList) from by decide]
  simp

theorem urlunsplit_add_query (scheme netloc url : List Char) {q2 : List Char}
    (hq2 : q2 ≠ []) :
    urlunsplit scheme netloc url q2 [] =
      urlunsplit scheme netloc url [] [] ++ '?' :: q2 := by
  rw [urlunsplit, urlunsplit]
  simp only [if_neg (show ¬ (([] : List Char) ≠ []) by simp), if_pos hq2]

theorem urlunparse_set_query {p : ParseResult} (hq : p.query = [])
    (hf : p.fragment = []) {q2 : List Char} (hq2 : q2 ≠ []) :
    urlunparse { p with query := q2 } = urlunparse p ++ '?' :: q2 := by
  rw [urlunparse, urlunparse]
  dsimp only
  rw [hq, hf]
  exact urlunsplit_add_query _ _ _ hq2

/-! ## The claims -/

/-- C1 (amended): for a URL that parses, reserializes to itself, and has
neither an existing query nor a fragment, `add_utm_to_url` returns the URL
followed by `?utm_source=<S>&utm_medium=<M>&utm_campaign=<C>`, the three
values encoded by `quote_plus`.  (As frozen the claim is refuted by URLs
with a fragment: the query is inserted before `#`, not appended.) -/
theorem claim_C1 {u S M C : List Char} {p : ParseResult}
    (hp : urlparse u = some p) (hq : p.query = [])
    (hf : p.fragment = []) (hround : urlunparse p = u)
    (_himg : is_image p.path = false) :
    add_utm_to_url u S M C = some (u ++ '?' ::
      (("utm_source=".toList) ++ pyQuotePlus S ++
       ("&utm_medium=".toList) ++ pyQuotePlus M ++
       ("&utm_campaign=".toList) ++ pyQuotePlus C)) := by
  rw [add_utm_to_url_eq hp, urlunparse_set_query hq hf
    (addUtmQuery_ne_nil p S M C), hround, addUtmQuery_no_query hq]

/-- C1 witness: a query-free, fragment-free non-image URL gains exactly the
three tracking parameters. -/
theorem claim_C1_witness :
    add_utm_to_url ("https://x.io/p".toList) ("s".toList) ("m".toList)
      ("c".toList) =
      some ("https://x.io/p?utm_source=s&utm_medium=m&utm_campaign=c".toList) := by
  have h := @claim_C1 ("https://x.io/p".toList) ("s".toList) ("m".toList)
    ("c".toList) ⟨("https".toList), ("x.io".toList), ("/p".toList), [], [], []⟩
    (by decide) rfl rfl (by decide) (by decide)
  rw [h]
  decide

/-- C1 counterexample: on a query-free non-image URL with a fragment the
output is not an extension of the input URL at all — the query is inserted
before the fragment. -/
theorem claim_C1_counterexample :
    ∃ out, add_utm_to_url ("https://a.com/x#f".toList) ("s".toList)
        ("m".toList) ("c".toList) = some out ∧
      urlparse ("https://a.com/x#f".toList) =
        some ⟨("https".toList), ("a.com".toList), ("/x".toList), [], [],
          ['f']⟩ ∧
      is_image ("/x".toList) = false ∧
      ("https://a.com/x#f".toList).isPrefixOf out = false := by
  refine ⟨("https://a.com/x?utm_source=s&utm_medium=m&utm_campaign=c#f".toList),
    ?_, ?_, ?_, ?_⟩ <;> decide

/-- C2 (amended): if every URL located in the text is an image URL, the
transform returns the text byte-identical.  (As frozen the claim is refuted:
a non-image URL that is a prefix of an image URL corrupts the image URL
occurrence through global string replacement.) -/
theorem claim_C2 {text S M C : List Char} {parsed : List ParseResult}
    (hm : (find_urls text).mapM urlparse = some parsed)
    (himg : ∀ p ∈ parsed, is_image p.path = true) :
    add_utm_to_all_urls text S M C = some text := by
  rw [add_utm_to_all_urls, hm]
  have hfil : parsed.filter (fun p => ¬ is_image p.path) = [] := by
    rw [List.filter_eq_nil_iff]
    intro p hp
    simp [himg p hp]
  dsimp only
  rw [hfil]
  rfl

/-- C2 witness: a text whose only URL is an image URL is returned
unchanged. -/
theorem claim_C2_witness :
    add_utm_to_all_urls ("see https://a.com/x.png ok".toList) ("s".toList)
      ("m".toList) ("c".toList) = some ("see https://a.com/x.png ok".toList) := by
  have hf : find_urls ("see https://a.com/x.png ok".toList) =
      [("https://a.com/x.png".toList)] := by
    simp [find_urls, findUrlsAux, matchUrlAt, List.isPrefixOf, urlChar,
      pyIsSpace]
  exact @claim_C2 _ _ _ _ [⟨("https".toList), ("a.com".toList),
    ("/x.png".toList), [], [], []⟩] (by rw [hf]; decide) (by decide)

set_option maxRecDepth 8000 in
/-- C2 counterexample: the image URL `https://a.com/x.png` is located in the
text and classified as an image, yet its occurrence does not survive
byte-identical: replacing the non-image URL `https://a.com/x` rewrites the
image URL's prefix as well. -/
theorem claim_C2_counterexample :
    ∃ T, add_utm_to_all_urls ("https://a.com/x https://a.com/x.png".toList)
        ("s".toList) ("m".toList) ("c".toList) = some T ∧
      ("https://a.com/x.png".toList) ∈
        find_urls ("https://a.com/x https://a.com/x.png".toList) ∧
      is_image ("/x.png".toList) = true ∧
      ¬ (("https://a.com/x.png".toList) <:+: T) := by
  have hf : find_urls ("https://a.com/x https://a.com/x.png".toList) =
      [("https://a.com/x".toList), ("https://a.com/x.png".toList)] :=
    @find_urls_two _ ("a.com/x".toList) _ ("a.com/x.png".toList)
      (Or.inl rfl) (by decide) (by decide) (Or.inl rfl) (by decide) (by decide)
  refine ⟨("https://a.com/x?utm_source=s&utm_medium=m&utm_campaign=c https://a.com/x?utm_source=s&utm_medium=m&utm_campaign=c.png".toList),
    ?_, ?_, by decide, by decide⟩
  · rw [add_utm_to_all_urls, hf,
      show [("https://a.com/x".toList), ("https://a.com/x.png".toList)].mapM
          urlparse =
        some [⟨("https".toList), ("a.com".toList), ("/x".toList), [], [], []⟩,
          ⟨("https".toList), ("a.com".toList), ("/x.png".toList), [], [],
            []⟩] from by decide]
    dsimp only
    rw [show ([⟨("https".toList), ("a.com".toList), ("/x".toList), [], [], []⟩,
        (⟨("https".toList), ("a.com".toList), ("/x.png".toList), [], [],
          []⟩ : ParseResult)].filter (fun p => ¬ is_image p.path)) =
      [⟨("https".toList), ("a.com".toList), ("/x".toList), [], [], []⟩] from
        by decide]
    rw [List.map_cons, List.map_nil]
    rw [show pyDictOfList [((⟨("https".toList), ("a.com".toList),
        ("/x".toList), [], [], []⟩ : ParseResult).geturl,
        add_utm_parsed ⟨("https".toList), ("a.com".toList), ("/x".toList),
          [], [], []⟩ ("s".toList) ("m".toList) ("c".toList))] =
      [(("https://a.com/x".toList),
        ("https://a.com/x?utm_source=s&utm_medium=m&utm_campaign=c".toList))]
      from by decide]
    rw [List.foldl_cons, List.foldl_nil]
    rw [show pyReplace ("https://a.com/x https://a.com/x.png".toList)
        ("https://a.com/x".toList)
        ("https://a.com/x?utm_source=s&utm_medium=m&utm_campaign=c".toList) =
      ("https://a.com/x?utm_source=s&utm_medium=m&utm_campaign=c https://a.com/x?utm_source=s&utm_medium=m&utm_campaign=c.png".toList)
      from by
        simp [pyReplace, pyReplaceAux, List.isPrefixOf]]
  · rw [hf]
    simp

/-- C3: if the URL parses and `(k, v)` is one of the three tracking pairs
with a nonempty value, then even when the existing query already binds the
key `k`, the output URL reparses to a query in which `k` is bound to the
caller-supplied value `v` — tracking keys win on collision. -/
theorem claim_C3 {u S M C k v oldv : List Char} {p : ParseResult}
    (hp : urlparse u = some p)
    (hkv : (k, v) ∈ utmTriple S M C) (hv : v ≠ [])
    (_hold : dLookup k (pyDictOfList (parse_qsl p.query)) = some oldv) :
    ∃ out p2, add_utm_to_url u S M C = some out ∧ urlparse out = some p2 ∧
      dLookup k (pyDictOfList (parse_qsl p2.query)) = some v := by
  refine ⟨_, _, add_utm_to_url_eq hp S M C, add_utm_output_reparse hp S M C, ?_⟩
  apply dLookup_addUtmQuery _ hv
  rw [utmTriple] at hkv
  simp only [List.mem_cons, List.not_mem_nil, or_false] at hkv
  rcases hkv with hkv | hkv | hkv
  all_goals rw [Prod.mk.injEq] at hkv
  all_goals rw [hkv.1, hkv.2]
  · exact dLookup_utm_source _ _ _ _
  · exact dLookup_utm_medium _ _ _ _
  · exact dLookup_utm_campaign _ _ _ _

/-- C3 witness: `utm_source=old` is overridden by the supplied value
`new`. -/
theorem claim_C3_witness :
    ∃ out p2, add_utm_to_url ("http://a.com/p?utm_source=old".toList)
        ("new".toList) ("m".toList) ("c".toList) = some out ∧
      urlparse out = some p2 ∧
      dLookup ("utm_source".toList) (pyDictOfList (parse_qsl p2.query)) =
        some ("new".toList) := by
  have hq : parse_qsl ("utm_source=old".toList) =
      [(("utm_source".toList), ("old".toList))] := by
    simp [parse_qsl, splitOnChar, pyParseQslPair, splitAtFirst, pyUnquotePlus,
      plusToSpace, pyUnquote_cons_lit, pyUnquote_nil]
  exact @claim_C3 ("http://a.com/p?utm_source=old".toList) ("new".toList)
    ("m".toList) ("c".toList) ("utm_source".toList) ("new".toList)
    ("old".toList)
    ⟨("http".toList), ("a.com".toList), ("/p".toList), [],
      ("utm_source=old".toList), []⟩
    (by decide) (by decide) (by decide)
    (by
      show dLookup _ (pyDictOfList (parse_qsl ("utm_source=old".toList))) = _
      rw [hq]
      decide)

/-- C4 (amended): the transform returns normally precisely when every
located URL parses; a located URL whose authority has unbalanced square
brackets makes `urlparse` raise `ValueError`, and the exception propagates
out of `add_utm_to_all_urls`.  (As frozen the totality claim is refuted by
such URLs.) -/
theorem claim_C4 (text S M C : List Char) :
    add_utm_to_all_urls text S M C = none ↔
      (find_urls text).mapM urlparse = none := by
  rw [add_utm_to_all_urls]
  cases h : (find_urls text).mapM urlparse with
  | none => simp
  | some parsed => simp

/-- C4 counterexample: a URL-shaped substring with an unbalanced `[` in its
authority makes the whole transform raise instead of returning. -/
theorem claim_C4_counterexample :
    add_utm_to_all_urls ("see http://[oops".toList) ("s".toList) ("m".toList)
      ("c".toList) = none := by
  have hf : find_urls ("see http://[oops".toList) =
      [("http://[oops".toList)] := by
    simp [find_urls, findUrlsAux, matchUrlAt, List.isPrefixOf, urlChar,
      pyIsSpace]
  rw [add_utm_to_all_urls, hf,
    show [("http://[oops".toList)].mapM urlparse = none from by decide]

/-- C5: an existing query parameter `foo=bar` whose name is none of the
three tracking keys survives annotation: the output URL reparses to a query
still binding `foo` to `bar`. -/
theorem claim_C5 {u S M C foo bar : List Char} {p : ParseResult}
    (hp : urlparse u = some p)
    (_himg : is_image p.path = false)
    (hfoo : dLookup foo (pyDictOfList (parse_qsl p.query)) = some bar)
    (hnotutm : foo ∉ dKeys (utmTriple S M C)) :
    ∃ out p2, add_utm_to_url u S M C = some out ∧ urlparse out = some p2 ∧
      dLookup foo (pyDictOfList (parse_qsl p2.query)) = some bar := by
  refine ⟨_, _, add_utm_to_url_eq hp S M C, add_utm_output_reparse hp S M C, ?_⟩
  have hbar : bar ≠ [] :=
    parse_qsl_value_ne_nil (mem_pyDictOfList (dLookup_mem hfoo))
  apply dLookup_addUtmQuery _ hbar
  rw [dLookup_pyDictUpdate_not_mem]
  · exact hfoo
  · intro q hq habs
    exact hnotutm (habs ▸ List.mem_map.mpr ⟨q, hq, rfl⟩)

/-- C5 witness: `foo=bar` is retained next to the tracking parameters. -/
theorem claim_C5_witness :
    ∃ out p2, add_utm_to_url ("http://a.com/p?foo=bar".toList)
        ("s".toList) ("m".toList) ("c".toList) = some out ∧
      urlparse out = some p2 ∧
      dLookup ("foo".toList) (pyDictOfList (parse_qsl p2.query)) =
        some ("bar".toList) := by
  have hq : parse_qsl ("foo=bar".toList) =
      [(("foo".toList), ("bar".toList))] := by
    simp [parse_qsl, splitOnChar, pyParseQslPair, splitAtFirst, pyUnquotePlus,
      plusToSpace, pyUnquote_cons_lit, pyUnquote_nil]
  exact @claim_C5 ("http://a.com/p?foo=bar".toList) ("s".toList) ("m".toList)
    ("c".toList) ("foo".toList) ("bar".toList)
    ⟨("http".toList), ("a.com".toList), ("/p".toList), [],
      ("foo=bar".toList), []⟩
    (by decide) (by decide)
    (by
      show dLookup _ (pyDictOfList (parse_qsl ("foo=bar".toList))) = _
      rw [hq]
      decide)
    (by decide)

/-- C6: annotation changes only the query component — the output URL
reparses to the same scheme, netloc, path, params and fragment as the
input. -/
theorem claim_C6 {u S M C : List Char} {p : ParseResult}
    (hp : urlparse u = some p) :
    ∃ out p2, add_utm_to_url u S M C = some out ∧ urlparse out = some p2 ∧
      p2.scheme = p.scheme ∧ p2.netloc = p.netloc ∧ p2.path = p.path ∧
      p2.params = p.params ∧ p2.fragment = p.fragment :=
  ⟨_, _, add_utm_to_url_eq hp S M C, add_utm_output_reparse hp S M C,
    rfl, rfl, rfl, rfl, rfl⟩

/-- C6 witness: on a URL with every component populated (scheme, netloc,
path, params, query, fragment), all components except the query survive. -/
theorem claim_C6_witness :
    ∃ out p2, add_utm_to_url ("https://a.com/p;x?q=1#z".toList)
        ("s".toList) ("m".toList) ("c".toList) = some out ∧
      urlparse out = some p2 ∧
      p2.scheme = ("https".toList) ∧ p2.netloc = ("a.com".toList) ∧
      p2.path = ("/p".toList) ∧ p2.params = ['x'] ∧ p2.fragment = ['z'] :=
  @claim_C6 ("https://a.com/p;x?q=1#z".toList) ("s".toList) ("m".toList)
    ("c".toList)
    ⟨("https".toList), ("a.com".toList), ("/p".toList), ['x'],
      ("q=1".toList), ['z']⟩
    (by decide)

/-- C7 (amended): `find_urls` performs the leftmost non-overlapping scan:
repeatedly, the first position of the text carrying a candidate (a scheme
token `http://` or `https://` followed by the longest nonempty run of
characters that are neither whitespace nor `(` nor `)`) is emitted and the
scan resumes immediately after the candidate; duplicates are kept.  (As
frozen the claim is refuted: a token occurrence inside an earlier match is
not returned.) -/
theorem claim_C7 (text : List Char) : find_urls text = findUrlsSpec text :=
  find_urls_eq_spec text

/-- C7 counterexample: in `http://ahttp://b` a second candidate starts at
position 8, so the frozen claim ("exactly the substrings that start with
the literal token") demands two results, but the non-overlapping scan
returns only the outer match. -/
theorem claim_C7_counterexample :
    find_urls ("http://ahttp://b".toList) = [("http://ahttp://b".toList)] ∧
      findUrlsAllStarts ("http://ahttp://b".toList) =
        [("http://ahttp://b".toList), ("http://b".toList)] := by
  constructor
  · exact find_urls_token (Or.inr rfl) (by decide) (by decide)
  · decide

/-- C8 (amended): `is_image` holds iff the name computed as
`PurePosixPath(p).name` — the last component after discarding empty and `.`
components — ends in a dot followed by one of the six extensions,
case-sensitively.  (As frozen the claim is refuted: with a trailing `/.`
the plain final segment is `.`, yet a directory component ending in an
image extension makes `is_image` true.) -/
theorem claim_C8 (p : List Char) :
    is_image p = true ↔
      ∃ ext ∈ imageSuffixes, ∃ pre, posixPathName p = pre ++ '.' :: ext := by
  rw [is_image, List.any_eq_true]
  constructor
  · rintro ⟨ext, hext, hsuf⟩
    obtain ⟨pre, hpre⟩ := List.isSuffixOf_iff_suffix.mp hsuf
    exact ⟨ext, hext, pre, hpre.symm⟩
  · rintro ⟨ext, hext, pre, hpre⟩
    exact ⟨ext, hext, List.isSuffixOf_iff_suffix.mpr ⟨pre, hpre.symm⟩⟩

/-- C8 counterexample: `x.png/.` is classified as an image although its
final slash-separated segment is `.`, which carries no image suffix — the
`.png` lives on a directory component. -/
theorem claim_C8_counterexample :
    is_image ("x.png/.".toList) = true ∧
      lastPathSegment ("x.png/.".toList) = ['.'] ∧
      ¬ ∃ ext ∈ imageSuffixes, ∃ pre,
        lastPathSegment ("x.png/.".toList) = pre ++ '.' :: ext := by
  refine ⟨by decide, by decide, ?_⟩
  rintro ⟨ext, hext, pre, hpre⟩
  rw [show lastPathSegment ("x.png/.".toList) = ['.'] from by decide] at hpre
  have hlen := congrArg List.length hpre
  simp only [List.length_append, List.length_cons, List.length_singleton] at hlen
  rw [imageSuffixes] at hext
  simp only [List.mem_cons, List.not_mem_nil, or_false] at hext
  rcases hext with rfl | rfl | rfl | rfl | rfl | rfl <;> simp at hlen

/-- C9 (amended): re-running the transform with the identical nonempty
tracking triple is idempotent on a text that consists of a single located,
parse-stable, non-image URL with an `http`/`https` scheme and a nonempty
authority.  (As frozen the claim is refuted: with several located URLs,
global string replacement can corrupt a URL on the first pass and the
second pass then rewrites the corrupted occurrence further.) -/
theorem claim_C9 {text tail S M C : List Char} {p : ParseResult}
    (hp : urlparse text = some p) (hstable : urlunparse p = text)
    (htok : text = ("https://".toList) ++ tail ∨
      text = ("http://".toList) ++ tail)
    (htail : ∀ c ∈ tail, urlChar c = true) (htne : tail ≠ [])
    (hsch : p.scheme = ("http".toList) ∨ p.scheme = ("https".toList))
    (hnl : p.netloc ≠ []) (himg : is_image p.path = false)
    (hS : S ≠ []) (hM : M ≠ []) (hC : C ≠ []) :
    ∃ t1, add_utm_to_all_urls text S M C = some t1 ∧
      add_utm_to_all_urls t1 S M C = some t1 :=
  add_utm_single_idem hp hstable htok htail htne hsch hnl himg hS hM hC

/-- C9 witness: a second pass over the annotated form of a single URL
reproduces it byte-identically. -/
theorem claim_C9_witness :
    ∃ t1, add_utm_to_all_urls ("http://a.com/p".toList) ("s".toList)
        ("m".toList) ("c".toList) = some t1 ∧
      add_utm_to_all_urls t1 ("s".toList) ("m".toList) ("c".toList) =
        some t1 :=
  @claim_C9 ("http://a.com/p".toList) ("a.com/p".toList) ("s".toList)
    ("m".toList) ("c".toList)
    ⟨("http".toList), ("a.com".toList), ("/p".toList), [], [], []⟩
    (by decide) (by decide) (Or.inr rfl) (by decide) (by decide)
    (Or.inl rfl) (by decide) (by decide) (by decide) (by decide) (by decide)

set_option maxHeartbeats 2000000 in
set_option maxRecDepth 10000 in
/-- C9 counterexample: on a text with two located URLs, one a prefix of the
other, the first pass corrupts the longer URL by global replacement and the
second pass with the identical triple rewrites the corrupted occurrence
again, so the transform is not idempotent. -/
theorem claim_C9_counterexample :
    ∃ t1 t2,
      add_utm_to_all_urls ("http://a http://a?x=1".toList) ("s".toList)
        ("m".toList) ("c".toList) = some t1 ∧
      add_utm_to_all_urls t1 ("s".toList) ("m".toList) ("c".toList) =
        some t2 ∧ t1 ≠ t2 := by
  have hqx : parse_qsl ("x=1".toList) = [(['x'], ['1'])] := by
    simp [parse_qsl, splitOnChar, pyParseQslPair, splitAtFirst, pyUnquotePlus,
      plusToSpace, pyUnquote_cons_lit, pyUnquote_nil]
  have hf1 : find_urls ("http://a http://a?x=1".toList) =
      [("http://a".toList), ("http://a?x=1".toList)] :=
    @find_urls_two _ (['a']) _ ("a?x=1".toList)
      (Or.inr rfl) (by decide) (by decide) (Or.inr rfl) (by decide) (by decide)
  have hA2 : add_utm_parsed ⟨("http".toList), ['a'], [], [], ("x=1".toList), []⟩
      ("s".toList) ("m".toList) ("c".toList) = ("http://a?x=1&utm_source=s&utm_medium=m&utm_campaign=c".toList) := by
    rw [add_utm_parsed_eq, addUtmQuery]
    rw [show (⟨("http".toList), ['a'], [], [], ("x=1".toList), []⟩ :
      ParseResult).query = ("x=1".toList) from rfl, hqx]
    decide
  have hrep1 : pyReplace ("http://a http://a?x=1".toList) ("http://a".toList)
      ("http://a?utm_source=s&utm_medium=m&utm_campaign=c".toList) = ("http://a?utm_source=s&utm_medium=m&utm_campaign=c http://a?utm_source=s&utm_medium=m&utm_campaign=c?x=1".toList) := by
    simp [pyReplace, pyReplaceAux, List.isPrefixOf]
  have hrep2 : pyReplace ("http://a?utm_source=s&utm_medium=m&utm_campaign=c http://a?utm_source=s&utm_medium=m&utm_campaign=c?x=1".toList) ("http://a?x=1".toList)
      ("http://a?x=1&utm_source=s&utm_medium=m&utm_campaign=c".toList) = ("http://a?utm_source=s&utm_medium=m&utm_campaign=c http://a?utm_source=s&utm_medium=m&utm_campaign=c?x=1".toList) := by
    simp [pyReplace, pyReplaceAux, List.isPrefixOf]
  have hpass1 : add_utm_to_all_urls ("http://a http://a?x=1".toList)
      ("s".toList) ("m".toList) ("c".toList) = some ("http://a?utm_source=s&utm_medium=m&utm_campaign=c http://a?utm_source=s&utm_medium=m&utm_campaign=c?x=1".toList) := by
    rw [add_utm_to_all_urls, hf1,
      show [("http://a".toList), ("http://a?x=1".toList)].mapM urlparse =
        some [⟨("http".toList), ['a'], [], [], [], []⟩,
          ⟨("http".toList), ['a'], [], [], ("x=1".toList), []⟩] from by decide]
    dsimp only
    rw [show ([(⟨("http".toList), ['a'], [], [], [], []⟩ : ParseResult),
        ⟨("http".toList), ['a'], [], [], ("x=1".toList), []⟩].filter
        (fun p => ¬ is_image p.path)) =
      [⟨("http".toList), ['a'], [], [], [], []⟩,
        ⟨("http".toList), ['a'], [], [], ("x=1".toList), []⟩] from by decide]
    rw [List.map_cons, List.map_cons, List.map_nil, hA2]
    rw [show add_utm_parsed (⟨("http".toList), ['a'], [], [], [], []⟩ :
        ParseResult) ("s".toList) ("m".toList) ("c".toList) =
      ("http://a?utm_source=s&utm_medium=m&utm_campaign=c".toList) from by decide]
    rw [show (⟨("http".toList), ['a'], [], [], [], []⟩ : ParseResult).geturl =
      ("http://a".toList) from by decide]
    rw [show (⟨("http".toList), ['a'], [], [], ("x=1".toList), []⟩ :
      ParseResult).geturl = ("http://a?x=1".toList) from by decide]
    rw [show pyDictOfList [(("http://a".toList), ("http://a?utm_source=s&utm_medium=m&utm_campaign=c".toList)),
        (("http://a?x=1".toList), ("http://a?x=1&utm_source=s&utm_medium=m&utm_campaign=c".toList))] =
      [(("http://a".toList), ("http://a?utm_source=s&utm_medium=m&utm_campaign=c".toList)),
        (("http://a?x=1".toList), ("http://a?x=1&utm_source=s&utm_medium=m&utm_campaign=c".toList))] from by decide]
    rw [List.foldl_cons]
    dsimp only
    rw [hrep1, List.foldl_cons]
    dsimp only
    rw [hrep2, List.foldl_nil]
  have hqq1 : parse_qsl ("utm_source=s&utm_medium=m&utm_campaign=c".toList) =
      [(("utm_source".toList), ['s']), (("utm_medium".toList), ['m']),
        (("utm_campaign".toList), ['c'])] := by
    simp [parse_qsl, splitOnChar, pyParseQslPair, splitAtFirst, pyUnquotePlus,
      plusToSpace, pyUnquote_cons_lit, pyUnquote_nil]
  have hqq2 : parse_qsl ("utm_source=s&utm_medium=m&utm_campaign=c?x=1".toList) =
      [(("utm_source".toList), ['s']), (("utm_medium".toList), ['m']),
        (("utm_campaign".toList), ("c?x=1".toList))] := by
    simp [parse_qsl, splitOnChar, pyParseQslPair, splitAtFirst, pyUnquotePlus,
      plusToSpace, pyUnquote_cons_lit, pyUnquote_nil]
  have hf2 : find_urls ("http://a?utm_source=s&utm_medium=m&utm_campaign=c http://a?utm_source=s&utm_medium=m&utm_campaign=c?x=1".toList) = [("http://a?utm_source=s&utm_medium=m&utm_campaign=c".toList), ("http://a?utm_source=s&utm_medium=m&utm_campaign=c?x=1".toList)] :=
    @find_urls_two _ ("a?utm_source=s&utm_medium=m&utm_campaign=c".toList) _ ("a?utm_source=s&utm_medium=m&utm_campaign=c?x=1".toList)
      (Or.inr rfl) (by decide) (by decide) (Or.inr rfl) (by decide) (by decide)
  have hann1 : add_utm_parsed ⟨("http".toList), ['a'], [], [], ("utm_source=s&utm_medium=m&utm_campaign=c".toList),
      []⟩ ("s".toList) ("m".toList) ("c".toList) = ("http://a?utm_source=s&utm_medium=m&utm_campaign=c".toList) := by
    rw [add_utm_parsed_eq, addUtmQuery]
    rw [show (⟨("http".toList), ['a'], [], [], ("utm_source=s&utm_medium=m&utm_campaign=c".toList), []⟩ :
      ParseResult).query = ("utm_source=s&utm_medium=m&utm_campaign=c".toList) from rfl, hqq1]
    decide
  have hann2 : add_utm_parsed ⟨("http".toList), ['a'], [], [], ("utm_source=s&utm_medium=m&utm_campaign=c?x=1".toList),
      []⟩ ("s".toList) ("m".toList) ("c".toList) = ("http://a?utm_source=s&utm_medium=m&utm_campaign=c".toList) := by
    rw [add_utm_parsed_eq, addUtmQuery]
    rw [show (⟨("http".toList), ['a'], [], [], ("utm_source=s&utm_medium=m&utm_campaign=c?x=1".toList), []⟩ :
      ParseResult).query = ("utm_source=s&utm_medium=m&utm_campaign=c?x=1".toList) from rfl, hqq2]
    decide
  have hrep3 : pyReplace ("http://a?utm_source=s&utm_medium=m&utm_campaign=c http://a?utm_source=s&utm_medium=m&utm_campaign=c?x=1".toList) ("http://a?utm_source=s&utm_medium=m&utm_campaign=c?x=1".toList) ("http://a?utm_source=s&utm_medium=m&utm_campaign=c".toList) =
      ("http://a?utm_source=s&utm_medium=m&utm_campaign=c http://a?utm_source=s&utm_medium=m&utm_campaign=c".toList) := by
    simp [pyReplace, pyReplaceAux, List.isPrefixOf]
  have hpass2 : add_utm_to_all_urls ("http://a?utm_source=s&utm_medium=m&utm_campaign=c http://a?utm_source=s&utm_medium=m&utm_campaign=c?x=1".toList) ("s".toList) ("m".toList)
      ("c".toList) = some ("http://a?utm_source=s&utm_medium=m&utm_campaign=c http://a?utm_source=s&utm_medium=m&utm_campaign=c".toList) := by
    rw [add_utm_to_all_urls, hf2,
      show [("http://a?utm_source=s&utm_medium=m&utm_campaign=c".toList), ("http://a?utm_source=s&utm_medium=m&utm_campaign=c?x=1".toList)].mapM urlparse =
        some [⟨("http".toList), ['a'], [], [], ("utm_source=s&utm_medium=m&utm_campaign=c".toList), []⟩,
          ⟨("http".toList), ['a'], [], [], ("utm_source=s&utm_medium=m&utm_campaign=c?x=1".toList), []⟩] from by decide]
    dsimp only
    rw [show ([(⟨("http".toList), ['a'], [], [], ("utm_source=s&utm_medium=m&utm_campaign=c".toList), []⟩ :
        ParseResult),
        ⟨("http".toList), ['a'], [], [], ("utm_source=s&utm_medium=m&utm_campaign=c?x=1".toList), []⟩].filter
        (fun p => ¬ is_image p.path)) =
      [⟨("http".toList), ['a'], [], [], ("utm_source=s&utm_medium=m&utm_campaign=c".toList), []⟩,
        ⟨("http".toList), ['a'], [], [], ("utm_source=s&utm_medium=m&utm_campaign=c?x=1".toList), []⟩] from by decide]
    rw [List.map_cons, List.map_cons, List.map_nil, hann1, hann2]
    rw [show (⟨("http".toList), ['a'], [], [], ("utm_source=s&utm_medium=m&utm_campaign=c".toList), []⟩ :
      ParseResult).geturl = ("http://a?utm_source=s&utm_medium=m&utm_campaign=c".toList) from by decide]
    rw [show (⟨("http".toList), ['a'], [], [], ("utm_source=s&utm_medium=m&utm_campaign=c?x=1".toList), []⟩ :
      ParseResult).geturl = ("http://a?utm_source=s&utm_medium=m&utm_campaign=c?x=1".toList) from by decide]
    rw [show pyDictOfList [(("http://a?utm_source=s&utm_medium=m&utm_campaign=c".toList), ("http://a?utm_source=s&utm_medium=m&utm_campaign=c".toList)),
        (("http://a?utm_source=s&utm_medium=m&utm_campaign=c?x=1".toList), ("http://a?utm_source=s&utm_medium=m&utm_campaign=c".toList))] =
      [(("http://a?utm_source=s&utm_medium=m&utm_campaign=c".toList), ("http://a?utm_source=s&utm_medium=m&utm_campaign=c".toList)), (("http://a?utm_source=s&utm_medium=m&utm_campaign=c?x=1".toList), ("http://a?utm_source=s&utm_medium=m&utm_campaign=c".toList))]
      from by decide]
    rw [List.foldl_cons]
    dsimp only
    rw [pyReplace_self, List.foldl_cons]
    dsimp only
    rw [hrep3, List.foldl_nil]
  exact ⟨("http://a?utm_source=s&utm_medium=m&utm_campaign=c http://a?utm_source=s&utm_medium=m&utm_campaign=c?x=1".toList), ("http://a?utm_source=s&utm_medium=m&utm_campaign=c http://a?utm_source=s&utm_medium=m&utm_campaign=c".toList), hpass1, hpass2, by decide⟩

/-- C10: a query field that `parse_qsl` drops — an empty field, a bare
token without `=`, or a `name=` field with an empty value — contributes
nothing to the merge: provided no other field binds the name `n` and `n` is
not a tracking key, the output URL reparses to a query with no binding for
`n` at all. -/
theorem claim_C10 {u S M C f n : List Char} {p : ParseResult}
    (hp : urlparse u = some p)
    (_hfield : f ∈ splitOnChar '&' p.query)
    (_hdrop : pyParseQslPair f = none)
    (hnotutm : n ∉ dKeys (utmTriple S M C))
    (hnone : dLookup n (pyDictOfList (parse_qsl p.query)) = none) :
    ∃ out p2, add_utm_to_url u S M C = some out ∧ urlparse out = some p2 ∧
      dLookup n (pyDictOfList (parse_qsl p2.query)) = none := by
  refine ⟨_, _, add_utm_to_url_eq hp S M C, add_utm_output_reparse hp S M C, ?_⟩
  apply dLookup_addUtmQuery_none
  rw [dLookup_pyDictUpdate_not_mem]
  · exact hnone
  · intro q hq habs
    exact hnotutm (habs ▸ List.mem_map.mpr ⟨q, hq, rfl⟩)

/-- C10 witness: the empty-valued parameter `flag=` disappears from the
annotated URL while `x=1` survives alongside the tracking triple. -/
theorem claim_C10_witness :
    ∃ out p2, add_utm_to_url ("http://a.com/p?flag=&x=1".toList)
        ("s".toList) ("m".toList) ("c".toList) = some out ∧
      urlparse out = some p2 ∧
      dLookup ("flag".toList) (pyDictOfList (parse_qsl p2.query)) = none := by
  have hq : parse_qsl ("flag=&x=1".toList) = [(['x'], ['1'])] := by
    simp [parse_qsl, splitOnChar, pyParseQslPair, splitAtFirst, pyUnquotePlus,
      plusToSpace, pyUnquote_cons_lit, pyUnquote_nil]
  exact @claim_C10 ("http://a.com/p?flag=&x=1".toList) ("s".toList)
    ("m".toList) ("c".toList) ("flag=".toList) ("flag".toList)
    ⟨("http".toList), ("a.com".toList), ("/p".toList), [],
      ("flag=&x=1".toList), []⟩
    (by decide) (by decide) (by decide) (by decide)
    (by
      show dLookup _ (pyDictOfList (parse_qsl ("flag=&x=1".toList))) = _
      rw [hq]
      decide)
